import Mathlib

/-!
Verification of the FDB tuple-layer codec from the `fdb-rs/fdb` repository:
`src/fdb/src/tuple/{element.rs, tuple.rs, versionstamp.rs, key_util.rs}`.

Bytes are modelled as `Nat` values (well-formed when `< 256`), byte strings as
`List Nat`.  Rust's `u8` bitwise complement `!x` is `255 - x` on well-formed
bytes.  Floating point values are modelled by their IEEE-754 bit patterns
(`Nat`), which is exactly what the codec manipulates (`to_be_bytes` /
`from_be_bytes` round trip bit patterns).  Fallible code returns `Option` /
`Except`; Rust panics are modelled as `Option.none`.
-/

namespace Fdb

/-- Modelled from the spec: the crate declares `pub mod error` but the file
`error.rs` is not present under `src/`; §7 of the specification lists the
distinct error kinds used by the tuple layer, which we model as an
enumeration.  Only distinctness of the kinds matters to the code under
verification. -/
inductive FdbError where
  | tupleFromBytes
  | tupleGet
  | tuplePackWithVersionstampNotFound
  | tuplePackWithVersionstampMultipleFound
  | tupleKeyUtilStrincError
deriving DecidableEq, Repr

/-- Rust `!x` on a `u8`: bitwise complement, i.e. `255 - x` for `x < 256`. -/
def byteNot (x : Nat) : Nat := 255 - x

/-- All entries are valid bytes. -/
def ByteOk (l : List Nat) : Prop := ∀ x ∈ l, x < 256

instance : DecidablePred ByteOk := fun l =>
  inferInstanceAs (Decidable (∀ x ∈ l, x < 256))

/-- Big-endian bytes of `v`, exactly `w` bytes (Rust `to_be_bytes`, possibly
sliced to the low `w` bytes; the value is taken mod `2 ^ (8 * w)`). -/
def beBytesFixed : Nat → Nat → List Nat
  | 0, _ => []
  | w + 1, v => beBytesFixed w (v / 256) ++ [v % 256]

/-- Fuel-indexed helper for `beBytesNat`; the fuel only forces structural
termination and `beBytesNat` always supplies enough. -/
def beBytesNatAux : Nat → Nat → List Nat
  | 0, n => [n]
  | fuel + 1, n => if n < 256 then [n] else beBytesNatAux fuel (n / 256) ++ [n % 256]

/-- Minimal big-endian bytes of `n` (num-bigint `to_bytes_be` on the
magnitude; `0` encodes as the single byte `0`). -/
def beBytesNat (n : Nat) : List Nat := beBytesNatAux n n

theorem beBytesNatAux_irrel (fuel fuel' n : Nat) (h : n ≤ fuel) (h' : n ≤ fuel') :
    beBytesNatAux fuel n = beBytesNatAux fuel' n := by
  induction fuel generalizing fuel' n with
  | zero =>
    interval_cases n
    cases fuel' <;> simp [beBytesNatAux]
  | succ f ih =>
    cases fuel' with
    | zero =>
      interval_cases n
      simp [beBytesNatAux]
    | succ f' =>
      simp only [beBytesNatAux]
      by_cases hn : n < 256
      · simp [hn]
      · have hlt : n / 256 < n := Nat.div_lt_self (by omega) (by omega)
        have hd : n / 256 ≤ f := by omega
        have hd' : n / 256 ≤ f' := by omega
        simp [hn, ih f' (n / 256) hd hd']

/-- The source-shaped unfolding of `beBytesNat`. -/
theorem beBytesNat_eq (n : Nat) :
    beBytesNat n = if n < 256 then [n] else beBytesNat (n / 256) ++ [n % 256] := by
  by_cases hn : n < 256
  · cases n with
    | zero => simp [beBytesNat, beBytesNatAux, hn]
    | succ m => simp [beBytesNat, beBytesNatAux, hn]
  · have h0 : n ≠ 0 := by omega
    cases hn' : n with
    | zero => omega
    | succ m =>
      subst hn'
      have hlt : (m + 1) / 256 < m + 1 := Nat.div_lt_self (by omega) (by omega)
      simp only [beBytesNat, beBytesNatAux, if_neg hn]
      rw [beBytesNatAux_irrel m ((m + 1) / 256) ((m + 1) / 256)
        (by omega) (by omega)]

/-- Big-endian value of a byte list (Rust `get_u64` / `get_u32` / ...). -/
def fromBeBytes (l : List Nat) : Nat := l.foldl (fun a b => a * 256 + b) 0

/-- The 4 little-endian bytes of `x` (Rust `put_u32_le`). -/
def le32 (x : Nat) : List Nat :=
  [x % 256, x / 256 % 256, x / 65536 % 256, x / 16777216 % 256]

/-- Unsigned lexicographic strict order on byte strings: Rust `Ord` on
`Bytes`/`[u8]` (element-wise, a strict prefix is smaller). -/
def lexLt : List Nat → List Nat → Bool
  | [], [] => false
  | [], _ :: _ => true
  | _ :: _, [] => false
  | a :: as, b :: bs => decide (a < b) || (a == b && lexLt as bs)

/-- Non-strict lexicographic order on byte strings. -/
def lexLe (a b : List Nat) : Bool := !lexLt b a

/-- `versionstamp.rs`: twelve bytes; ten transaction-version bytes, a 16-bit
user version, and a `complete` flag. -/
structure Versionstamp where
  complete : Bool
  trVersion : List Nat
  userVersion : Nat
deriving DecidableEq, Repr

namespace Versionstamp

/-- `Versionstamp::get_bytes`: transaction version followed by the
big-endian user version. -/
def getBytes (v : Versionstamp) : List Nat :=
  v.trVersion ++ beBytesFixed 2 v.userVersion

/-- `Versionstamp::incomplete`. -/
def incomplete (userVersion : Nat) : Versionstamp :=
  { complete := false, trVersion := List.replicate 10 255, userVersion }

/-- `Versionstamp::complete`; the length-check panic is modelled as `none`. -/
def completeVs (trVersion : List Nat) (userVersion : Nat) : Option Versionstamp :=
  if trVersion.length = 10 then
    some { complete := true, trVersion, userVersion }
  else none

/-- `Versionstamp::is_complete`. -/
def isComplete (v : Versionstamp) : Bool := v.complete

/-- `Versionstamp::from_bytes`: the length-check panic is modelled as `none`;
resolved-ness is inferred by scanning the first ten bytes for one differing
from `0xFF` (the source's `for_each` over a mutable flag, as a fold). -/
def fromBytes (versionBytes : List Nat) : Option Versionstamp :=
  if versionBytes.length = 12 then
    some { complete :=
             (versionBytes.take 10).foldl
               (fun acc x => if x ≠ 255 then true else acc) false,
           trVersion := versionBytes.take 10,
           userVersion := fromBeBytes (versionBytes.drop 10) }
  else none

/-- Well-formed versionstamp: as built by the constructors. -/
def Wf (v : Versionstamp) : Prop :=
  v.trVersion.length = 10 ∧ ByteOk v.trVersion ∧ v.userVersion < 65536

instance : DecidablePred Wf := fun v => by
  unfold Wf; infer_instance

end Versionstamp

/-- `element.rs` `TupleValue`: the closed set of element variants.  Negative
integer buckets store the positive magnitude (as the Rust code does);
arbitrary-precision buckets store the magnitude as a `Nat`; floats store
their IEEE-754 bit pattern. -/
inductive TupleValue where
  | nullValue
  | byteString (b : List Nat)
  | unicodeString (s : List Nat)
  | nestedTuple (t : List TupleValue)
  | negativeArbitraryPrecisionInteger (m : Nat)
  | negInt8 (u : Nat)
  | negInt7 (u : Nat)
  | negInt6 (u : Nat)
  | negInt5 (u : Nat)
  | negInt4 (u : Nat)
  | negInt3 (u : Nat)
  | negInt2 (u : Nat)
  | negInt1 (u : Nat)
  | intZero
  | posInt1 (u : Nat)
  | posInt2 (u : Nat)
  | posInt3 (u : Nat)
  | posInt4 (u : Nat)
  | posInt5 (u : Nat)
  | posInt6 (u : Nat)
  | posInt7 (u : Nat)
  | posInt8 (u : Nat)
  | positiveArbitraryPrecisionInteger (m : Nat)
  | ieeeBinaryFloatingPointFloat (bits : Nat)
  | ieeeBinaryFloatingPointDouble (bits : Nat)
  | falseValue
  | trueValue
  | rfc4122Uuid (u : List Nat)
  | versionstamp96Bit (v : Versionstamp)

/-- Escape of byte-string payload: each `0x00` becomes `0x00 0xFF`
(`serializer::byte_string` / `serializer::unicode_string` body). -/
def escapeNul : List Nat → List Nat
  | [] => []
  | 0 :: rest => 0 :: 255 :: escapeNul rest
  | (b + 1) :: rest => (b + 1) :: escapeNul rest

/-- Payload of a float/double: big-endian IEEE bytes, all complemented when
the sign bit is set, sign bit flipped otherwise
(`serializer::ieee_binary_floating_point_float` / `_double`). -/
def floatPayload (w : Nat) (bits : Nat) : List Nat :=
  if 2 ^ (8 * w - 1) ≤ bits then (beBytesFixed w bits).map byteNot
  else
    match beBytesFixed w bits with
    | [] => []
    | b0 :: rest => (b0 + 128) :: rest

mutual

/-- `element.rs` serializer for one element in nested-tuple position (null is
`0x00 0xFF` there); all other variants serialize identically at top level. -/
def encElemN : TupleValue → List Nat
  | .nullValue => [0, 255]
  | .byteString b => 1 :: (escapeNul b ++ [0])
  | .unicodeString s => 2 :: (escapeNul s ++ [0])
  | .nestedTuple t => 5 :: (encNList t ++ [0])
  | .negativeArbitraryPrecisionInteger m =>
      11 :: byteNot (beBytesNat m).length :: (beBytesNat m).map byteNot
  | .negInt8 u => 12 :: (beBytesFixed 8 u).map byteNot
  | .negInt7 u => 13 :: (beBytesFixed 7 u).map byteNot
  | .negInt6 u => 14 :: (beBytesFixed 6 u).map byteNot
  | .negInt5 u => 15 :: (beBytesFixed 5 u).map byteNot
  | .negInt4 u => 16 :: (beBytesFixed 4 u).map byteNot
  | .negInt3 u => 17 :: (beBytesFixed 3 u).map byteNot
  | .negInt2 u => 18 :: (beBytesFixed 2 u).map byteNot
  | .negInt1 u => 19 :: (beBytesFixed 1 u).map byteNot
  | .intZero => [20]
  | .posInt1 u => 21 :: beBytesFixed 1 u
  | .posInt2 u => 22 :: beBytesFixed 2 u
  | .posInt3 u => 23 :: beBytesFixed 3 u
  | .posInt4 u => 24 :: beBytesFixed 4 u
  | .posInt5 u => 25 :: beBytesFixed 5 u
  | .posInt6 u => 26 :: beBytesFixed 6 u
  | .posInt7 u => 27 :: beBytesFixed 7 u
  | .posInt8 u => 28 :: beBytesFixed 8 u
  | .positiveArbitraryPrecisionInteger m =>
      29 :: (beBytesNat m).length :: beBytesNat m
  | .ieeeBinaryFloatingPointFloat bits => 32 :: floatPayload 4 bits
  | .ieeeBinaryFloatingPointDouble bits => 33 :: floatPayload 8 bits
  | .falseValue => [38]
  | .trueValue => [39]
  | .rfc4122Uuid u => 48 :: u
  | .versionstamp96Bit v => 51 :: v.getBytes

/-- Concatenated nested-position serializations (`serializer::nested_tuple`
body before the terminator). -/
def encNList : List TupleValue → List Nat
  | [] => []
  | x :: xs => encElemN x ++ encNList xs

end

/-- Top-level serialization of one element (`element.rs to_bytes` dispatch):
null is the single byte `0x00` at top level; every other variant serializes
as in nested position. -/
def encElem : TupleValue → List Nat
  | .nullValue => [0]
  | x => encElemN x

/-- `Tuple::pack` / `element.rs to_bytes`: concatenation of the top-level
serializations. -/
def toBytes : List TupleValue → List Nat
  | [] => []
  | x :: xs => encElem x ++ toBytes xs

mutual

/-- Whether one element contains an incomplete versionstamp (the derived
state the `Tuple` struct caches in `has_incomplete_versionstamp`, recomputed
on every append in `tuple.rs`). -/
def tvHasIncomplete : TupleValue → Bool
  | .nestedTuple t => hasIncompleteVersionstamp t
  | .versionstamp96Bit v => !v.isComplete
  | _ => false

/-- `Tuple::has_incomplete_versionstamp`: true iff some contained
versionstamp (at any nesting depth) is incomplete. -/
def hasIncompleteVersionstamp : List TupleValue → Bool
  | [] => false
  | x :: xs => tvHasIncomplete x || hasIncompleteVersionstamp xs

end

section LexLemmas

@[simp] theorem lexLt_nil_cons (b : Nat) (bs : List Nat) : lexLt [] (b :: bs) = true := rfl

@[simp] theorem lexLt_cons_cons (a b : Nat) (as bs : List Nat) :
    lexLt (a :: as) (b :: bs) = (decide (a < b) || (a == b && lexLt as bs)) := rfl

@[simp] theorem lexLt_nil_right (a : List Nat) : lexLt a [] = false := by
  cases a <;> rfl

theorem lexLt_nil_left (b : List Nat) : lexLt [] b = decide (b ≠ []) := by
  cases b <;> simp [lexLt]

@[simp] theorem lexLt_irrefl (a : List Nat) : lexLt a a = false := by
  induction a with
  | nil => rfl
  | cons x xs ih => simp [ih]

theorem lexLt_append_left (p a b : List Nat) :
    lexLt (p ++ a) (p ++ b) = lexLt a b := by
  induction p with
  | nil => rfl
  | cons x xs ih => simp [ih]

theorem lexLt_append_right (a s : List Nat) : lexLt a (a ++ s) = decide (s ≠ []) := by
  have h := lexLt_append_left a [] s
  simpa [lexLt_nil_left] using h

theorem lexLt_trichotomy (a b : List Nat) :
    lexLt a b = true ∨ a = b ∨ lexLt b a = true := by
  induction a generalizing b with
  | nil => cases b <;> simp
  | cons x xs ih =>
    cases b with
    | nil => simp
    | cons y ys =>
      rcases Nat.lt_trichotomy x y with h | h | h
      · left; simp [h]
      · subst h
        rcases ih ys with h1 | h1 | h1
        · left; simp [h1]
        · right; left; rw [h1]
        · right; right; simp [h1]
      · right; right; simp [h]

theorem lexLt_asymm {a b : List Nat} (h : lexLt a b = true) : lexLt b a = false := by
  induction a generalizing b with
  | nil => cases b with
    | nil => simp at h
    | cons y ys => simp
  | cons x xs ih =>
    cases b with
    | nil => simp at h
    | cons y ys =>
      simp only [lexLt_cons_cons, Bool.or_eq_true, decide_eq_true_eq,
        Bool.and_eq_true, beq_iff_eq] at h ⊢
      rcases h with h | ⟨rfl, h⟩
      · simp [Nat.lt_asymm h, Nat.ne_of_gt h]
      · simp [ih h]

theorem lexLt_trans {a b c : List Nat} (h1 : lexLt a b = true) (h2 : lexLt b c = true) :
    lexLt a c = true := by
  induction a generalizing b c with
  | nil =>
    cases b with
    | nil => simp at h1
    | cons y ys => cases c with
      | nil => simp at h2
      | cons z zs => simp
  | cons x xs ih =>
    cases b with
    | nil => simp at h1
    | cons y ys =>
      cases c with
      | nil => simp at h2
      | cons z zs =>
        simp only [lexLt_cons_cons, Bool.or_eq_true, decide_eq_true_eq,
          Bool.and_eq_true, beq_iff_eq] at h1 h2 ⊢
        rcases h1 with h1 | ⟨rfl, h1⟩
        · rcases h2 with h2 | ⟨rfl, h2⟩
          · exact Or.inl (Nat.lt_trans h1 h2)
          · exact Or.inl h1
        · rcases h2 with h2 | ⟨rfl, h2⟩
          · exact Or.inl h2
          · exact Or.inr ⟨rfl, ih h1 h2⟩

/-- A comparison of equal-length unequal lists is decided before any
continuation. -/
theorem lexLt_eqlen_append (A B r s : List Nat) (hlen : A.length = B.length)
    (hne : A ≠ B) : lexLt (A ++ r) (B ++ s) = lexLt A B := by
  induction A generalizing B with
  | nil =>
    cases B with
    | nil => exact absurd rfl hne
    | cons y ys => simp at hlen
  | cons x xs ih =>
    cases B with
    | nil => simp at hlen
    | cons y ys =>
      by_cases hxy : x = y
      · subst hxy
        have hne' : xs ≠ ys := fun h => hne (by rw [h])
        simp [lexLt_cons_cons, ih ys (by simpa using hlen) hne']
      · have hb : (x == y) = false := by simpa using hxy
        simp [lexLt_cons_cons, hb]

theorem lexLt_map_byteNot (A B : List Nat) (hA : ByteOk A) (hB : ByteOk B)
    (hlen : A.length = B.length) :
    lexLt (A.map byteNot) (B.map byteNot) = lexLt B A := by
  induction A generalizing B with
  | nil => cases B with
    | nil => rfl
    | cons y ys => simp at hlen
  | cons x xs ih =>
    cases B with
    | nil => simp at hlen
    | cons y ys =>
      have hx : x < 256 := hA x (by simp)
      have hy : y < 256 := hB y (by simp)
      have hxs : ByteOk xs := fun z hz => hA z (by simp [hz])
      have hys : ByteOk ys := fun z hz => hB z (by simp [hz])
      have ihh := ih ys hxs hys (by simpa using hlen)
      rcases Nat.lt_trichotomy x y with hc | hc | hc
      · have hb : byteNot y < byteNot x := by unfold byteNot; omega
        have e1 : (byteNot x == byteNot y) = false := by
          simpa using Nat.ne_of_gt hb
        have e2 : (y == x) = false := by simpa using Nat.ne_of_gt hc
        simp [Nat.lt_asymm hc, Nat.lt_asymm hb, e1, e2]
      · subst hc
        simp [ihh]
      · have hb : byteNot x < byteNot y := by unfold byteNot; omega
        simp [hb, hc]

end LexLemmas

section ByteLemmas

@[simp] theorem beBytesFixed_length (w v : Nat) : (beBytesFixed w v).length = w := by
  induction w generalizing v with
  | zero => rfl
  | succ w ih => simp [beBytesFixed, ih]

theorem beBytesFixed_byteOk (w v : Nat) : ByteOk (beBytesFixed w v) := by
  induction w generalizing v with
  | zero => intro x hx; simp [beBytesFixed] at hx
  | succ w ih =>
    intro x hx
    simp only [beBytesFixed, List.mem_append, List.mem_singleton] at hx
    rcases hx with hx | hx
    · exact ih (v / 256) x hx
    · subst hx; exact Nat.mod_lt _ (by omega)

theorem beBytesFixed_cons (w v : Nat) :
    beBytesFixed (w + 1) v = v / 256 ^ w % 256 :: beBytesFixed w v := by
  induction w generalizing v with
  | zero => simp [beBytesFixed]
  | succ w ih =>
    have h1 : beBytesFixed (w + 2) v = beBytesFixed (w + 1) (v / 256) ++ [v % 256] := rfl
    have h2 : beBytesFixed (w + 1) v = beBytesFixed w (v / 256) ++ [v % 256] := rfl
    rw [h1, ih, h2]
    have h3 : v / 256 / 256 ^ w = v / 256 ^ (w + 1) := by
      rw [Nat.div_div_eq_div_mul]
      congr 1
      rw [pow_succ]
      ring
    simp [h3]

theorem fromBeBytes_foldl_acc (l : List Nat) (acc : Nat) :
    l.foldl (fun a b => a * 256 + b) acc = acc * 256 ^ l.length + fromBeBytes l := by
  induction l generalizing acc with
  | nil => simp [fromBeBytes]
  | cons x xs ih =>
    have hx : fromBeBytes (x :: xs) = x * 256 ^ xs.length + fromBeBytes xs := by
      simp only [fromBeBytes, List.foldl_cons]
      rw [show xs.foldl (fun a b => a * 256 + b) (0 * 256 + x)
            = xs.foldl (fun a b => a * 256 + b) x by norm_num]
      exact ih x
    simp only [List.foldl_cons, List.length_cons]
    rw [ih (acc * 256 + x), hx, pow_succ]
    ring

theorem fromBeBytes_cons (b : Nat) (l : List Nat) :
    fromBeBytes (b :: l) = b * 256 ^ l.length + fromBeBytes l := by
  simp only [fromBeBytes, List.foldl_cons]
  rw [show l.foldl (fun a b => a * 256 + b) (0 * 256 + b)
        = l.foldl (fun a b => a * 256 + b) b by norm_num]
  exact fromBeBytes_foldl_acc l b

theorem fromBeBytes_beBytesFixed (w v : Nat) :
    fromBeBytes (beBytesFixed w v) = v % 256 ^ w := by
  induction w generalizing v with
  | zero => simp [beBytesFixed, fromBeBytes, Nat.mod_one]
  | succ w ih =>
    rw [beBytesFixed_cons, fromBeBytes_cons, ih, beBytesFixed_length, pow_succ,
      Nat.mod_mul]
    ring

theorem digit_decomp_lt_iff (k A1 A0 B1 B0 : Nat) (hA0 : A0 < k) (hB0 : B0 < k) :
    (A1 * k + A0 < B1 * k + B0) ↔ (A1 < B1 ∨ (A1 = B1 ∧ A0 < B0)) := by
  constructor
  · intro h
    rcases Nat.lt_trichotomy A1 B1 with h1 | h1 | h1
    · exact Or.inl h1
    · refine Or.inr ⟨h1, ?_⟩
      subst h1
      omega
    · exfalso
      have h2 : (B1 + 1) * k ≤ A1 * k := Nat.mul_le_mul_right k h1
      rw [Nat.succ_mul] at h2
      omega
  · intro h
    rcases h with h | ⟨rfl, h⟩
    · have h2 : (A1 + 1) * k ≤ B1 * k := Nat.mul_le_mul_right k h
      rw [Nat.succ_mul] at h2
      omega
    · omega

theorem lexLt_beBytesFixed (w a b : Nat) :
    lexLt (beBytesFixed w a) (beBytesFixed w b)
      = decide (a % 256 ^ w < b % 256 ^ w) := by
  induction w generalizing a b with
  | zero => simp [beBytesFixed, lexLt, Nat.mod_one]
  | succ w ih =>
    rw [beBytesFixed_cons, beBytesFixed_cons, lexLt_cons_cons, ih]
    have hda : a % 256 ^ (w + 1) = a / 256 ^ w % 256 * 256 ^ w + a % 256 ^ w := by
      rw [pow_succ, Nat.mod_mul]
      ring
    have hdb : b % 256 ^ (w + 1) = b / 256 ^ w % 256 * 256 ^ w + b % 256 ^ w := by
      rw [pow_succ, Nat.mod_mul]
      ring
    rw [hda, hdb]
    rw [show (decide (a / 256 ^ w % 256 * 256 ^ w + a % 256 ^ w
          < b / 256 ^ w % 256 * 256 ^ w + b % 256 ^ w))
        = decide (a / 256 ^ w % 256 < b / 256 ^ w % 256
            ∨ (a / 256 ^ w % 256 = b / 256 ^ w % 256 ∧ a % 256 ^ w < b % 256 ^ w))
      from by
        simp only [decide_eq_decide]
        exact digit_decomp_lt_iff (256 ^ w) _ _ _ _
          (Nat.mod_lt _ (Nat.pos_pow_of_pos w (by omega)))
          (Nat.mod_lt _ (Nat.pos_pow_of_pos w (by omega)))]
    by_cases h1 : a / 256 ^ w % 256 < b / 256 ^ w % 256
    · simp [h1]
    · by_cases h2 : a / 256 ^ w % 256 = b / 256 ^ w % 256
      · simp [h1, h2]
      · have hb : (a / 256 ^ w % 256 == b / 256 ^ w % 256) = false := by
          simpa using h2
        simp [h1, h2, hb]

theorem beBytesNat_eq_fixed (n : Nat) :
    beBytesNat n = beBytesFixed (beBytesNat n).length n := by
  induction n using Nat.strong_induction_on with
  | _ n ih =>
    by_cases h : n < 256
    · have he : beBytesNat n = [n] := by rw [beBytesNat_eq n]; simp [h]
      rw [he]
      simp [beBytesFixed, Nat.mod_eq_of_lt h]
    · have hlt : n / 256 < n := Nat.div_lt_self (by omega) (by omega)
      have he : beBytesNat n = beBytesNat (n / 256) ++ [n % 256] := by
        rw [beBytesNat_eq n]; simp [h]
      rw [he]
      conv_lhs => rw [ih (n / 256) hlt]
      simp only [List.length_append, List.length_singleton]
      rfl

theorem beBytesNat_length_pos (n : Nat) : 0 < (beBytesNat n).length := by
  rw [beBytesNat_eq n]
  by_cases h : n < 256 <;> simp [h]

theorem beBytesNat_lt (n : Nat) : n < 256 ^ (beBytesNat n).length := by
  induction n using Nat.strong_induction_on with
  | _ n ih =>
    by_cases h : n < 256
    · have he : beBytesNat n = [n] := by rw [beBytesNat_eq n]; simp [h]
      rw [he]
      simpa using h
    · have hlt : n / 256 < n := Nat.div_lt_self (by omega) (by omega)
      have ihd := ih (n / 256) hlt
      have he : beBytesNat n = beBytesNat (n / 256) ++ [n % 256] := by
        rw [beBytesNat_eq n]; simp [h]
      rw [he]
      simp only [List.length_append, List.length_singleton]
      rw [pow_succ]
      have := (Nat.div_lt_iff_lt_mul (show 0 < 256 by omega)).mp ihd
      omega

theorem beBytesNat_ge (n : Nat) (hn : 1 ≤ n) :
    256 ^ ((beBytesNat n).length - 1) ≤ n := by
  induction n using Nat.strong_induction_on with
  | _ n ih =>
    by_cases h : n < 256
    · have he : beBytesNat n = [n] := by rw [beBytesNat_eq n]; simp [h]
      rw [he]
      simpa using hn
    · have hlt : n / 256 < n := Nat.div_lt_self (by omega) (by omega)
      have hd1 : 1 ≤ n / 256 := by
        have := Nat.div_le_div_right (c := 256) (show 256 ≤ n by omega)
        simpa using this
      have ihd := ih (n / 256) hlt hd1
      have he : beBytesNat n = beBytesNat (n / 256) ++ [n % 256] := by
        rw [beBytesNat_eq n]; simp [h]
      rw [he]
      simp only [List.length_append, List.length_singleton]
      have hlp := beBytesNat_length_pos (n / 256)
      have h2 : 256 ^ ((beBytesNat (n / 256)).length - 1) * 256 ≤ n / 256 * 256 :=
        Nat.mul_le_mul_right 256 ihd
      have h3 : n / 256 * 256 ≤ n := Nat.div_mul_le_self n 256
      have h4 : 256 ^ ((beBytesNat (n / 256)).length - 1) * 256
          = 256 ^ (beBytesNat (n / 256)).length := by
        rw [← pow_succ]
        congr 1
        omega
      have h5 : (beBytesNat (n / 256)).length + 1 - 1
          = (beBytesNat (n / 256)).length := by omega
      rw [h5]
      omega

theorem beBytesNat_length_mono {m n : Nat} (h : m ≤ n) :
    (beBytesNat m).length ≤ (beBytesNat n).length := by
  by_cases hm : m = 0
  · subst hm
    have : (beBytesNat 0).length = 1 := by rw [beBytesNat_eq]; simp
    rw [this]
    exact beBytesNat_length_pos n
  · by_contra hc
    push_neg at hc
    have h1 : (beBytesNat n).length ≤ (beBytesNat m).length - 1 := by omega
    have h2 : 256 ^ (beBytesNat n).length ≤ 256 ^ ((beBytesNat m).length - 1) :=
      Nat.pow_le_pow_right (by omega) h1
    have h3 := beBytesNat_ge m (by omega)
    have h4 := beBytesNat_lt n
    omega

theorem fromBeBytes_beBytesNat (n : Nat) : fromBeBytes (beBytesNat n) = n := by
  conv_lhs => rw [beBytesNat_eq_fixed n]
  rw [fromBeBytes_beBytesFixed]
  exact Nat.mod_eq_of_lt (beBytesNat_lt n)

theorem beBytesNat_byteOk (n : Nat) : ByteOk (beBytesNat n) := by
  rw [beBytesNat_eq_fixed n]
  exact beBytesFixed_byteOk _ n

theorem lexLt_beBytesNat_eqlen {m n : Nat}
    (h : (beBytesNat m).length = (beBytesNat n).length) :
    lexLt (beBytesNat m) (beBytesNat n) = decide (m < n) := by
  conv_lhs => rw [beBytesNat_eq_fixed m, beBytesNat_eq_fixed n]
  rw [h, lexLt_beBytesFixed]
  rw [Nat.mod_eq_of_lt (h ▸ beBytesNat_lt m), Nat.mod_eq_of_lt (beBytesNat_lt n)]

end ByteLemmas

/-- `key_util.rs key_after`: append a single `0x00` byte. -/
def keyAfter (key : List Nat) : List Nat := key ++ [0]

/-- `key_util.rs rstrip_xff`: error on an empty input or when every byte is
`0xFF`; otherwise the input with its trailing `0xFF` bytes stripped (the
source walks indices from the right; stripping the longest `0xFF` suffix is
the same operation). -/
def rstripXff (input : List Nat) : Except FdbError (List Nat) :=
  if input.isEmpty then .error .tupleKeyUtilStrincError
  else
    match (input.reverse.dropWhile (· == 255)).reverse with
    | [] => .error .tupleKeyUtilStrincError
    | x :: xs => .ok (x :: xs)

/-- `key_util.rs strinc`: strip trailing `0xFF` bytes, then increment the
last remaining byte. -/
def strinc (prefixBytes : List Nat) : Except FdbError (List Nat) :=
  (rstripXff prefixBytes).map fun x => x.dropLast ++ [x.getLastD 0 + 1]

section StrincLemmas

theorem lexLt_replicate_255_eq_false (r : List Nat) (hr : ByteOk r) (m : Nat)
    (hm : r.length ≤ m) : lexLt (List.replicate m 255) r = false := by
  induction r generalizing m with
  | nil => simp
  | cons x xs ih =>
    cases m with
    | zero => simp at hm
    | succ m =>
      have hx : x < 256 := hr x (by simp)
      have hxs : ByteOk xs := fun z hz => hr z (by simp [hz])
      simp only [List.replicate_succ, lexLt_cons_cons]
      have h1 : ¬(255 < x) := by omega
      by_cases h2 : 255 = x
      · subst h2
        simp [ih hxs m (by simpa using hm)]
      · have hb : ((255 : Nat) == x) = false := by simpa using h2
        simp [h1, hb]

theorem lexLe_below_incremented (a : List Nat) (c : Nat) (r : List Nat)
    (hr : ByteOk r) (h : lexLt r (a ++ [c + 1]) = true) :
    ∃ m, lexLe r ((a ++ [c]) ++ List.replicate m 255) = true := by
  induction a generalizing r with
  | nil =>
    cases r with
    | nil =>
      exact ⟨0, by simp [lexLe]⟩
    | cons d r2 =>
      simp only [List.nil_append, lexLt_cons_cons, lexLt_nil_right,
        Bool.and_false, Bool.or_false, decide_eq_true_eq] at h
      by_cases hdc : d < c
      · refine ⟨0, ?_⟩
        have h1 : ¬(c < d) := by omega
        have h2 : (c == d) = false := by simpa using (by omega : ¬c = d)
        simp [lexLe, h1, h2]
      · have hdc2 : d = c := by omega
        subst hdc2
        refine ⟨r2.length, ?_⟩
        have hr2 : ByteOk r2 := fun z hz => hr z (by simp [hz])
        simp [lexLe, lexLt_replicate_255_eq_false r2 hr2 r2.length (le_refl _)]
  | cons x a2 ih =>
    cases r with
    | nil => exact ⟨0, by simp [lexLe]⟩
    | cons d r2 =>
      simp only [List.cons_append, lexLt_cons_cons, Bool.or_eq_true,
        decide_eq_true_eq, Bool.and_eq_true, beq_iff_eq] at h
      rcases h with h | ⟨rfl, h⟩
      · refine ⟨0, ?_⟩
        have h1 : ¬(x < d) := by omega
        have h2 : (x == d) = false := by simpa using (by omega : ¬x = d)
        simp [lexLe, h1, h2]
      · have hr2 : ByteOk r2 := fun z hz => hr z (by simp [hz])
        obtain ⟨m, hm⟩ := ih r2 hr2 h
        refine ⟨m, ?_⟩
        simp only [lexLe, Bool.not_eq_true'] at hm ⊢
        simpa using hm

theorem dropWhile_head_not {α : Type} (q : α → Bool) (l : List α) (x : α)
    (xs : List α) (h : l.dropWhile q = x :: xs) : q x = false := by
  induction l with
  | nil => simp [List.dropWhile] at h
  | cons a as ih =>
    rw [List.dropWhile_cons] at h
    by_cases hq : q a = true
    · rw [if_pos hq] at h
      exact ih h
    · rw [if_neg hq] at h
      cases h
      simpa using hq

/-- The stripped prefix decomposition: a byte string that is non-empty and
not all-`0xFF` splits as `a ++ [c] ++ 0xFF…0xFF` with `c ≠ 255`, and
`rstrip_xff` returns `a ++ [c]`. -/
theorem rstripXff_decomp (p : List Nat) (hne : p ≠ [])
    (hsome : ∃ b ∈ p, b ≠ 255) :
    ∃ a c k, p = (a ++ [c]) ++ List.replicate k 255 ∧ c ≠ 255 ∧
      rstripXff p = .ok (a ++ [c]) := by
  have hdrop : p.reverse.dropWhile (· == 255) ≠ [] := by
    intro hc
    rw [List.dropWhile_eq_nil_iff] at hc
    obtain ⟨b, hb, hbne⟩ := hsome
    exact hbne (by simpa using hc b (by simpa using hb))
  obtain ⟨c, d, hd⟩ := List.exists_cons_of_ne_nil hdrop
  have hc : (c == 255) = false := by
    have h0 := dropWhile_head_not (fun x => x == 255) p.reverse c d hd
    simpa using h0
  have hsplit : p.reverse = p.reverse.takeWhile (· == 255) ++ (c :: d) := by
    rw [← hd, List.takeWhile_append_dropWhile]
  have hrev := congrArg List.reverse hsplit
  rw [List.reverse_reverse, List.reverse_append, List.reverse_cons] at hrev
  obtain ⟨k, hk⟩ : ∃ k,
      (p.reverse.takeWhile (· == 255)).reverse = List.replicate k 255 := by
    refine ⟨(p.reverse.takeWhile (· == 255)).reverse.length,
      List.eq_replicate_of_mem ?_⟩
    intro b hb
    have hb2 := List.mem_reverse.mp hb
    simpa using List.mem_takeWhile_imp hb2
  refine ⟨d.reverse, c, k, ?_, ?_, ?_⟩
  · rw [hrev, hk]
  · simpa using hc
  · unfold rstripXff
    have hpe : ¬p.isEmpty := by simpa using hne
    rw [if_neg (by simpa using hpe)]
    rw [hd]
    cases hde : d.reverse ++ [c] with
    | nil => simp at hde
    | cons x xs =>
      simp [hde]

theorem lexLt_append_self_false (u v : List Nat) : lexLt (u ++ v) u = false := by
  have h := lexLt_append_left u v []
  simpa using h

theorem lexLe_append_right_self (u v : List Nat) : lexLe u (u ++ v) = true := by
  simp [lexLe, lexLt_append_self_false]

theorem lexLe_trans {a b c : List Nat} (h1 : lexLe a b = true)
    (h2 : lexLe b c = true) : lexLe a c = true := by
  simp only [lexLe, Bool.not_eq_true'] at h1 h2 ⊢
  by_contra hc
  have hca : lexLt c a = true := by
    cases h : lexLt c a
    · exact absurd h hc
    · rfl
  rcases lexLt_trichotomy c b with h3 | h3 | h3
  · rw [h3] at h2
    exact absurd h2 (by simp)
  · subst h3
    rw [hca] at h1
    exact absurd h1 (by simp)
  · have := lexLt_trans h3 hca
    rw [this] at h1
    exact absurd h1 (by simp)

end StrincLemmas

/-- C6: for a non-empty prefix containing a byte other than `0xFF`, `strinc`
strips the trailing `0xFF` bytes and increments the new last byte, producing
the smallest byte string strictly greater than every string extending the
prefix; it fails exactly when the prefix is empty or all-`0xFF`; and
`strinc "a\xFF" = "b"`, `strinc "hello1" = "hello2"`. -/
theorem c6_strinc_successor (p : List Nat) (hp : ByteOk p) :
    (strinc p = .error .tupleKeyUtilStrincError ↔ p = [] ∨ ∀ b ∈ p, b = 255)
    ∧ ((p ≠ [] ∧ ∃ b ∈ p, b ≠ 255) →
        ∃ a c k, p = (a ++ [c]) ++ List.replicate k 255 ∧ c ≠ 255 ∧
          strinc p = .ok (a ++ [c + 1]) ∧
          (∀ s : List Nat, lexLt (p ++ s) (a ++ [c + 1]) = true) ∧
          (∀ r : List Nat, ByteOk r → lexLt r (a ++ [c + 1]) = true →
            ∃ m, lexLe r (p ++ List.replicate m 255) = true))
    ∧ strinc [97, 255] = .ok [98]
    ∧ strinc [104, 101, 108, 108, 111, 49] = .ok [104, 101, 108, 108, 111, 50] := by
  have hmain : (p ≠ [] ∧ ∃ b ∈ p, b ≠ 255) →
      ∃ a c k, p = (a ++ [c]) ++ List.replicate k 255 ∧ c ≠ 255 ∧
        strinc p = .ok (a ++ [c + 1]) ∧
        (∀ s : List Nat, lexLt (p ++ s) (a ++ [c + 1]) = true) ∧
        (∀ r : List Nat, ByteOk r → lexLt r (a ++ [c + 1]) = true →
          ∃ m, lexLe r (p ++ List.replicate m 255) = true) := by
    rintro ⟨hne, hsome⟩
    obtain ⟨a, c, k, hdecomp, hcne, hok⟩ := rstripXff_decomp p hne hsome
    refine ⟨a, c, k, hdecomp, hcne, ?_, ?_, ?_⟩
    · rw [strinc, hok]
      simp [Except.map, List.dropLast_concat, List.getLastD_concat]
    · intro s
      conv_lhs => rw [hdecomp]
      have h1 : ((a ++ [c]) ++ List.replicate k 255) ++ s
          = a ++ (c :: (List.replicate k 255 ++ s)) := by simp
      rw [h1, lexLt_append_left]
      simp
    · intro r hr hlt
      obtain ⟨m, hm⟩ := lexLe_below_incremented a c r hr hlt
      refine ⟨m, lexLe_trans hm ?_⟩
      rw [hdecomp]
      have h1 : ((a ++ [c]) ++ List.replicate k 255) ++ List.replicate m 255
          = ((a ++ [c]) ++ List.replicate m 255) ++ List.replicate k 255 := by
        simp only [List.append_assoc]
        congr 1
        rw [← List.replicate_add, ← List.replicate_add, Nat.add_comm]
      rw [h1]
      exact lexLe_append_right_self _ _
  refine ⟨?_, hmain, by rfl, by rfl⟩
  constructor
  · intro h
    by_cases hne : p = []
    · exact Or.inl hne
    · right
      by_contra hab
      push_neg at hab
      obtain ⟨b, hb, hbne⟩ := hab
      obtain ⟨a, c, k, _, _, hok⟩ := rstripXff_decomp p hne ⟨b, hb, hbne⟩
      rw [strinc, hok] at h
      simp [Except.map] at h
  · intro h
    rcases h with rfl | hall
    · rfl
    · rw [strinc, rstripXff]
      by_cases hne : p.isEmpty
      · rw [if_pos hne]
        rfl
      · rw [if_neg hne]
        have hdw : p.reverse.dropWhile (· == 255) = [] := by
          rw [List.dropWhile_eq_nil_iff]
          intro x hx
          simpa using hall x (List.mem_reverse.mp hx)
        rw [hdw]
        rfl

/-- Witness for C6 at a concrete prefix. -/
theorem c6_strinc_successor_witness :
    ByteOk [104, 101, 108, 108, 111, 49]
      ∧ strinc [104, 101, 108, 108, 111, 49] = .ok [104, 101, 108, 108, 111, 50] :=
  ⟨by decide, (c6_strinc_successor [104, 101, 108, 108, 111, 49]
    (by decide)).2.2.2⟩

theorem foldl_complete_flag (l : List Nat) (acc : Bool) :
    l.foldl (fun acc x => if x ≠ 255 then true else acc) acc
      = (acc || l.any (fun x => x ≠ 255)) := by
  induction l generalizing acc with
  | nil => simp
  | cons x xs ih =>
    simp only [List.foldl_cons, List.any_cons, ih]
    by_cases hx : x = 255
    · simp [hx]
    · simp [hx]

/-- C8: for every 12-byte buffer, `Versionstamp::from_bytes` returns the
versionstamp whose transaction version is the first ten bytes, whose user
version is the last two bytes read as a big-endian 16-bit integer, and which
is complete iff at least one of the first ten bytes differs from `0xFF`. -/
theorem c8_versionstamp_from_bytes (b : List Nat) (hlen : b.length = 12) :
    ∃ v, Versionstamp.fromBytes b = some v ∧
      v.trVersion = b.take 10 ∧
      v.userVersion = 256 * b.getD 10 0 + b.getD 11 0 ∧
      (v.complete = true ↔ ∃ x ∈ b.take 10, x ≠ 255) := by
  have hfb : Versionstamp.fromBytes b = some
      { complete := (b.take 10).foldl (fun acc x => if x ≠ 255 then true else acc) false,
        trVersion := b.take 10,
        userVersion := fromBeBytes (b.drop 10) } := by
    rw [Versionstamp.fromBytes, if_pos hlen]
  refine ⟨_, hfb, rfl, ?_, ?_⟩
  · show fromBeBytes (b.drop 10) = _
    have hlen2 : (b.drop 10).length = 2 := by simp [hlen]
    obtain ⟨x, y, hxy⟩ := List.length_eq_two.mp hlen2
    have hx : b.getD 10 0 = x := by
      have h10 : 10 < b.length := by omega
      rw [List.getD_eq_getElem b 0 h10]
      have : b[10] = (b.drop 10).get ⟨0, by omega⟩ := by
        simp
      rw [this]
      simp [hxy]
    have hy : b.getD 11 0 = y := by
      have h11 : 11 < b.length := by omega
      rw [List.getD_eq_getElem b 0 h11]
      have : b[11] = (b.drop 10).get ⟨1, by omega⟩ := by
        simp
      rw [this]
      simp [hxy]
    rw [hxy, hx, hy]
    simp [fromBeBytes]
    ring
  · show ((b.take 10).foldl (fun acc x => if x ≠ 255 then true else acc) false)
        = true ↔ _
    rw [foldl_complete_flag]
    simp

/-- Witness for C8 at a concrete buffer. -/
theorem c8_versionstamp_from_bytes_witness :
    ([1, 2, 3, 4, 5, 6, 7, 8, 9, 10, 2, 145] : List Nat).length = 12
      ∧ ∃ v, Versionstamp.fromBytes [1, 2, 3, 4, 5, 6, 7, 8, 9, 10, 2, 145] = some v ∧
          v.trVersion = ([1, 2, 3, 4, 5, 6, 7, 8, 9, 10, 2, 145] : List Nat).take 10 ∧
          v.userVersion = 256 * ([1, 2, 3, 4, 5, 6, 7, 8, 9, 10, 2, 145] : List Nat).getD 10 0
              + ([1, 2, 3, 4, 5, 6, 7, 8, 9, 10, 2, 145] : List Nat).getD 11 0 ∧
          (v.complete = true
            ↔ ∃ x ∈ ([1, 2, 3, 4, 5, 6, 7, 8, 9, 10, 2, 145] : List Nat).take 10, x ≠ 255) :=
  ⟨by decide, c8_versionstamp_from_bytes [1, 2, 3, 4, 5, 6, 7, 8, 9, 10, 2, 145] (by decide)⟩

/-- `impl PartialEq for Tuple`: equality of the packed representations. -/
def tupleEq (a b : List TupleValue) : Bool := toBytes a == toBytes b

/-- `impl Ord for Tuple`: comparison of the packed representations (strict
less-than). -/
def tupleLt (a b : List TupleValue) : Bool := lexLt (toBytes a) (toBytes b)

/-- C10: Tuple equality and ordering are defined by encoded bytes, so a
tuple holding `Versionstamp::complete` with an all-`0xFF` transaction
version compares equal to a tuple holding `Versionstamp::incomplete` with
the same user version, even though only the latter reports
`has_incomplete_versionstamp`. -/
theorem c10_tuple_eq_ord_by_pack :
    (∀ a b : List TupleValue, tupleEq a b = true ↔ toBytes a = toBytes b)
    ∧ (∀ a b : List TupleValue, tupleLt a b = lexLt (toBytes a) (toBytes b))
    ∧ Versionstamp.completeVs (List.replicate 10 255) 7
        = some (Versionstamp.mk true (List.replicate 10 255) 7)
    ∧ tupleEq
        [.versionstamp96Bit (Versionstamp.mk true (List.replicate 10 255) 7)]
        [.versionstamp96Bit (Versionstamp.incomplete 7)] = true
    ∧ hasIncompleteVersionstamp
        [.versionstamp96Bit (Versionstamp.mk true (List.replicate 10 255) 7)] = false
    ∧ hasIncompleteVersionstamp
        [.versionstamp96Bit (Versionstamp.incomplete 7)] = true := by
  refine ⟨?_, fun a b => rfl, by rfl, by decide, by rfl, by rfl⟩
  intro a b
  simp [tupleEq]

/-- `Tuple::add_i8`: bucket selection for an `i8` value. -/
def addI8 (i : Int) : TupleValue :=
  if i < 0 then .negInt1 i.natAbs
  else if i = 0 then .intZero
  else .posInt1 i.natAbs

/-- `Tuple::add_i16`: delegate to `add_i8` when the value fits, else select
the tightest bucket. -/
def addI16 (i : Int) : TupleValue :=
  if -128 ≤ i ∧ i ≤ 127 then addI8 i
  else if i < 0 then
    if i ≤ -256 then .negInt2 i.natAbs else .negInt1 i.natAbs
  else
    if i ≤ 255 then .posInt1 i.natAbs else .posInt2 i.natAbs

/-- `Tuple::add_i32`. -/
def addI32 (i : Int) : TupleValue :=
  if -32768 ≤ i ∧ i ≤ 32767 then addI16 i
  else if i < 0 then
    if i ≤ -16777216 then .negInt4 i.natAbs
    else if i ≤ -65536 then .negInt3 i.natAbs
    else .negInt2 i.natAbs
  else
    if i ≤ 65535 then .posInt2 i.natAbs
    else if i ≤ 16777215 then .posInt3 i.natAbs
    else .posInt4 i.natAbs

/-- `Tuple::add_i64`. -/
def addI64 (i : Int) : TupleValue :=
  if -2147483648 ≤ i ∧ i ≤ 2147483647 then addI32 i
  else if i < 0 then
    if i ≤ -72057594037927936 then .negInt8 i.natAbs
    else if i ≤ -281474976710656 then .negInt7 i.natAbs
    else if i ≤ -1099511627776 then .negInt6 i.natAbs
    else if i ≤ -4294967296 then .negInt5 i.natAbs
    else .negInt4 i.natAbs
  else
    if i ≤ 4294967295 then .posInt4 i.natAbs
    else if i ≤ 1099511627775 then .posInt5 i.natAbs
    else if i ≤ 281474976710655 then .posInt6 i.natAbs
    else if i ≤ 72057594037927935 then .posInt7 i.natAbs
    else .posInt8 i.natAbs

/-- `Tuple::add_bigint`: delegate to `add_i64` when the value fits an `i64`,
use the 8-byte buckets up to `u64::MAX` magnitude, and the
arbitrary-precision buckets beyond; the panic when the magnitude needs more
than 255 bytes is modelled as `none`. -/
def addBigint (i : Int) : Option TupleValue :=
  if -9223372036854775808 ≤ i ∧ i ≤ 9223372036854775807 then some (addI64 i)
  else if i < 0 then
    if -18446744073709551615 ≤ i then some (.negInt8 i.natAbs)
    else if 255 < (beBytesNat i.natAbs).length then none
    else some (.negativeArbitraryPrecisionInteger i.natAbs)
  else
    if i ≤ 18446744073709551615 then some (.posInt8 i.natAbs)
    else if 255 < (beBytesNat i.natAbs).length then none
    else some (.positiveArbitraryPrecisionInteger i.natAbs)

/-- The integer value stored by an integer-kind element (the sign-magnitude
reading the serializer and accessors give the buckets). -/
def intValue : TupleValue → Option Int
  | .negativeArbitraryPrecisionInteger m => some (-(m : Int))
  | .negInt8 u => some (-(u : Int))
  | .negInt7 u => some (-(u : Int))
  | .negInt6 u => some (-(u : Int))
  | .negInt5 u => some (-(u : Int))
  | .negInt4 u => some (-(u : Int))
  | .negInt3 u => some (-(u : Int))
  | .negInt2 u => some (-(u : Int))
  | .negInt1 u => some (-(u : Int))
  | .intZero => some 0
  | .posInt1 u => some (u : Int)
  | .posInt2 u => some (u : Int)
  | .posInt3 u => some (u : Int)
  | .posInt4 u => some (u : Int)
  | .posInt5 u => some (u : Int)
  | .posInt6 u => some (u : Int)
  | .posInt7 u => some (u : Int)
  | .posInt8 u => some (u : Int)
  | .positiveArbitraryPrecisionInteger m => some (m : Int)
  | _ => none

theorem beBytesNat_zero_length : (beBytesNat 0).length = 1 := by
  rw [beBytesNat_eq]
  simp

/-- C7: `add_bigint` fails (panics) for magnitudes needing more than 255
big-endian bytes; for magnitudes needing 9..255 bytes it appends an
arbitrary-precision element whose encoding carries a single length byte
equal to the byte count (complemented for negatives), which cannot overflow
a byte. -/
theorem c7_bigint_cap (i : Int) :
    (255 < (beBytesNat i.natAbs).length → addBigint i = none)
    ∧ (8 < (beBytesNat i.natAbs).length → (beBytesNat i.natAbs).length ≤ 255 →
        ((0 < i → addBigint i = some (.positiveArbitraryPrecisionInteger i.natAbs) ∧
            encElem (.positiveArbitraryPrecisionInteger i.natAbs)
              = 29 :: (beBytesNat i.natAbs).length :: beBytesNat i.natAbs ∧
            (beBytesNat i.natAbs).length < 256)
          ∧ (i < 0 → addBigint i = some (.negativeArbitraryPrecisionInteger i.natAbs) ∧
            encElem (.negativeArbitraryPrecisionInteger i.natAbs)
              = 11 :: byteNot (beBytesNat i.natAbs).length
                  :: (beBytesNat i.natAbs).map byteNot ∧
            byteNot (beBytesNat i.natAbs).length < 256))) := by
  have hmag0 : i.natAbs = 0 → (beBytesNat i.natAbs).length = 1 := by
    intro h0
    rw [h0]
    exact beBytesNat_zero_length
  constructor
  · intro hlen
    have hne : i.natAbs ≠ 0 := by
      intro h0
      rw [hmag0 h0] at hlen
      omega
    have hge := beBytesNat_ge i.natAbs (by omega)
    have hp : (256 : Nat) ^ 255 ≤ 256 ^ ((beBytesNat i.natAbs).length - 1) :=
      Nat.pow_le_pow_right (by omega) (by omega)
    have hbig : (18446744073709551616 : Nat) ≤ i.natAbs := by
      have h2 : (18446744073709551616 : Nat) ≤ 256 ^ 255 := by norm_num
      omega
    unfold addBigint
    have hni : ¬(-9223372036854775808 ≤ i ∧ i ≤ 9223372036854775807) := by
      rintro ⟨h1, h2⟩
      omega
    rw [if_neg hni]
    by_cases hneg : i < 0
    · rw [if_pos hneg]
      have h3 : ¬(-18446744073709551615 ≤ i) := by
        intro hc
        omega
      rw [if_neg h3, if_pos hlen]
    · rw [if_neg hneg]
      have h3 : ¬(i ≤ 18446744073709551615) := by
        intro hc
        omega
      rw [if_neg h3, if_pos hlen]
  · intro hlen8 hlen255
    have hne : i.natAbs ≠ 0 := by
      intro h0
      rw [hmag0 h0] at hlen8
      omega
    have hge := beBytesNat_ge i.natAbs (by omega)
    have hp : (256 : Nat) ^ 8 ≤ 256 ^ ((beBytesNat i.natAbs).length - 1) :=
      Nat.pow_le_pow_right (by omega) (by omega)
    have hbig : (18446744073709551616 : Nat) ≤ i.natAbs := by
      have h2 : (256 : Nat) ^ 8 = 18446744073709551616 := by norm_num
      omega
    have hni : ¬(-9223372036854775808 ≤ i ∧ i ≤ 9223372036854775807) := by
      rintro ⟨h1, h2⟩
      omega
    constructor
    · intro hpos
      refine ⟨?_, rfl, by omega⟩
      unfold addBigint
      rw [if_neg hni, if_neg (by omega : ¬i < 0),
        if_neg (by omega : ¬i ≤ 18446744073709551615),
        if_neg (by omega : ¬255 < (beBytesNat i.natAbs).length)]
    · intro hneg
      refine ⟨?_, rfl, by unfold byteNot; omega⟩
      unfold addBigint
      rw [if_neg hni, if_pos hneg,
        if_neg (by omega : ¬-18446744073709551615 ≤ i),
        if_neg (by omega : ¬255 < (beBytesNat i.natAbs).length)]

set_option maxRecDepth 100000 in
/-- Witness for C7: a 256-byte magnitude is rejected; a positive 11-byte
magnitude takes the arbitrary-precision bucket. -/
theorem c7_bigint_cap_witness :
    (255 < (beBytesNat (Int.natAbs ((2 ^ 2040 : Nat) : Int))).length
      ∧ addBigint ((2 ^ 2040 : Nat) : Int) = none)
    ∧ (8 < (beBytesNat (Int.natAbs ((2 ^ 80 : Nat) : Int))).length
        ∧ (beBytesNat (Int.natAbs ((2 ^ 80 : Nat) : Int))).length ≤ 255
        ∧ (0 : Int) < ((2 ^ 80 : Nat) : Int)
        ∧ addBigint ((2 ^ 80 : Nat) : Int)
            = some (.positiveArbitraryPrecisionInteger
                (Int.natAbs ((2 ^ 80 : Nat) : Int)))) := by
  constructor
  · exact ⟨by decide, (c7_bigint_cap ((2 ^ 2040 : Nat) : Int)).1 (by decide)⟩
  · exact ⟨by decide, by decide, by decide,
      (((c7_bigint_cap ((2 ^ 80 : Nat) : Int)).2 (by decide) (by decide)).1
        (by decide)).1⟩

/-- The three-state accumulator of the versionstamp locator
(`element.rs`, `versionstamp` submodule). -/
inductive QueryVs where
  | notFound (n : Nat)
  | found (n : Nat)
  | multipleFound
deriving DecidableEq, Repr

/-- The fold step shared by `query_for_incomplete_versionstamp` and its
nested variant. -/
def queryCombine (acc x : QueryVs) : QueryVs :=
  match acc with
  | .notFound u =>
    match x with
    | .notFound v => .notFound (u + v)
    | .found v => .found (u + v)
    | .multipleFound => .multipleFound
  | .found u =>
    match x with
    | .notFound _ => .found u
    | .found _ => .multipleFound
    | .multipleFound => .multipleFound
  | .multipleFound => .multipleFound

mutual

/-- Per-element mapping of `query_for_incomplete_versionstamp_nested_tuple`:
null contributes the nested-null length `2`, nested tuples recurse (without
accounting for their own `0x05` header and `0x00` terminator bytes — exactly
as the source does), an incomplete versionstamp yields `Found(1)`, and every
other element contributes its serialized length. -/
def queryMapNested : TupleValue → QueryVs
  | .nullValue => .notFound (encElemN .nullValue).length
  | .nestedTuple t => queryNestedAux (.notFound 0) t
  | .versionstamp96Bit v =>
      if v.isComplete then .notFound (encElemN (.versionstamp96Bit v)).length
      else .found 1
  | x => .notFound (encElemN x).length

def queryNestedAux (acc : QueryVs) : List TupleValue → QueryVs
  | [] => acc
  | x :: xs => queryNestedAux (queryCombine acc (queryMapNested x)) xs

end

/-- The fold of `query_for_incomplete_versionstamp_nested_tuple`. -/
def queryNested (t : List TupleValue) : QueryVs :=
  queryNestedAux (.notFound 0) t

/-- Per-element mapping of `query_for_incomplete_versionstamp` (top level):
null contributes the single-byte top-level length. -/
def queryMapTop : TupleValue → QueryVs
  | .nullValue => .notFound (encElem .nullValue).length
  | .nestedTuple t => queryNested t
  | .versionstamp96Bit v =>
      if v.isComplete then .notFound (encElem (.versionstamp96Bit v)).length
      else .found 1
  | x => .notFound (encElem x).length

def queryTopAux (acc : QueryVs) : List TupleValue → QueryVs
  | [] => acc
  | x :: xs => queryTopAux (queryCombine acc (queryMapTop x)) xs

/-- `query_for_incomplete_versionstamp`: fold over the top-level elements
and dispatch on the final accumulator state. -/
def queryForIncompleteVersionstamp (t : List TupleValue) : Except FdbError Nat :=
  match queryTopAux (.notFound 0) t with
  | .notFound _ => .error .tuplePackWithVersionstampNotFound
  | .found u => .ok u
  | .multipleFound => .error .tuplePackWithVersionstampMultipleFound

/-- `element.rs find_incomplete_versionstamp`. -/
def findIncompleteVersionstamp (t : List TupleValue) : Except FdbError Nat :=
  queryForIncompleteVersionstamp t

/-- `Tuple::pack_with_versionstamp`: check the cached incomplete flag, run
the locator, and append prefix, packed bytes and the little-endian offset
trailer; the `u32` overflow panic on the offset is modelled as `none`. -/
def packWithVersionstamp (t : List TupleValue) (prefixBytes : List Nat) :
    Option (Except FdbError (List Nat)) :=
  if hasIncompleteVersionstamp t then
    match findIncompleteVersionstamp t with
    | .ok x =>
        if x + prefixBytes.length < 4294967296 then
          some (.ok (prefixBytes ++ (toBytes t ++ le32 (x + prefixBytes.length))))
        else none
    | .error e => some (.error e)
  else some (.error .tuplePackWithVersionstampNotFound)

mutual

/-- Number of incomplete versionstamps contained in one element. -/
def tvVsCount : TupleValue → Nat
  | .nestedTuple t => vsCount t
  | .versionstamp96Bit v => if v.isComplete then 0 else 1
  | _ => 0

/-- Number of incomplete versionstamps in a tuple, across all nesting. -/
def vsCount : List TupleValue → Nat
  | [] => 0
  | x :: xs => tvVsCount x + vsCount xs

end

/-- Classify a locator state by how many incomplete versionstamps it has
seen (`0`, `1`, or at-least-`2`). -/
def vsClass (q : QueryVs) : Nat :=
  match q with
  | .notFound _ => 0
  | .found _ => 1
  | .multipleFound => 2

theorem vsClass_le (q : QueryVs) : vsClass q ≤ 2 := by
  cases q <;> simp [vsClass]

theorem vsClass_queryCombine (a b : QueryVs) :
    vsClass (queryCombine a b) = min (vsClass a + vsClass b) 2 := by
  cases a <;> cases b <;> simp [queryCombine, vsClass]

theorem vsClass_queryNestedAux (t : List TupleValue) :
    ∀ acc, (∀ x ∈ t, vsClass (queryMapNested x) = min (tvVsCount x) 2) →
      vsClass (queryNestedAux acc t) = min (vsClass acc + vsCount t) 2 := by
  induction t with
  | nil =>
    intro acc h
    have := vsClass_le acc
    simp only [queryNestedAux, vsCount]
    omega
  | cons x xs ih =>
    intro acc h
    simp only [queryNestedAux, vsCount]
    rw [ih _ (fun y hy => h y (by simp [hy]))]
    rw [vsClass_queryCombine, h x (by simp)]
    have h1 := vsClass_le acc
    omega

mutual

theorem vsClass_queryMapNested : ∀ (x : TupleValue),
    vsClass (queryMapNested x) = min (tvVsCount x) 2
  | .nullValue => by simp [queryMapNested, tvVsCount, vsClass]
  | .byteString b => by simp [queryMapNested, tvVsCount, vsClass]
  | .unicodeString s => by simp [queryMapNested, tvVsCount, vsClass]
  | .nestedTuple t => by
      have ih := vsClass_queryNested t
      simpa [queryMapNested, tvVsCount] using ih
  | .negativeArbitraryPrecisionInteger m => by simp [queryMapNested, tvVsCount, vsClass]
  | .negInt8 u => by simp [queryMapNested, tvVsCount, vsClass]
  | .negInt7 u => by simp [queryMapNested, tvVsCount, vsClass]
  | .negInt6 u => by simp [queryMapNested, tvVsCount, vsClass]
  | .negInt5 u => by simp [queryMapNested, tvVsCount, vsClass]
  | .negInt4 u => by simp [queryMapNested, tvVsCount, vsClass]
  | .negInt3 u => by simp [queryMapNested, tvVsCount, vsClass]
  | .negInt2 u => by simp [queryMapNested, tvVsCount, vsClass]
  | .negInt1 u => by simp [queryMapNested, tvVsCount, vsClass]
  | .intZero => by simp [queryMapNested, tvVsCount, vsClass]
  | .posInt1 u => by simp [queryMapNested, tvVsCount, vsClass]
  | .posInt2 u => by simp [queryMapNested, tvVsCount, vsClass]
  | .posInt3 u => by simp [queryMapNested, tvVsCount, vsClass]
  | .posInt4 u => by simp [queryMapNested, tvVsCount, vsClass]
  | .posInt5 u => by simp [queryMapNested, tvVsCount, vsClass]
  | .posInt6 u => by simp [queryMapNested, tvVsCount, vsClass]
  | .posInt7 u => by simp [queryMapNested, tvVsCount, vsClass]
  | .posInt8 u => by simp [queryMapNested, tvVsCount, vsClass]
  | .positiveArbitraryPrecisionInteger m => by simp [queryMapNested, tvVsCount, vsClass]
  | .ieeeBinaryFloatingPointFloat bits => by simp [queryMapNested, tvVsCount, vsClass]
  | .ieeeBinaryFloatingPointDouble bits => by simp [queryMapNested, tvVsCount, vsClass]
  | .falseValue => by simp [queryMapNested, tvVsCount, vsClass]
  | .trueValue => by simp [queryMapNested, tvVsCount, vsClass]
  | .rfc4122Uuid u => by simp [queryMapNested, tvVsCount, vsClass]
  | .versionstamp96Bit v => by
      cases hv : v.isComplete <;> simp [queryMapNested, tvVsCount, vsClass, hv]
termination_by x => sizeOf x
decreasing_by
  simp_wf

theorem vsClass_queryNested : ∀ (t : List TupleValue),
    vsClass (queryNested t) = min (vsCount t) 2
  | t => by
      unfold queryNested
      rw [vsClass_queryNestedAux t (.notFound 0)
        (fun x hx => vsClass_queryMapNested x)]
      simp [vsClass]
termination_by t => sizeOf t
decreasing_by
  simp_wf
  exact List.sizeOf_lt_of_mem hx

end

mutual

theorem tvHasIncomplete_eq_count (x : TupleValue) :
    tvHasIncomplete x = decide (1 ≤ tvVsCount x) := by
  cases x
  case nestedTuple t =>
    simpa [tvHasIncomplete, tvVsCount] using hasIncomplete_eq_count t
  case versionstamp96Bit v =>
    cases hc : v.complete <;>
      simp [tvHasIncomplete, tvVsCount, Versionstamp.isComplete, hc]
  all_goals simp [tvHasIncomplete, tvVsCount]
termination_by sizeOf x
decreasing_by simp_wf

theorem hasIncomplete_eq_count (t : List TupleValue) :
    hasIncompleteVersionstamp t = decide (1 ≤ vsCount t) := by
  cases t with
  | nil => simp [hasIncompleteVersionstamp, vsCount]
  | cons x xs =>
    have h1 := tvHasIncomplete_eq_count x
    have h2 := hasIncomplete_eq_count xs
    simp only [hasIncompleteVersionstamp, vsCount, h1, h2]
    by_cases c1 : 1 ≤ tvVsCount x
    · have hc : 1 ≤ tvVsCount x + vsCount xs := by omega
      simp [c1, hc]
    · by_cases c2 : 1 ≤ vsCount xs
      · have hc : 1 ≤ tvVsCount x + vsCount xs := by omega
        simp [c1, c2, hc]
      · have hc : ¬(1 ≤ tvVsCount x + vsCount xs) := by omega
        simp [c1, c2, hc]
termination_by sizeOf t
decreasing_by
  all_goals simp_wf
  all_goals omega

end

theorem vsClass_queryMapTop (x : TupleValue) :
    vsClass (queryMapTop x) = min (tvVsCount x) 2 := by
  cases x
  case nestedTuple t => exact vsClass_queryNested t
  case versionstamp96Bit v =>
    cases hv : v.isComplete <;> simp [queryMapTop, tvVsCount, vsClass, hv]
  all_goals simp [queryMapTop, tvVsCount, vsClass]

theorem vsClass_queryTopAux (t : List TupleValue) :
    ∀ acc, vsClass (queryTopAux acc t) = min (vsClass acc + vsCount t) 2 := by
  induction t with
  | nil =>
    intro acc
    have := vsClass_le acc
    simp only [queryTopAux, vsCount]
    omega
  | cons x xs ih =>
    intro acc
    simp only [queryTopAux, vsCount]
    rw [ih _, vsClass_queryCombine, vsClass_queryMapTop x]
    have h1 := vsClass_le acc
    omega

/-- C4: `pack_with_versionstamp` fails with the not-found error whenever the
tuple contains zero incomplete versionstamps, and with the multiple-found
error whenever it contains two or more, counting across the whole tree
including nested tuples; in both failure cases no bytes are produced. -/
theorem c4_pack_with_versionstamp_errors (t : List TupleValue) (p : List Nat) :
    (vsCount t = 0 →
      packWithVersionstamp t p
        = some (.error .tuplePackWithVersionstampNotFound))
    ∧ (2 ≤ vsCount t →
      packWithVersionstamp t p
        = some (.error .tuplePackWithVersionstampMultipleFound)) := by
  constructor
  · intro h0
    unfold packWithVersionstamp
    rw [hasIncomplete_eq_count t, h0]
    simp
  · intro h2
    have hfind : findIncompleteVersionstamp t
        = .error .tuplePackWithVersionstampMultipleFound := by
      have hc := vsClass_queryTopAux t (.notFound 0)
      have h22 : vsClass (queryTopAux (.notFound 0) t) = 2 := by
        rw [hc]
        simp only [vsClass]
        omega
      unfold findIncompleteVersionstamp queryForIncompleteVersionstamp
      cases hqq : queryTopAux (.notFound 0) t <;> rw [hqq] at h22 <;>
        simp [vsClass] at h22 ⊢
    unfold packWithVersionstamp
    rw [hasIncomplete_eq_count t,
      if_pos (by simpa using (by omega : 1 ≤ vsCount t)), hfind]

/-- Witness for C4: the empty tuple fails not-found; a tuple with two
incomplete versionstamps fails multiple-found. -/
theorem c4_pack_with_versionstamp_errors_witness :
    (vsCount ([] : List TupleValue) = 0
      ∧ packWithVersionstamp [] [7]
          = some (.error .tuplePackWithVersionstampNotFound))
    ∧ (2 ≤ vsCount [.versionstamp96Bit (Versionstamp.incomplete 0),
          .nestedTuple [.versionstamp96Bit (Versionstamp.incomplete 1)]]
      ∧ packWithVersionstamp [.versionstamp96Bit (Versionstamp.incomplete 0),
            .nestedTuple [.versionstamp96Bit (Versionstamp.incomplete 1)]] [7]
          = some (.error .tuplePackWithVersionstampMultipleFound)) :=
  ⟨⟨by decide, (c4_pack_with_versionstamp_errors [] [7]).1 (by decide)⟩,
   ⟨by decide, (c4_pack_with_versionstamp_errors
      [.versionstamp96Bit (Versionstamp.incomplete 0),
        .nestedTuple [.versionstamp96Bit (Versionstamp.incomplete 1)]] [7]).2
      (by decide)⟩⟩

/-- C1 (code bug): for the tuple holding exactly one incomplete versionstamp
inside a nested tuple, `pack_with_versionstamp` appends the little-endian
offset `1`, but the versionstamp's 10-byte transaction-version field begins
at byte offset `2` of the packed output (after the nested tuple's `0x05`
header and the versionstamp's `0x33` type code): the locator fails to count
the nested tuple's header byte. -/
theorem c1_nested_offset_bug :
    vsCount [.nestedTuple [.versionstamp96Bit (Versionstamp.incomplete 0)]] = 1
    ∧ toBytes [.nestedTuple [.versionstamp96Bit (Versionstamp.incomplete 0)]]
        = [5, 51, 255, 255, 255, 255, 255, 255, 255, 255, 255, 255, 0, 0, 0]
    ∧ packWithVersionstamp
        [.nestedTuple [.versionstamp96Bit (Versionstamp.incomplete 0)]] []
        = some (.ok [5, 51, 255, 255, 255, 255, 255, 255, 255, 255, 255, 255,
            0, 0, 0, 1, 0, 0, 0])
    ∧ (([5, 51, 255, 255, 255, 255, 255, 255, 255, 255, 255, 255, 0, 0,
          0] : List Nat).drop 2).take 10 = List.replicate 10 255
    ∧ (([5, 51, 255, 255, 255, 255, 255, 255, 255, 255, 255, 255, 0, 0,
          0] : List Nat).drop 1).take 10 ≠ List.replicate 10 255 := by
  exact ⟨by decide, by decide, by rfl, by decide, by decide⟩

/-- RFC 3629 UTF-8 validity (what Rust's `String::from_utf8` checks):
ASCII, or a 2..4-byte sequence with the continuation ranges that exclude
overlong forms and surrogates. -/
def utf8Valid : List Nat → Bool
  | [] => true
  | b0 :: rest =>
    if b0 ≤ 127 then utf8Valid rest
    else if 194 ≤ b0 ∧ b0 ≤ 223 then
      match rest with
      | b1 :: rest2 => decide (128 ≤ b1 ∧ b1 ≤ 191) && utf8Valid rest2
      | [] => false
    else if b0 = 224 then
      match rest with
      | b1 :: b2 :: rest2 =>
          decide (160 ≤ b1 ∧ b1 ≤ 191) && decide (128 ≤ b2 ∧ b2 ≤ 191)
            && utf8Valid rest2
      | _ => false
    else if (225 ≤ b0 ∧ b0 ≤ 236) ∨ b0 = 238 ∨ b0 = 239 then
      match rest with
      | b1 :: b2 :: rest2 =>
          decide (128 ≤ b1 ∧ b1 ≤ 191) && decide (128 ≤ b2 ∧ b2 ≤ 191)
            && utf8Valid rest2
      | _ => false
    else if b0 = 237 then
      match rest with
      | b1 :: b2 :: rest2 =>
          decide (128 ≤ b1 ∧ b1 ≤ 159) && decide (128 ≤ b2 ∧ b2 ≤ 191)
            && utf8Valid rest2
      | _ => false
    else if b0 = 240 then
      match rest with
      | b1 :: b2 :: b3 :: rest2 =>
          decide (144 ≤ b1 ∧ b1 ≤ 191) && decide (128 ≤ b2 ∧ b2 ≤ 191)
            && decide (128 ≤ b3 ∧ b3 ≤ 191) && utf8Valid rest2
      | _ => false
    else if 241 ≤ b0 ∧ b0 ≤ 243 then
      match rest with
      | b1 :: b2 :: b3 :: rest2 =>
          decide (128 ≤ b1 ∧ b1 ≤ 191) && decide (128 ≤ b2 ∧ b2 ≤ 191)
            && decide (128 ≤ b3 ∧ b3 ≤ 191) && utf8Valid rest2
      | _ => false
    else if b0 = 244 then
      match rest with
      | b1 :: b2 :: b3 :: rest2 =>
          decide (128 ≤ b1 ∧ b1 ≤ 143) && decide (128 ≤ b2 ∧ b2 ≤ 191)
            && decide (128 ≤ b3 ∧ b3 ≤ 191) && utf8Valid rest2
      | _ => false
    else false

mutual

/-- Well-formed element: exactly the values the `Tuple::add_*` constructors
produce (canonical tightest integer buckets, valid bytes, valid UTF-8,
10-byte transaction versions, in-range bit patterns). -/
def tvWf : TupleValue → Bool
  | .nullValue => true
  | .byteString b => b.all (fun x => decide (x < 256))
  | .unicodeString s => utf8Valid s
  | .nestedTuple t => listWf t
  | .negativeArbitraryPrecisionInteger m =>
      decide (18446744073709551615 < m) && decide ((beBytesNat m).length ≤ 255)
  | .negInt8 u => decide (72057594037927936 ≤ u ∧ u ≤ 18446744073709551615)
  | .negInt7 u => decide (281474976710656 ≤ u ∧ u ≤ 72057594037927935)
  | .negInt6 u => decide (1099511627776 ≤ u ∧ u ≤ 281474976710655)
  | .negInt5 u => decide (4294967296 ≤ u ∧ u ≤ 1099511627775)
  | .negInt4 u => decide (16777216 ≤ u ∧ u ≤ 4294967295)
  | .negInt3 u => decide (65536 ≤ u ∧ u ≤ 16777215)
  | .negInt2 u => decide (256 ≤ u ∧ u ≤ 65535)
  | .negInt1 u => decide (1 ≤ u ∧ u ≤ 255)
  | .intZero => true
  | .posInt1 u => decide (1 ≤ u ∧ u ≤ 255)
  | .posInt2 u => decide (256 ≤ u ∧ u ≤ 65535)
  | .posInt3 u => decide (65536 ≤ u ∧ u ≤ 16777215)
  | .posInt4 u => decide (16777216 ≤ u ∧ u ≤ 4294967295)
  | .posInt5 u => decide (4294967296 ≤ u ∧ u ≤ 1099511627775)
  | .posInt6 u => decide (1099511627776 ≤ u ∧ u ≤ 281474976710655)
  | .posInt7 u => decide (281474976710656 ≤ u ∧ u ≤ 72057594037927935)
  | .posInt8 u => decide (72057594037927936 ≤ u ∧ u ≤ 18446744073709551615)
  | .positiveArbitraryPrecisionInteger m =>
      decide (18446744073709551615 < m) && decide ((beBytesNat m).length ≤ 255)
  | .ieeeBinaryFloatingPointFloat bits => decide (bits < 4294967296)
  | .ieeeBinaryFloatingPointDouble bits => decide (bits < 18446744073709551616)
  | .falseValue => true
  | .trueValue => true
  | .rfc4122Uuid u => decide (u.length = 16) && u.all (fun x => decide (x < 256))
  | .versionstamp96Bit v =>
      decide (v.trVersion.length = 10) && v.trVersion.all (fun x => decide (x < 256))
        && decide (v.userVersion < 65536)

/-- Well-formed element list. -/
def listWf : List TupleValue → Bool
  | [] => true
  | x :: xs => tvWf x && listWf xs

end

/-- `Tuple::get_i8`. -/
def getI8 (t : List TupleValue) (index : Nat) : Except FdbError Int :=
  match t.get? index with
  | some (.negInt1 i) =>
      if i ≤ 128 then .ok (-(i : Int)) else .error .tupleGet
  | some .intZero => .ok 0
  | some (.posInt1 i) =>
      if i ≤ 127 then .ok (i : Int) else .error .tupleGet
  | _ => .error .tupleGet

/-- `Tuple::get_i16`: widen a successful `get_i8`, else the 16-bit cases. -/
def getI16 (t : List TupleValue) (index : Nat) : Except FdbError Int :=
  match getI8 t index with
  | .ok x => .ok x
  | .error _ =>
    match t.get? index with
    | some (.negInt2 i) =>
        if 256 ≤ i ∧ i ≤ 32768 then .ok (-(i : Int)) else .error .tupleGet
    | some (.negInt1 i) =>
        if 129 ≤ i ∧ i ≤ 255 then .ok (-(i : Int)) else .error .tupleGet
    | some (.posInt1 i) =>
        if 128 ≤ i ∧ i ≤ 255 then .ok (i : Int) else .error .tupleGet
    | some (.posInt2 i) =>
        if 256 ≤ i ∧ i ≤ 32767 then .ok (i : Int) else .error .tupleGet
    | _ => .error .tupleGet

/-- `Tuple::get_i32`: widen a successful `get_i16`, else the 32-bit cases. -/
def getI32 (t : List TupleValue) (index : Nat) : Except FdbError Int :=
  match getI16 t index with
  | .ok x => .ok x
  | .error _ =>
    match t.get? index with
    | some (.negInt4 i) =>
        if 16777216 ≤ i ∧ i ≤ 2147483648 then .ok (-(i : Int)) else .error .tupleGet
    | some (.negInt3 i) =>
        if 65536 ≤ i ∧ i ≤ 16777215 then .ok (-(i : Int)) else .error .tupleGet
    | some (.negInt2 i) =>
        if 32769 ≤ i ∧ i ≤ 65535 then .ok (-(i : Int)) else .error .tupleGet
    | some (.posInt2 i) =>
        if 32768 ≤ i ∧ i ≤ 65535 then .ok (i : Int) else .error .tupleGet
    | some (.posInt3 i) =>
        if 65536 ≤ i ∧ i ≤ 16777215 then .ok (i : Int) else .error .tupleGet
    | some (.posInt4 i) =>
        if 16777216 ≤ i ∧ i ≤ 2147483647 then .ok (i : Int) else .error .tupleGet
    | _ => .error .tupleGet

/-- `Tuple::get_i64`: widen a successful `get_i32`, else the 64-bit cases. -/
def getI64 (t : List TupleValue) (index : Nat) : Except FdbError Int :=
  match getI32 t index with
  | .ok x => .ok x
  | .error _ =>
    match t.get? index with
    | some (.negInt8 i) =>
        if 72057594037927936 ≤ i ∧ i ≤ 9223372036854775808 then .ok (-(i : Int))
        else .error .tupleGet
    | some (.negInt7 i) =>
        if 281474976710656 ≤ i ∧ i ≤ 72057594037927935 then .ok (-(i : Int))
        else .error .tupleGet
    | some (.negInt6 i) =>
        if 1099511627776 ≤ i ∧ i ≤ 281474976710655 then .ok (-(i : Int))
        else .error .tupleGet
    | some (.negInt5 i) =>
        if 4294967296 ≤ i ∧ i ≤ 1099511627775 then .ok (-(i : Int))
        else .error .tupleGet
    | some (.negInt4 i) =>
        if 2147483649 ≤ i ∧ i ≤ 4294967295 then .ok (-(i : Int))
        else .error .tupleGet
    | some (.posInt4 i) =>
        if 2147483648 ≤ i ∧ i ≤ 4294967295 then .ok (i : Int)
        else .error .tupleGet
    | some (.posInt5 i) =>
        if 4294967296 ≤ i ∧ i ≤ 1099511627775 then .ok (i : Int)
        else .error .tupleGet
    | some (.posInt6 i) =>
        if 1099511627776 ≤ i ∧ i ≤ 281474976710655 then .ok (i : Int)
        else .error .tupleGet
    | some (.posInt7 i) =>
        if 281474976710656 ≤ i ∧ i ≤ 72057594037927935 then .ok (i : Int)
        else .error .tupleGet
    | some (.posInt8 i) =>
        if 72057594037927936 ≤ i ∧ i ≤ 9223372036854775807 then .ok (i : Int)
        else .error .tupleGet
    | _ => .error .tupleGet

/-- C9: a typed accessor `get_i8/i16/i32/i64` returns the stored integer
value exactly when it fits the requested signed width, and the
accessor-mismatch error otherwise — never a truncated value; an absent index
or a non-integer element also gives the error. -/
theorem c9_int_accessors (t : List TupleValue) (index : Nat) :
    (∀ e v, t.get? index = some e → tvWf e = true → intValue e = some v →
      (getI8 t index
          = if -128 ≤ v ∧ v ≤ 127 then .ok v else .error .tupleGet)
      ∧ (getI16 t index
          = if -32768 ≤ v ∧ v ≤ 32767 then .ok v else .error .tupleGet)
      ∧ (getI32 t index
          = if -2147483648 ≤ v ∧ v ≤ 2147483647 then .ok v
            else .error .tupleGet)
      ∧ (getI64 t index
          = if -9223372036854775808 ≤ v ∧ v ≤ 9223372036854775807 then .ok v
            else .error .tupleGet))
    ∧ (t.get? index = none →
        getI8 t index = .error .tupleGet ∧ getI16 t index = .error .tupleGet
          ∧ getI32 t index = .error .tupleGet
          ∧ getI64 t index = .error .tupleGet)
    ∧ (∀ e, t.get? index = some e → intValue e = none →
        getI8 t index = .error .tupleGet ∧ getI16 t index = .error .tupleGet
          ∧ getI32 t index = .error .tupleGet
          ∧ getI64 t index = .error .tupleGet) := by
  refine ⟨?_, ?_, ?_⟩
  · intro e v he hwf hv
    cases e <;> first
      | (simp only [intValue] at hv
         exact Option.noConfusion hv)
      | (simp only [intValue, Option.some.injEq] at hv
         subst hv
         simp only [tvWf, Bool.and_eq_true, decide_eq_true_eq] at hwf
         refine ⟨?_, ?_, ?_, ?_⟩ <;>
           simp only [getI64, getI32, getI16, getI8, he] <;>
           split_ifs <;> first | rfl | omega)
  · intro he
    refine ⟨?_, ?_, ?_, ?_⟩ <;> simp only [getI64, getI32, getI16, getI8, he]
  · intro e he hnone
    cases e <;> first
      | (simp only [intValue] at hnone
         exact Option.noConfusion hnone)
      | (refine ⟨?_, ?_, ?_, ?_⟩ <;>
          simp only [getI64, getI32, getI16, getI8, he])

/-- Witness for C9: `get_i8` succeeds on a stored `-5` and fails with the
accessor-mismatch error on a stored `300`, which `get_i16` returns. -/
theorem c9_int_accessors_witness :
    ([.negInt1 5, .posInt2 300] : List TupleValue).get? 0 = some (.negInt1 5)
    ∧ tvWf (.negInt1 5) = true ∧ intValue (.negInt1 5) = some (-5)
    ∧ getI8 [.negInt1 5, .posInt2 300] 0 = .ok (-5)
    ∧ ([.negInt1 5, .posInt2 300] : List TupleValue).get? 1 = some (.posInt2 300)
    ∧ tvWf (.posInt2 300) = true ∧ intValue (.posInt2 300) = some 300
    ∧ getI8 [.negInt1 5, .posInt2 300] 1 = .error .tupleGet
    ∧ getI16 [.negInt1 5, .posInt2 300] 1 = .ok 300 := by
  have h0 := (c9_int_accessors [.negInt1 5, .posInt2 300] 0).1
    (.negInt1 5) (-5) (by rfl) (by decide) (by decide)
  have h1 := (c9_int_accessors [.negInt1 5, .posInt2 300] 1).1
    (.posInt2 300) 300 (by rfl) (by decide) (by decide)
  refine ⟨by rfl, by decide, by decide, ?_, by rfl, by decide, by decide, ?_, ?_⟩
  · simpa using h0.1
  · simpa using h1.1
  · simpa using h1.2.1

/-- `utils::extract_unpacked_bytes`: scan to the next unescaped `0x00`,
turning each `0x00 0xFF` pair back into `0x00`; returns the remaining input
and the unescaped payload, failing (as nom `take_until` does) when no
unescaped terminator is found. -/
def extractUnpackedBytes : List Nat → Option (List Nat × List Nat)
  | [] => none
  | 0 :: rest =>
      match rest with
      | c :: rest2 =>
          if c = 255 then
            (extractUnpackedBytes rest2).map fun pr => (pr.1, 0 :: pr.2)
          else some (c :: rest2, [])
      | [] => some ([], [])
  | (b + 1) :: rest =>
      (extractUnpackedBytes rest).map fun pr => (pr.1, (b + 1) :: pr.2)

theorem extractUnpackedBytes_zero_term (rest : List Nat)
    (h : rest.head? ≠ some 255) :
    extractUnpackedBytes (0 :: rest) = some (rest, []) := by
  rcases rest with _ | ⟨c, rest2⟩
  · rfl
  · have hc : c ≠ 255 := by
      intro hcc
      exact h (by rw [hcc]; rfl)
    simp only [extractUnpackedBytes]
    rw [if_neg hc]

/-- nom `take(n)`: the first `n` bytes and the rest, failing when fewer than
`n` bytes remain. -/
def takeExact (n : Nat) (l : List Nat) : Option (List Nat × List Nat) :=
  if n ≤ l.length then some (l.take n, l.drop n) else none

/-- The `element.rs parser` submodule's per-type-code parsers for every
non-recursive element (everything except null and nested tuples): dispatch
on the type-code byte, read the payload, un-complement negative payloads,
undo the float sign transformation. -/
def parseFlat (i : List Nat) : Option (TupleValue × List Nat) :=
  match i with
  | [] => none
  | b :: rest =>
    if b = 1 then
      (extractUnpackedBytes rest).map fun pr => (.byteString pr.2, pr.1)
    else if b = 2 then
      (extractUnpackedBytes rest).bind fun pr =>
        if utf8Valid pr.2 then some (.unicodeString pr.2, pr.1) else none
    else if b = 11 then
      match rest with
      | lenByte :: rest2 =>
          (takeExact (byteNot lenByte) rest2).map fun pr =>
            (.negativeArbitraryPrecisionInteger (fromBeBytes (pr.1.map byteNot)), pr.2)
      | [] => none
    else if b = 12 then
      (takeExact 8 rest).map fun pr =>
        (.negInt8 (fromBeBytes (pr.1.map byteNot)), pr.2)
    else if b = 13 then
      (takeExact 7 rest).map fun pr =>
        (.negInt7 (fromBeBytes (pr.1.map byteNot)), pr.2)
    else if b = 14 then
      (takeExact 6 rest).map fun pr =>
        (.negInt6 (fromBeBytes (pr.1.map byteNot)), pr.2)
    else if b = 15 then
      (takeExact 5 rest).map fun pr =>
        (.negInt5 (fromBeBytes (pr.1.map byteNot)), pr.2)
    else if b = 16 then
      (takeExact 4 rest).map fun pr =>
        (.negInt4 (fromBeBytes (pr.1.map byteNot)), pr.2)
    else if b = 17 then
      (takeExact 3 rest).map fun pr =>
        (.negInt3 (fromBeBytes (pr.1.map byteNot)), pr.2)
    else if b = 18 then
      (takeExact 2 rest).map fun pr =>
        (.negInt2 (fromBeBytes (pr.1.map byteNot)), pr.2)
    else if b = 19 then
      (takeExact 1 rest).map fun pr =>
        (.negInt1 (fromBeBytes (pr.1.map byteNot)), pr.2)
    else if b = 20 then some (.intZero, rest)
    else if b = 21 then
      (takeExact 1 rest).map fun pr => (.posInt1 (fromBeBytes pr.1), pr.2)
    else if b = 22 then
      (takeExact 2 rest).map fun pr => (.posInt2 (fromBeBytes pr.1), pr.2)
    else if b = 23 then
      (takeExact 3 rest).map fun pr => (.posInt3 (fromBeBytes pr.1), pr.2)
    else if b = 24 then
      (takeExact 4 rest).map fun pr => (.posInt4 (fromBeBytes pr.1), pr.2)
    else if b = 25 then
      (takeExact 5 rest).map fun pr => (.posInt5 (fromBeBytes pr.1), pr.2)
    else if b = 26 then
      (takeExact 6 rest).map fun pr => (.posInt6 (fromBeBytes pr.1), pr.2)
    else if b = 27 then
      (takeExact 7 rest).map fun pr => (.posInt7 (fromBeBytes pr.1), pr.2)
    else if b = 28 then
      (takeExact 8 rest).map fun pr => (.posInt8 (fromBeBytes pr.1), pr.2)
    else if b = 29 then
      match rest with
      | lenByte :: rest2 =>
          (takeExact lenByte rest2).map fun pr =>
            (.positiveArbitraryPrecisionInteger (fromBeBytes pr.1), pr.2)
      | [] => none
    else if b = 32 then
      (takeExact 4 rest).bind fun pr =>
        match pr.1 with
        | b0 :: bs =>
            if b0 < 128 then
              some (.ieeeBinaryFloatingPointFloat
                (fromBeBytes ((b0 :: bs).map byteNot)), pr.2)
            else
              some (.ieeeBinaryFloatingPointFloat
                (fromBeBytes ((b0 - 128) :: bs)), pr.2)
        | [] => none
    else if b = 33 then
      (takeExact 8 rest).bind fun pr =>
        match pr.1 with
        | b0 :: bs =>
            if b0 < 128 then
              some (.ieeeBinaryFloatingPointDouble
                (fromBeBytes ((b0 :: bs).map byteNot)), pr.2)
            else
              some (.ieeeBinaryFloatingPointDouble
                (fromBeBytes ((b0 - 128) :: bs)), pr.2)
        | [] => none
    else if b = 38 then some (.falseValue, rest)
    else if b = 39 then some (.trueValue, rest)
    else if b = 48 then
      (takeExact 16 rest).map fun pr => (.rfc4122Uuid pr.1, pr.2)
    else if b = 51 then
      (takeExact 12 rest).bind fun pr =>
        (Versionstamp.fromBytes pr.1).map fun v => (.versionstamp96Bit v, pr.2)
    else none

theorem parseFlat_eq_1 (rest : List Nat) :
    parseFlat (1 :: rest)
      = (extractUnpackedBytes rest).map fun pr => (.byteString pr.2, pr.1) := by
  simp [parseFlat]

theorem parseFlat_eq_2 (rest : List Nat) :
    parseFlat (2 :: rest)
      = (extractUnpackedBytes rest).bind fun pr =>
          if utf8Valid pr.2 then some (.unicodeString pr.2, pr.1) else none := by
  simp [parseFlat]

theorem parseFlat_eq_11 (lenByte : Nat) (rest2 : List Nat) :
    parseFlat (11 :: lenByte :: rest2)
      = (takeExact (byteNot lenByte) rest2).map fun pr =>
          (.negativeArbitraryPrecisionInteger (fromBeBytes (pr.1.map byteNot)), pr.2) := by
  simp [parseFlat]

theorem parseFlat_eq_12 (rest : List Nat) :
    parseFlat (12 :: rest)
      = (takeExact 8 rest).map fun pr =>
          (.negInt8 (fromBeBytes (pr.1.map byteNot)), pr.2) := by
  simp [parseFlat]

theorem parseFlat_eq_13 (rest : List Nat) :
    parseFlat (13 :: rest)
      = (takeExact 7 rest).map fun pr =>
          (.negInt7 (fromBeBytes (pr.1.map byteNot)), pr.2) := by
  simp [parseFlat]

theorem parseFlat_eq_14 (rest : List Nat) :
    parseFlat (14 :: rest)
      = (takeExact 6 rest).map fun pr =>
          (.negInt6 (fromBeBytes (pr.1.map byteNot)), pr.2) := by
  simp [parseFlat]

theorem parseFlat_eq_15 (rest : List Nat) :
    parseFlat (15 :: rest)
      = (takeExact 5 rest).map fun pr =>
          (.negInt5 (fromBeBytes (pr.1.map byteNot)), pr.2) := by
  simp [parseFlat]

theorem parseFlat_eq_16 (rest : List Nat) :
    parseFlat (16 :: rest)
      = (takeExact 4 rest).map fun pr =>
          (.negInt4 (fromBeBytes (pr.1.map byteNot)), pr.2) := by
  simp [parseFlat]

theorem parseFlat_eq_17 (rest : List Nat) :
    parseFlat (17 :: rest)
      = (takeExact 3 rest).map fun pr =>
          (.negInt3 (fromBeBytes (pr.1.map byteNot)), pr.2) := by
  simp [parseFlat]

theorem parseFlat_eq_18 (rest : List Nat) :
    parseFlat (18 :: rest)
      = (takeExact 2 rest).map fun pr =>
          (.negInt2 (fromBeBytes (pr.1.map byteNot)), pr.2) := by
  simp [parseFlat]

theorem parseFlat_eq_19 (rest : List Nat) :
    parseFlat (19 :: rest)
      = (takeExact 1 rest).map fun pr =>
          (.negInt1 (fromBeBytes (pr.1.map byteNot)), pr.2) := by
  simp [parseFlat]

theorem parseFlat_eq_20 (rest : List Nat) :
    parseFlat (20 :: rest) = some (.intZero, rest) := by
  simp [parseFlat]

theorem parseFlat_eq_21 (rest : List Nat) :
    parseFlat (21 :: rest)
      = (takeExact 1 rest).map fun pr => (.posInt1 (fromBeBytes pr.1), pr.2) := by
  simp [parseFlat]

theorem parseFlat_eq_22 (rest : List Nat) :
    parseFlat (22 :: rest)
      = (takeExact 2 rest).map fun pr => (.posInt2 (fromBeBytes pr.1), pr.2) := by
  simp [parseFlat]

theorem parseFlat_eq_23 (rest : List Nat) :
    parseFlat (23 :: rest)
      = (takeExact 3 rest).map fun pr => (.posInt3 (fromBeBytes pr.1), pr.2) := by
  simp [parseFlat]

theorem parseFlat_eq_24 (rest : List Nat) :
    parseFlat (24 :: rest)
      = (takeExact 4 rest).map fun pr => (.posInt4 (fromBeBytes pr.1), pr.2) := by
  simp [parseFlat]

theorem parseFlat_eq_25 (rest : List Nat) :
    parseFlat (25 :: rest)
      = (takeExact 5 rest).map fun pr => (.posInt5 (fromBeBytes pr.1), pr.2) := by
  simp [parseFlat]

theorem parseFlat_eq_26 (rest : List Nat) :
    parseFlat (26 :: rest)
      = (takeExact 6 rest).map fun pr => (.posInt6 (fromBeBytes pr.1), pr.2) := by
  simp [parseFlat]

theorem parseFlat_eq_27 (rest : List Nat) :
    parseFlat (27 :: rest)
      = (takeExact 7 rest).map fun pr => (.posInt7 (fromBeBytes pr.1), pr.2) := by
  simp [parseFlat]

theorem parseFlat_eq_28 (rest : List Nat) :
    parseFlat (28 :: rest)
      = (takeExact 8 rest).map fun pr => (.posInt8 (fromBeBytes pr.1), pr.2) := by
  simp [parseFlat]

theorem parseFlat_eq_29 (lenByte : Nat) (rest2 : List Nat) :
    parseFlat (29 :: lenByte :: rest2)
      = (takeExact lenByte rest2).map fun pr =>
          (.positiveArbitraryPrecisionInteger (fromBeBytes pr.1), pr.2) := by
  simp [parseFlat]

theorem parseFlat_eq_32 (rest : List Nat) :
    parseFlat (32 :: rest)
      = (takeExact 4 rest).bind fun pr =>
          match pr.1 with
          | b0 :: bs =>
              if b0 < 128 then
                some (.ieeeBinaryFloatingPointFloat
                  (fromBeBytes ((b0 :: bs).map byteNot)), pr.2)
              else
                some (.ieeeBinaryFloatingPointFloat
                  (fromBeBytes ((b0 - 128) :: bs)), pr.2)
          | [] => none := by
  simp [parseFlat]

theorem parseFlat_eq_33 (rest : List Nat) :
    parseFlat (33 :: rest)
      = (takeExact 8 rest).bind fun pr =>
          match pr.1 with
          | b0 :: bs =>
              if b0 < 128 then
                some (.ieeeBinaryFloatingPointDouble
                  (fromBeBytes ((b0 :: bs).map byteNot)), pr.2)
              else
                some (.ieeeBinaryFloatingPointDouble
                  (fromBeBytes ((b0 - 128) :: bs)), pr.2)
          | [] => none := by
  simp [parseFlat]

theorem parseFlat_eq_38 (rest : List Nat) :
    parseFlat (38 :: rest) = some (.falseValue, rest) := by
  simp [parseFlat]

theorem parseFlat_eq_39 (rest : List Nat) :
    parseFlat (39 :: rest) = some (.trueValue, rest) := by
  simp [parseFlat]

theorem parseFlat_eq_48 (rest : List Nat) :
    parseFlat (48 :: rest)
      = (takeExact 16 rest).map fun pr => (.rfc4122Uuid pr.1, pr.2) := by
  simp [parseFlat]

theorem parseFlat_eq_51 (rest : List Nat) :
    parseFlat (51 :: rest)
      = (takeExact 12 rest).bind fun pr =>
          (Versionstamp.fromBytes pr.1).map fun v => (.versionstamp96Bit v, pr.2) := by
  simp [parseFlat]

theorem extractUnpackedBytes_length_aux : ∀ (n : Nat) (i : List Nat),
    i.length ≤ n → ∀ rem out, extractUnpackedBytes i = some (rem, out) →
      rem.length < i.length := by
  intro n
  induction n with
  | zero =>
    intro i hi rem out h
    rcases i with _ | ⟨b, rest⟩
    · simp [extractUnpackedBytes] at h
    · simp at hi
  | succ n ih =>
    intro i hi rem out h
    rcases i with _ | ⟨b, rest⟩
    · simp [extractUnpackedBytes] at h
    · cases b with
      | zero =>
        rcases hr : rest.head? with _ | c
        · have hrest : rest = [] := by
            cases rest
            · rfl
            · simp at hr
          subst hrest
          rw [extractUnpackedBytes_zero_term [] (by simp)] at h
          simp only [Option.some.injEq, Prod.mk.injEq] at h
          obtain ⟨rfl, rfl⟩ := h
          simp
        · by_cases hc : c = 255
          · subst hc
            obtain ⟨rest2, rfl⟩ : ∃ rest2, rest = 255 :: rest2 := by
              cases rest with
              | nil => simp at hr
              | cons x xs =>
                simp only [List.head?_cons, Option.some.injEq] at hr
                exact ⟨xs, by rw [hr]⟩
            cases he : extractUnpackedBytes rest2 with
            | none =>
              simp [extractUnpackedBytes, he] at h
            | some pr =>
              obtain ⟨rem2, out2⟩ := pr
              have hlt := ih rest2 (by simp at hi ⊢; omega) rem2 out2 he
              simp only [extractUnpackedBytes, if_pos rfl, he, Option.map_some',
                Option.some.injEq, Prod.mk.injEq] at h
              obtain ⟨rfl, rfl⟩ := h
              simp only [List.length_cons]
              omega
          · rw [extractUnpackedBytes_zero_term rest (by rw [hr]; simpa using hc)] at h
            simp only [Option.some.injEq, Prod.mk.injEq] at h
            obtain ⟨rfl, rfl⟩ := h
            simp
      | succ b =>
        simp only [extractUnpackedBytes, Option.map_eq_some'] at h
        obtain ⟨⟨rem2, out2⟩, h1, h2⟩ := h
        have hlt := ih rest (by simpa using hi) rem2 out2 h1
        simp only [Prod.mk.injEq] at h2
        obtain ⟨rfl, rfl⟩ := h2
        simp only [List.length_cons]
        omega

theorem extractUnpackedBytes_length (i rem out : List Nat)
    (h : extractUnpackedBytes i = some (rem, out)) : rem.length < i.length :=
  extractUnpackedBytes_length_aux i.length i (le_refl _) rem out h

/-- `parser::nested_tuple` body after the `0x05` tag: loop over the nested
input, treating `0x00 0xFF` as a null element, a lone `0x00` as the
terminator, `0x05` as a recursive nested tuple, and anything else via the
flat per-type-code parsers.  The Rust loop consumes at least one byte per
iteration; here that termination argument is made explicit with a fuel
parameter that only ever decreases by one per iteration, so any fuel of at
least the input length behaves exactly like the source loop. -/
def parseNestedLoop (fuel : Nat) (i : List Nat) : Option (List TupleValue × List Nat) :=
  match fuel with
  | 0 => none
  | fuel + 1 =>
    match i with
    | [] => none
    | b :: rest =>
      if b = 0 then
        match rest with
        | c :: rest2 =>
            if c = 255 then
              (parseNestedLoop fuel rest2).map fun pr => (.nullValue :: pr.1, pr.2)
            else some ([], c :: rest2)
        | [] => some ([], [])
      else if b = 5 then
        (parseNestedLoop fuel rest).bind fun pr =>
          (parseNestedLoop fuel pr.2).map fun pr2 =>
            (.nestedTuple pr.1 :: pr2.1, pr2.2)
      else
        (parseFlat (b :: rest)).bind fun pr =>
          (parseNestedLoop fuel pr.2).map fun pr2 => (pr.1 :: pr2.1, pr2.2)

/-- `parser::tuple`: loop until the input is exhausted, dispatching on the
type-code byte (`0x00` is a bare null at top level, `0x05` opens a nested
tuple); an unknown code fails.  Fuel plays the same role as in
`parseNestedLoop`. -/
def parseTupleLoop (fuel : Nat) (i : List Nat) : Option (List TupleValue) :=
  match fuel with
  | 0 => none
  | fuel + 1 =>
    match i with
    | [] => some []
    | b :: rest =>
      if b = 0 then (parseTupleLoop fuel rest).map fun l => .nullValue :: l
      else if b = 5 then
        (parseNestedLoop fuel rest).bind fun pr =>
          (parseTupleLoop fuel pr.2).map fun l => .nestedTuple pr.1 :: l
      else
        (parseFlat (b :: rest)).bind fun pr =>
          (parseTupleLoop fuel pr.2).map fun l => pr.1 :: l

/-- `Tuple::from_bytes` / `element.rs from_bytes`: run the parser loop and
collapse any parse failure into the tuple-from-bytes error.  Fuel
`i.length + 1` never exhausts because every iteration of the source loop
consumes at least one byte. -/
def fromBytes (i : List Nat) : Except FdbError (List TupleValue) :=
  match parseTupleLoop (i.length + 1) i with
  | some l => .ok l
  | none => .error .tupleFromBytes

/-- Whether a continuation byte string does not start with `0xFF` — the
property making a preceding `0x00` terminator unambiguous.  Every packed
continuation satisfies it, since type codes are at most `0x33`. -/
def headLt255 (r : List Nat) : Bool :=
  match r with
  | [] => true
  | b :: _ => decide (b < 255)

/-- The versionstamp the parser rebuilds from a serialized versionstamp:
same transaction and user version, resolved-ness re-inferred from the
transaction bytes (the `Versionstamp::from_bytes` flag scan). -/
def normalizeVs (v : Versionstamp) : Versionstamp :=
  { complete := v.trVersion.foldl (fun acc x => if x ≠ 255 then true else acc) false,
    trVersion := v.trVersion,
    userVersion := v.userVersion }

mutual

/-- The element the parser rebuilds from a serialized element: identical
except that each versionstamp's resolved-ness is re-inferred from its
transaction bytes. -/
def normalizeElem : TupleValue → TupleValue
  | .nestedTuple t => .nestedTuple (normalizeList t)
  | .versionstamp96Bit v => .versionstamp96Bit (normalizeVs v)
  | x => x

/-- `normalizeElem` mapped over an element list. -/
def normalizeList : List TupleValue → List TupleValue
  | [] => []
  | x :: xs => normalizeElem x :: normalizeList xs

end

theorem extractUnpackedBytes_escape (b r : List Nat) (hr : headLt255 r = true) :
    extractUnpackedBytes (escapeNul b ++ 0 :: r) = some (r, b) := by
  induction b with
  | nil =>
      have h : r.head? ≠ some 255 := by
        cases r with
        | nil => simp
        | cons c r2 =>
            simp only [headLt255, decide_eq_true_eq] at hr
            simp only [List.head?_cons, ne_eq, Option.some.injEq]
            omega
      simpa [escapeNul] using extractUnpackedBytes_zero_term r h
  | cons x b' ih =>
      cases x with
      | zero =>
          simp only [escapeNul, List.cons_append]
          simp [extractUnpackedBytes, ih]
      | succ y =>
          simp only [escapeNul, List.cons_append]
          simp [extractUnpackedBytes, ih]

theorem takeExact_append (a r : List Nat) (n : Nat) (h : a.length = n) :
    takeExact n (a ++ r) = some (a, r) := by
  subst h
  simp [takeExact, List.take_left, List.drop_left]

theorem map_byteNot_map_byteNot (l : List Nat) (hl : ByteOk l) :
    (l.map byteNot).map byteNot = l := by
  induction l with
  | nil => rfl
  | cons x xs ih =>
      have hx : x < 256 := hl x (by simp)
      have hxs : ByteOk xs := fun y hy => hl y (by simp [hy])
      simp only [List.map_cons, ih hxs]
      congr 1
      simp only [byteNot]
      omega

theorem encElemN_head_all (x : TupleValue) :
    ∃ b bs, encElemN x = b :: bs ∧ b < 255 := by
  cases x <;> exact ⟨_, _, rfl, by norm_num⟩

theorem encElem_head_all (x : TupleValue) :
    ∃ b bs, encElem x = b :: bs ∧ b < 255 := by
  cases x <;> exact ⟨_, _, rfl, by norm_num⟩

theorem encElemN_shape (x : TupleValue) (hnull : x ≠ .nullValue)
    (hnested : ∀ t, x ≠ .nestedTuple t) :
    ∃ b bs, encElemN x = b :: bs ∧ b ≠ 0 ∧ b ≠ 5 ∧ b < 255 := by
  cases x
  case nullValue => exact absurd rfl hnull
  case nestedTuple t => exact absurd rfl (hnested t)
  all_goals exact ⟨_, _, rfl, by norm_num, by norm_num, by norm_num⟩

theorem headLt255_encNList_term (ts : List TupleValue) (r : List Nat) :
    headLt255 (encNList ts ++ 0 :: r) = true := by
  cases ts with
  | nil => rfl
  | cons x ts' =>
      obtain ⟨b, bs, hshape, hb⟩ := encElemN_head_all x
      simp only [encNList, hshape, List.cons_append, List.append_assoc,
        headLt255, decide_eq_true_eq]
      exact hb

theorem headLt255_toBytes (ts : List TupleValue) :
    headLt255 (toBytes ts) = true := by
  cases ts with
  | nil => rfl
  | cons x ts' =>
      obtain ⟨b, bs, hshape, hb⟩ := encElem_head_all x
      simp only [toBytes, hshape, List.cons_append, headLt255, decide_eq_true_eq]
      exact hb

theorem versionstamp_fromBytes_getBytes (v : Versionstamp)
    (hlen : v.trVersion.length = 10) (huv : v.userVersion < 65536) :
    Versionstamp.fromBytes v.getBytes = some (normalizeVs v) := by
  have hl2 : (beBytesFixed 2 v.userVersion).length = 2 := beBytesFixed_length 2 _
  have hlen12 : v.getBytes.length = 12 := by
    simp [Versionstamp.getBytes, hlen, hl2]
  have htake : v.getBytes.take 10 = v.trVersion := by
    rw [Versionstamp.getBytes, ← hlen, List.take_left]
  have hdrop : v.getBytes.drop 10 = beBytesFixed 2 v.userVersion := by
    rw [Versionstamp.getBytes, ← hlen, List.drop_left]
  rw [Versionstamp.fromBytes, if_pos hlen12, htake, hdrop,
    fromBeBytes_beBytesFixed]
  rw [show (256 : Nat) ^ 2 = 65536 from by norm_num, Nat.mod_eq_of_lt huv]
  rfl

mutual

theorem encElemN_normalizeElem : ∀ (x : TupleValue),
    encElemN (normalizeElem x) = encElemN x
  | .nestedTuple t => by
      simp only [normalizeElem, encElemN, encNList_normalizeList t]
  | .versionstamp96Bit v => by
      simp only [normalizeElem, encElemN, Versionstamp.getBytes, normalizeVs]
  | .nullValue => by simp only [normalizeElem]
  | .byteString b => by simp only [normalizeElem]
  | .unicodeString s => by simp only [normalizeElem]
  | .negativeArbitraryPrecisionInteger m => by simp only [normalizeElem]
  | .negInt8 u => by simp only [normalizeElem]
  | .negInt7 u => by simp only [normalizeElem]
  | .negInt6 u => by simp only [normalizeElem]
  | .negInt5 u => by simp only [normalizeElem]
  | .negInt4 u => by simp only [normalizeElem]
  | .negInt3 u => by simp only [normalizeElem]
  | .negInt2 u => by simp only [normalizeElem]
  | .negInt1 u => by simp only [normalizeElem]
  | .intZero => by simp only [normalizeElem]
  | .posInt1 u => by simp only [normalizeElem]
  | .posInt2 u => by simp only [normalizeElem]
  | .posInt3 u => by simp only [normalizeElem]
  | .posInt4 u => by simp only [normalizeElem]
  | .posInt5 u => by simp only [normalizeElem]
  | .posInt6 u => by simp only [normalizeElem]
  | .posInt7 u => by simp only [normalizeElem]
  | .posInt8 u => by simp only [normalizeElem]
  | .positiveArbitraryPrecisionInteger m => by simp only [normalizeElem]
  | .ieeeBinaryFloatingPointFloat bits => by simp only [normalizeElem]
  | .ieeeBinaryFloatingPointDouble bits => by simp only [normalizeElem]
  | .falseValue => by simp only [normalizeElem]
  | .trueValue => by simp only [normalizeElem]
  | .rfc4122Uuid u => by simp only [normalizeElem]
termination_by x => sizeOf x
decreasing_by
  simp_wf

theorem encNList_normalizeList : ∀ (ts : List TupleValue),
    encNList (normalizeList ts) = encNList ts
  | [] => by simp only [normalizeList]
  | x :: xs => by
      simp only [normalizeList, encNList, encElemN_normalizeElem x,
        encNList_normalizeList xs]
termination_by ts => sizeOf ts
decreasing_by
  all_goals simp_wf
  all_goals omega

end

theorem toBytes_normalizeList (ts : List TupleValue) :
    toBytes (normalizeList ts) = toBytes ts := by
  induction ts with
  | nil => rfl
  | cons x ts' ih =>
      have hx : encElem (normalizeElem x) = encElem x := by
        cases x <;>
          simp only [normalizeElem, encElem, encElemN, encNList_normalizeList,
            Versionstamp.getBytes, normalizeVs]
      simp only [toBytes, normalizeList, hx, ih]

theorem parseFlat_enc (x : TupleValue) (r : List Nat)
    (hwf : tvWf x = true)
    (hnull : x ≠ .nullValue)
    (hnested : ∀ t, x ≠ .nestedTuple t)
    (hr : headLt255 r = true) :
    parseFlat (encElemN x ++ r) = some (normalizeElem x, r) := by
  cases x
  case nullValue => exact absurd rfl hnull
  case nestedTuple t => exact absurd rfl (hnested t)
  case byteString b =>
    simp only [encElemN, List.cons_append, List.append_assoc, List.singleton_append,
      List.nil_append]
    rw [parseFlat_eq_1, extractUnpackedBytes_escape b r hr]
    simp only [Option.map_some', normalizeElem]
  case unicodeString s =>
    simp only [tvWf] at hwf
    simp only [encElemN, List.cons_append, List.append_assoc, List.singleton_append,
      List.nil_append]
    rw [parseFlat_eq_2, extractUnpackedBytes_escape s r hr]
    simp only [Option.bind]
    rw [if_pos hwf]
    simp only [normalizeElem]
  case negativeArbitraryPrecisionInteger m =>
    simp only [tvWf, Bool.and_eq_true, decide_eq_true_eq] at hwf
    obtain ⟨hm, hlen⟩ := hwf
    simp only [encElemN, List.cons_append]
    rw [parseFlat_eq_11]
    rw [show byteNot (byteNot (beBytesNat m).length) = (beBytesNat m).length from by
      simp only [byteNot]; omega]
    rw [takeExact_append _ r _ (by simp)]
    simp only [Option.map_some']
    rw [map_byteNot_map_byteNot _ (beBytesNat_byteOk m), fromBeBytes_beBytesNat]
    simp only [normalizeElem]
  case negInt8 u =>
    simp only [tvWf, decide_eq_true_eq] at hwf
    simp only [encElemN, List.cons_append]
    rw [parseFlat_eq_12]
    rw [takeExact_append _ r _ (by simp [beBytesFixed_length])]
    simp only [Option.map_some']
    rw [map_byteNot_map_byteNot _ (beBytesFixed_byteOk _ _), fromBeBytes_beBytesFixed]
    rw [Nat.mod_eq_of_lt (by norm_num; omega)]
    simp only [normalizeElem]
  case negInt7 u =>
    simp only [tvWf, decide_eq_true_eq] at hwf
    simp only [encElemN, List.cons_append]
    rw [parseFlat_eq_13]
    rw [takeExact_append _ r _ (by simp [beBytesFixed_length])]
    simp only [Option.map_some']
    rw [map_byteNot_map_byteNot _ (beBytesFixed_byteOk _ _), fromBeBytes_beBytesFixed]
    rw [Nat.mod_eq_of_lt (by norm_num; omega)]
    simp only [normalizeElem]
  case negInt6 u =>
    simp only [tvWf, decide_eq_true_eq] at hwf
    simp only [encElemN, List.cons_append]
    rw [parseFlat_eq_14]
    rw [takeExact_append _ r _ (by simp [beBytesFixed_length])]
    simp only [Option.map_some']
    rw [map_byteNot_map_byteNot _ (beBytesFixed_byteOk _ _), fromBeBytes_beBytesFixed]
    rw [Nat.mod_eq_of_lt (by norm_num; omega)]
    simp only [normalizeElem]
  case negInt5 u =>
    simp only [tvWf, decide_eq_true_eq] at hwf
    simp only [encElemN, List.cons_append]
    rw [parseFlat_eq_15]
    rw [takeExact_append _ r _ (by simp [beBytesFixed_length])]
    simp only [Option.map_some']
    rw [map_byteNot_map_byteNot _ (beBytesFixed_byteOk _ _), fromBeBytes_beBytesFixed]
    rw [Nat.mod_eq_of_lt (by norm_num; omega)]
    simp only [normalizeElem]
  case negInt4 u =>
    simp only [tvWf, decide_eq_true_eq] at hwf
    simp only [encElemN, List.cons_append]
    rw [parseFlat_eq_16]
    rw [takeExact_append _ r _ (by simp [beBytesFixed_length])]
    simp only [Option.map_some']
    rw [map_byteNot_map_byteNot _ (beBytesFixed_byteOk _ _), fromBeBytes_beBytesFixed]
    rw [Nat.mod_eq_of_lt (by norm_num; omega)]
    simp only [normalizeElem]
  case negInt3 u =>
    simp only [tvWf, decide_eq_true_eq] at hwf
    simp only [encElemN, List.cons_append]
    rw [parseFlat_eq_17]
    rw [takeExact_append _ r _ (by simp [beBytesFixed_length])]
    simp only [Option.map_some']
    rw [map_byteNot_map_byteNot _ (beBytesFixed_byteOk _ _), fromBeBytes_beBytesFixed]
    rw [Nat.mod_eq_of_lt (by norm_num; omega)]
    simp only [normalizeElem]
  case negInt2 u =>
    simp only [tvWf, decide_eq_true_eq] at hwf
    simp only [encElemN, List.cons_append]
    rw [parseFlat_eq_18]
    rw [takeExact_append _ r _ (by simp [beBytesFixed_length])]
    simp only [Option.map_some']
    rw [map_byteNot_map_byteNot _ (beBytesFixed_byteOk _ _), fromBeBytes_beBytesFixed]
    rw [Nat.mod_eq_of_lt (by norm_num; omega)]
    simp only [normalizeElem]
  case negInt1 u =>
    simp only [tvWf, decide_eq_true_eq] at hwf
    simp only [encElemN, List.cons_append]
    rw [parseFlat_eq_19]
    rw [takeExact_append _ r _ (by simp [beBytesFixed_length])]
    simp only [Option.map_some']
    rw [map_byteNot_map_byteNot _ (beBytesFixed_byteOk _ _), fromBeBytes_beBytesFixed]
    rw [Nat.mod_eq_of_lt (by norm_num; omega)]
    simp only [normalizeElem]
  case intZero =>
    simp only [encElemN, List.cons_append, List.nil_append]
    rw [parseFlat_eq_20]
    simp only [normalizeElem]
  case posInt1 u =>
    simp only [tvWf, decide_eq_true_eq] at hwf
    simp only [encElemN, List.cons_append]
    rw [parseFlat_eq_21]
    rw [takeExact_append _ r _ (beBytesFixed_length _ _)]
    simp only [Option.map_some', fromBeBytes_beBytesFixed]
    rw [Nat.mod_eq_of_lt (by norm_num; omega)]
    simp only [normalizeElem]
  case posInt2 u =>
    simp only [tvWf, decide_eq_true_eq] at hwf
    simp only [encElemN, List.cons_append]
    rw [parseFlat_eq_22]
    rw [takeExact_append _ r _ (beBytesFixed_length _ _)]
    simp only [Option.map_some', fromBeBytes_beBytesFixed]
    rw [Nat.mod_eq_of_lt (by norm_num; omega)]
    simp only [normalizeElem]
  case posInt3 u =>
    simp only [tvWf, decide_eq_true_eq] at hwf
    simp only [encElemN, List.cons_append]
    rw [parseFlat_eq_23]
    rw [takeExact_append _ r _ (beBytesFixed_length _ _)]
    simp only [Option.map_some', fromBeBytes_beBytesFixed]
    rw [Nat.mod_eq_of_lt (by norm_num; omega)]
    simp only [normalizeElem]
  case posInt4 u =>
    simp only [tvWf, decide_eq_true_eq] at hwf
    simp only [encElemN, List.cons_append]
    rw [parseFlat_eq_24]
    rw [takeExact_append _ r _ (beBytesFixed_length _ _)]
    simp only [Option.map_some', fromBeBytes_beBytesFixed]
    rw [Nat.mod_eq_of_lt (by norm_num; omega)]
    simp only [normalizeElem]
  case posInt5 u =>
    simp only [tvWf, decide_eq_true_eq] at hwf
    simp only [encElemN, List.cons_append]
    rw [parseFlat_eq_25]
    rw [takeExact_append _ r _ (beBytesFixed_length _ _)]
    simp only [Option.map_some', fromBeBytes_beBytesFixed]
    rw [Nat.mod_eq_of_lt (by norm_num; omega)]
    simp only [normalizeElem]
  case posInt6 u =>
    simp only [tvWf, decide_eq_true_eq] at hwf
    simp only [encElemN, List.cons_append]
    rw [parseFlat_eq_26]
    rw [takeExact_append _ r _ (beBytesFixed_length _ _)]
    simp only [Option.map_some', fromBeBytes_beBytesFixed]
    rw [Nat.mod_eq_of_lt (by norm_num; omega)]
    simp only [normalizeElem]
  case posInt7 u =>
    simp only [tvWf, decide_eq_true_eq] at hwf
    simp only [encElemN, List.cons_append]
    rw [parseFlat_eq_27]
    rw [takeExact_append _ r _ (beBytesFixed_length _ _)]
    simp only [Option.map_some', fromBeBytes_beBytesFixed]
    rw [Nat.mod_eq_of_lt (by norm_num; omega)]
    simp only [normalizeElem]
  case posInt8 u =>
    simp only [tvWf, decide_eq_true_eq] at hwf
    simp only [encElemN, List.cons_append]
    rw [parseFlat_eq_28]
    rw [takeExact_append _ r _ (beBytesFixed_length _ _)]
    simp only [Option.map_some', fromBeBytes_beBytesFixed]
    rw [Nat.mod_eq_of_lt (by norm_num; omega)]
    simp only [normalizeElem]
  case positiveArbitraryPrecisionInteger m =>
    simp only [tvWf, Bool.and_eq_true, decide_eq_true_eq] at hwf
    simp only [encElemN, List.cons_append]
    rw [parseFlat_eq_29]
    rw [takeExact_append _ r _ rfl]
    simp only [Option.map_some', fromBeBytes_beBytesNat]
    simp only [normalizeElem]
  case ieeeBinaryFloatingPointFloat bits =>
    simp only [tvWf, decide_eq_true_eq] at hwf
    have h4 : beBytesFixed 4 bits = bits / 256 ^ 3 % 256 :: beBytesFixed 3 bits :=
      beBytesFixed_cons 3 bits
    simp only [encElemN, List.cons_append]
    rw [parseFlat_eq_32]
    by_cases hs : 2 ^ (8 * 4 - 1) ≤ bits
    · have hpl : floatPayload 4 bits
          = byteNot (bits / 256 ^ 3 % 256) :: (beBytesFixed 3 bits).map byteNot := by
        simp only [floatPayload, if_pos hs, h4, List.map_cons]
      rw [hpl]
      rw [takeExact_append _ r _ (by
        simp only [← List.map_cons, ← h4]
        simp [beBytesFixed_length])]
      simp only [Option.bind]
      have hb0 : byteNot (bits / 256 ^ 3 % 256) < 128 := by
        have h128 : 128 ≤ bits / 256 ^ 3 % 256 := by
          norm_num at hs ⊢
          omega
        simp only [byteNot]
        omega
      rw [if_pos hb0]
      rw [show byteNot (bits / 256 ^ 3 % 256) :: (beBytesFixed 3 bits).map byteNot
            = (beBytesFixed 4 bits).map byteNot from by rw [h4, List.map_cons]]
      rw [map_byteNot_map_byteNot _ (beBytesFixed_byteOk _ _), fromBeBytes_beBytesFixed]
      rw [Nat.mod_eq_of_lt (by norm_num; omega)]
      simp only [normalizeElem]
    · have hd : bits / 256 ^ 3 % 256 < 128 := by
        norm_num at hs ⊢
        omega
      have hpl : floatPayload 4 bits
          = (bits / 256 ^ 3 % 256 + 128) :: beBytesFixed 3 bits := by
        simp only [floatPayload, if_neg hs, h4]
      rw [hpl]
      rw [takeExact_append _ r _ (by simp [beBytesFixed_length])]
      simp only [Option.bind]
      rw [if_neg (by omega : ¬ (bits / 256 ^ 3 % 256 + 128 < 128))]
      rw [show bits / 256 ^ 3 % 256 + 128 - 128 = bits / 256 ^ 3 % 256 from by omega]
      rw [← h4, fromBeBytes_beBytesFixed]
      rw [Nat.mod_eq_of_lt (by norm_num; omega)]
      simp only [normalizeElem]
  case ieeeBinaryFloatingPointDouble bits =>
    simp only [tvWf, decide_eq_true_eq] at hwf
    have h8 : beBytesFixed 8 bits = bits / 256 ^ 7 % 256 :: beBytesFixed 7 bits :=
      beBytesFixed_cons 7 bits
    simp only [encElemN, List.cons_append]
    rw [parseFlat_eq_33]
    by_cases hs : 2 ^ (8 * 8 - 1) ≤ bits
    · have hpl : floatPayload 8 bits
          = byteNot (bits / 256 ^ 7 % 256) :: (beBytesFixed 7 bits).map byteNot := by
        simp only [floatPayload, if_pos hs, h8, List.map_cons]
      rw [hpl]
      rw [takeExact_append _ r _ (by
        simp only [← List.map_cons, ← h8]
        simp [beBytesFixed_length])]
      simp only [Option.bind]
      have hb0 : byteNot (bits / 256 ^ 7 % 256) < 128 := by
        have h128 : 128 ≤ bits / 256 ^ 7 % 256 := by
          norm_num at hs ⊢
          omega
        simp only [byteNot]
        omega
      rw [if_pos hb0]
      rw [show byteNot (bits / 256 ^ 7 % 256) :: (beBytesFixed 7 bits).map byteNot
            = (beBytesFixed 8 bits).map byteNot from by rw [h8, List.map_cons]]
      rw [map_byteNot_map_byteNot _ (beBytesFixed_byteOk _ _), fromBeBytes_beBytesFixed]
      rw [Nat.mod_eq_of_lt (by norm_num; omega)]
      simp only [normalizeElem]
    · have hd : bits / 256 ^ 7 % 256 < 128 := by
        norm_num at hs ⊢
        omega
      have hpl : floatPayload 8 bits
          = (bits / 256 ^ 7 % 256 + 128) :: beBytesFixed 7 bits := by
        simp only [floatPayload, if_neg hs, h8]
      rw [hpl]
      rw [takeExact_append _ r _ (by simp [beBytesFixed_length])]
      simp only [Option.bind]
      rw [if_neg (by omega : ¬ (bits / 256 ^ 7 % 256 + 128 < 128))]
      rw [show bits / 256 ^ 7 % 256 + 128 - 128 = bits / 256 ^ 7 % 256 from by omega]
      rw [← h8, fromBeBytes_beBytesFixed]
      rw [Nat.mod_eq_of_lt (by norm_num; omega)]
      simp only [normalizeElem]
  case falseValue =>
    simp only [encElemN, List.cons_append, List.nil_append]
    rw [parseFlat_eq_38]
    simp only [normalizeElem]
  case trueValue =>
    simp only [encElemN, List.cons_append, List.nil_append]
    rw [parseFlat_eq_39]
    simp only [normalizeElem]
  case rfc4122Uuid u =>
    simp only [tvWf, Bool.and_eq_true, decide_eq_true_eq] at hwf
    obtain ⟨hlen, _⟩ := hwf
    simp only [encElemN, List.cons_append]
    rw [parseFlat_eq_48]
    rw [takeExact_append _ r _ hlen]
    simp only [Option.map_some', normalizeElem]
  case versionstamp96Bit v =>
    simp only [tvWf, Bool.and_eq_true, decide_eq_true_eq] at hwf
    obtain ⟨⟨hlen, _⟩, huv⟩ := hwf
    simp only [encElemN, List.cons_append]
    rw [parseFlat_eq_51]
    rw [takeExact_append _ r _ (by
      simp [Versionstamp.getBytes, hlen, beBytesFixed_length])]
    simp only [Option.bind]
    rw [versionstamp_fromBytes_getBytes v hlen huv]
    simp only [Option.map_some', normalizeElem]

theorem parseNestedLoop_flatStep (x : TupleValue) (tail : List Nat) (fuel : Nat)
    (hf : fuel ≠ 0) (hwx : tvWf x = true) (hnull : x ≠ .nullValue)
    (hnested : ∀ t, x ≠ .nestedTuple t) (htail : headLt255 tail = true) :
    parseNestedLoop fuel (encElemN x ++ tail)
      = (parseNestedLoop (fuel - 1) tail).map
          fun pr => (normalizeElem x :: pr.1, pr.2) := by
  obtain ⟨b, bs, hshape, hb0, hb5, hb255⟩ := encElemN_shape x hnull hnested
  rcases fuel with _ | f
  · exact absurd rfl hf
  rw [hshape, List.cons_append]
  simp only [parseNestedLoop]
  rw [if_neg hb0, if_neg hb5]
  rw [show b :: (bs ++ tail) = encElemN x ++ tail from by rw [hshape, List.cons_append]]
  rw [parseFlat_enc x tail hwx hnull hnested htail]
  simp only [Option.bind, Nat.succ_sub_one]

theorem parseTupleLoop_flatStep (x : TupleValue) (tail : List Nat) (fuel : Nat)
    (hf : fuel ≠ 0) (hwx : tvWf x = true) (hnull : x ≠ .nullValue)
    (hnested : ∀ t, x ≠ .nestedTuple t) (htail : headLt255 tail = true) :
    parseTupleLoop fuel (encElemN x ++ tail)
      = (parseTupleLoop (fuel - 1) tail).map fun l => normalizeElem x :: l := by
  obtain ⟨b, bs, hshape, hb0, hb5, hb255⟩ := encElemN_shape x hnull hnested
  rcases fuel with _ | f
  · exact absurd rfl hf
  rw [hshape, List.cons_append]
  simp only [parseTupleLoop]
  rw [if_neg hb0, if_neg hb5]
  rw [show b :: (bs ++ tail) = encElemN x ++ tail from by rw [hshape, List.cons_append]]
  rw [parseFlat_enc x tail hwx hnull hnested htail]
  simp only [Option.bind, Nat.succ_sub_one]

theorem parseNestedLoop_encNList_aux : ∀ (n : Nat) (ts : List TupleValue),
    sizeOf ts ≤ n → ∀ (r : List Nat) (fuel : Nat),
    listWf ts = true → headLt255 r = true →
    (encNList ts ++ 0 :: r).length ≤ fuel →
    parseNestedLoop fuel (encNList ts ++ 0 :: r) = some (normalizeList ts, r) := by
  intro n
  induction n with
  | zero =>
      intro ts hts r fuel hwf hr hfl
      cases ts with
      | nil => simp at hts
      | cons x ts' => simp [List.cons.sizeOf_spec] at hts
  | succ n ih =>
      intro ts hts r fuel hwf hr hfl
      cases ts with
      | nil =>
          simp only [encNList, List.nil_append] at hfl ⊢
          rcases fuel with _ | f
          · simp only [List.length_cons] at hfl
            omega
          rcases r with _ | ⟨c, r2⟩
          · rfl
          · have hc : ¬ (c = 255) := by
              simp only [headLt255, decide_eq_true_eq] at hr
              omega
            simp only [parseNestedLoop, if_true]
            rw [if_neg hc]
            rfl
      | cons x ts' =>
          cases x
          case nullValue =>
            simp only [listWf, Bool.and_eq_true] at hwf
            obtain ⟨hwx, hwts⟩ := hwf
            simp only [List.cons.sizeOf_spec] at hts
            simp only [encNList, encElemN, List.cons_append, List.append_assoc,
              List.nil_append] at hfl ⊢
            rcases fuel with _ | f
            · simp only [List.length_cons] at hfl
              omega
            simp only [parseNestedLoop, if_true]
            rw [ih ts' (by omega) r f hwts hr (by
              simp only [List.length_cons, List.length_append] at hfl ⊢
              omega)]
            simp only [Option.map_some', normalizeList, normalizeElem]
          case nestedTuple ts2 =>
            simp only [listWf, Bool.and_eq_true] at hwf
            obtain ⟨hwx, hwts⟩ := hwf
            simp only [tvWf] at hwx
            simp only [List.cons.sizeOf_spec, TupleValue.nestedTuple.sizeOf_spec] at hts
            simp only [encNList, encElemN, List.cons_append, List.append_assoc,
              List.singleton_append, List.nil_append] at hfl ⊢
            rcases fuel with _ | f
            · simp only [List.length_cons, List.length_append] at hfl
              omega
            simp only [parseNestedLoop, if_true]
            rw [if_neg (by norm_num : ¬ (5 : Nat) = 0)]
            rw [ih ts2 (by omega) (encNList ts' ++ 0 :: r) f hwx
              (headLt255_encNList_term ts' r) (by
                simp only [List.length_cons, List.length_append] at hfl ⊢
                omega)]
            simp only [Option.bind]
            rw [ih ts' (by omega) r f hwts hr (by
              simp only [List.length_cons, List.length_append] at hfl ⊢
              omega)]
            simp only [Option.map_some', normalizeList, normalizeElem]
          all_goals
            simp only [listWf, Bool.and_eq_true] at hwf
            obtain ⟨hwx, hwts⟩ := hwf
            simp only [List.cons.sizeOf_spec] at hts
            simp only [encNList, List.append_assoc] at hfl ⊢
            rw [parseNestedLoop_flatStep _ _ fuel
              (by
                simp only [encElemN, List.append_assoc, List.length_append,
                  List.length_cons, List.length_singleton, List.length_map] at hfl
                omega)
              hwx (by intro h; exact TupleValue.noConfusion h)
              (by intro t h; exact TupleValue.noConfusion h)
              (headLt255_encNList_term ts' r)]
            rw [ih ts' (by omega) r (fuel - 1) hwts hr (by
              simp only [encElemN, List.append_assoc, List.length_append,
                List.length_cons, List.length_singleton, List.length_map] at hfl ⊢
              omega)]
            simp only [Option.map_some', normalizeList, normalizeElem]

theorem parseNestedLoop_encNList (ts : List TupleValue) (r : List Nat) (fuel : Nat)
    (hwf : listWf ts = true) (hr : headLt255 r = true)
    (hfl : (encNList ts ++ 0 :: r).length ≤ fuel) :
    parseNestedLoop fuel (encNList ts ++ 0 :: r) = some (normalizeList ts, r) :=
  parseNestedLoop_encNList_aux (sizeOf ts) ts (le_refl _) r fuel hwf hr hfl

theorem parseTupleLoop_enc (ts : List TupleValue) :
    ∀ (fuel : Nat), listWf ts = true → (toBytes ts).length < fuel →
    parseTupleLoop fuel (toBytes ts) = some (normalizeList ts) := by
  induction ts with
  | nil =>
      intro fuel _ hfl
      rcases fuel with _ | f
      · omega
      · rfl
  | cons x ts' ih =>
      intro fuel hwf hfl
      cases x
      case nullValue =>
        simp only [listWf, Bool.and_eq_true] at hwf
        obtain ⟨hwx, hwts⟩ := hwf
        simp only [toBytes, encElem, List.cons_append, List.nil_append] at hfl ⊢
        rcases fuel with _ | f
        · omega
        simp only [parseTupleLoop, if_true]
        rw [ih f hwts (by simp only [List.length_cons] at hfl; omega)]
        simp only [Option.map_some', normalizeList, normalizeElem]
      case nestedTuple ts2 =>
        simp only [listWf, Bool.and_eq_true] at hwf
        obtain ⟨hwx, hwts⟩ := hwf
        simp only [tvWf] at hwx
        simp only [toBytes, encElem, encElemN, List.cons_append, List.append_assoc,
          List.singleton_append, List.nil_append] at hfl ⊢
        rcases fuel with _ | f
        · omega
        simp only [parseTupleLoop, if_true]
        rw [if_neg (by norm_num : ¬ (5 : Nat) = 0)]
        rw [parseNestedLoop_encNList ts2 (toBytes ts') f hwx (headLt255_toBytes ts') (by
          simp only [List.length_cons, List.length_append] at hfl ⊢
          omega)]
        simp only [Option.bind]
        rw [ih f hwts (by
          simp only [List.length_cons, List.length_append] at hfl
          omega)]
        simp only [Option.map_some', normalizeList, normalizeElem]
      all_goals
        simp only [listWf, Bool.and_eq_true] at hwf
        obtain ⟨hwx, hwts⟩ := hwf
        simp only [toBytes, encElem] at hfl ⊢
        rw [parseTupleLoop_flatStep _ _ fuel (by omega) hwx
          (by intro h; exact TupleValue.noConfusion h)
          (by intro t h; exact TupleValue.noConfusion h)
          (headLt255_toBytes ts')]
        rw [ih (fuel - 1) hwts (by
          simp only [encElemN, List.length_append, List.length_cons,
            List.length_singleton, List.length_map] at hfl
          omega)]
        simp only [Option.map_some', normalizeList, normalizeElem]

/-- **C2.** For every constructible tuple `t` (well-formed elements, as the
`Tuple::add_*` constructors produce) with no unresolved versionstamp,
decoding the encoding succeeds and yields `t` again under the library's own
tuple equality: `Tuple::from_bytes (t.pack())` returns `Ok` of a tuple whose
elements differ from `t` at most in each versionstamp's re-inferred
resolved-ness flag, whose packed bytes — the basis of the `Tuple`
`PartialEq` — coincide with `t`'s, and which therefore compares equal to
`t`; in particular a tuple holding a byte string with embedded `0x00` bytes
(including `0x00` immediately followed by `0xFF` in the input) round-trips
to exactly the original bytes. -/
theorem c2_decode_encode_roundtrip (ts : List TupleValue)
    (hwf : listWf ts = true)
    (hvs : hasIncompleteVersionstamp ts = false) :
    fromBytes (toBytes ts) = .ok (normalizeList ts)
    ∧ toBytes (normalizeList ts) = toBytes ts
    ∧ tupleEq (normalizeList ts) ts = true
    ∧ ∀ b : List Nat, ByteOk b →
        fromBytes (toBytes [.byteString b]) = .ok [.byteString b] := by
  refine ⟨?_, toBytes_normalizeList ts, ?_, ?_⟩
  · unfold fromBytes
    rw [parseTupleLoop_enc ts ((toBytes ts).length + 1) hwf (by omega)]
  · simp [tupleEq, toBytes_normalizeList ts]
  · intro b hb
    have hwfb : listWf [.byteString b] = true := by
      simp only [listWf, tvWf, Bool.and_eq_true, List.all_eq_true,
        decide_eq_true_eq]
      exact ⟨fun x hx => hb x hx, trivial⟩
    unfold fromBytes
    rw [parseTupleLoop_enc [.byteString b] _ hwfb (by omega)]
    simp [normalizeList, normalizeElem]

/-- Witness for C2: a concrete tuple holding a byte string with an embedded
`0x00 0xFF`, a nested tuple, and a resolved versionstamp round-trips. -/
theorem c2_decode_encode_roundtrip_witness :
    listWf [TupleValue.byteString [0, 255, 7],
      TupleValue.nestedTuple [TupleValue.nullValue, TupleValue.posInt1 3],
      TupleValue.versionstamp96Bit
        (Versionstamp.mk true [1, 2, 3, 4, 5, 6, 7, 8, 9, 10] 5)] = true
    ∧ hasIncompleteVersionstamp [TupleValue.byteString [0, 255, 7],
      TupleValue.nestedTuple [TupleValue.nullValue, TupleValue.posInt1 3],
      TupleValue.versionstamp96Bit
        (Versionstamp.mk true [1, 2, 3, 4, 5, 6, 7, 8, 9, 10] 5)] = false
    ∧ fromBytes (toBytes [TupleValue.byteString [0, 255, 7],
      TupleValue.nestedTuple [TupleValue.nullValue, TupleValue.posInt1 3],
      TupleValue.versionstamp96Bit
        (Versionstamp.mk true [1, 2, 3, 4, 5, 6, 7, 8, 9, 10] 5)]) =
      .ok (normalizeList [TupleValue.byteString [0, 255, 7],
        TupleValue.nestedTuple [TupleValue.nullValue, TupleValue.posInt1 3],
        TupleValue.versionstamp96Bit
          (Versionstamp.mk true [1, 2, 3, 4, 5, 6, 7, 8, 9, 10] 5)]) :=
  ⟨by decide, by decide,
    (c2_decode_encode_roundtrip _ (by decide) (by decide)).1⟩

theorem takeExact_length (n : Nat) (l : List Nat) (pr : List Nat × List Nat)
    (h : takeExact n l = some pr) : pr.2.length ≤ l.length := by
  simp only [takeExact] at h
  split_ifs at h
  injection h with h1
  rw [← h1]
  simp

theorem parseFlat_length (i : List Nat) (pr : TupleValue × List Nat)
    (h : parseFlat i = some pr) : pr.2.length < i.length := by
  match i with
  | [] => simp [parseFlat] at h
  | b :: rest =>
  by_cases hb1 : b = 1
  · subst hb1
    rw [parseFlat_eq_1] at h
    obtain ⟨⟨rem, out⟩, ha, hpr⟩ := Option.map_eq_some'.mp h
    have hl := extractUnpackedBytes_length rest rem out ha
    have h2 : pr.2 = rem := by rw [← hpr]
    rw [h2]
    simp only [List.length_cons]
    omega
  by_cases hb2 : b = 2
  · subst hb2
    rw [parseFlat_eq_2] at h
    obtain ⟨⟨rem, out⟩, ha, hf⟩ := Option.bind_eq_some.mp h
    have hl := extractUnpackedBytes_length rest rem out ha
    split_ifs at hf
    injection hf with h1
    have h2 : pr.2 = rem := by rw [← h1]
    rw [h2]
    simp only [List.length_cons]
    omega
  by_cases hb11 : b = 11
  · subst hb11
    rcases rest with _ | ⟨lb, rest2⟩
    · simp [parseFlat] at h
    · rw [parseFlat_eq_11] at h
      obtain ⟨a, ha, hpr⟩ := Option.map_eq_some'.mp h
      have hl := takeExact_length _ _ _ ha
      have h2 : pr.2 = a.2 := by rw [← hpr]
      rw [h2]
      simp only [List.length_cons]
      omega
  by_cases hb12 : b = 12
  · subst hb12
    rw [parseFlat_eq_12] at h
    obtain ⟨a, ha, hpr⟩ := Option.map_eq_some'.mp h
    have hl := takeExact_length _ _ _ ha
    have h2 : pr.2 = a.2 := by rw [← hpr]
    rw [h2]
    simp only [List.length_cons]
    omega
  by_cases hb13 : b = 13
  · subst hb13
    rw [parseFlat_eq_13] at h
    obtain ⟨a, ha, hpr⟩ := Option.map_eq_some'.mp h
    have hl := takeExact_length _ _ _ ha
    have h2 : pr.2 = a.2 := by rw [← hpr]
    rw [h2]
    simp only [List.length_cons]
    omega
  by_cases hb14 : b = 14
  · subst hb14
    rw [parseFlat_eq_14] at h
    obtain ⟨a, ha, hpr⟩ := Option.map_eq_some'.mp h
    have hl := takeExact_length _ _ _ ha
    have h2 : pr.2 = a.2 := by rw [← hpr]
    rw [h2]
    simp only [List.length_cons]
    omega
  by_cases hb15 : b = 15
  · subst hb15
    rw [parseFlat_eq_15] at h
    obtain ⟨a, ha, hpr⟩ := Option.map_eq_some'.mp h
    have hl := takeExact_length _ _ _ ha
    have h2 : pr.2 = a.2 := by rw [← hpr]
    rw [h2]
    simp only [List.length_cons]
    omega
  by_cases hb16 : b = 16
  · subst hb16
    rw [parseFlat_eq_16] at h
    obtain ⟨a, ha, hpr⟩ := Option.map_eq_some'.mp h
    have hl := takeExact_length _ _ _ ha
    have h2 : pr.2 = a.2 := by rw [← hpr]
    rw [h2]
    simp only [List.length_cons]
    omega
  by_cases hb17 : b = 17
  · subst hb17
    rw [parseFlat_eq_17] at h
    obtain ⟨a, ha, hpr⟩ := Option.map_eq_some'.mp h
    have hl := takeExact_length _ _ _ ha
    have h2 : pr.2 = a.2 := by rw [← hpr]
    rw [h2]
    simp only [List.length_cons]
    omega
  by_cases hb18 : b = 18
  · subst hb18
    rw [parseFlat_eq_18] at h
    obtain ⟨a, ha, hpr⟩ := Option.map_eq_some'.mp h
    have hl := takeExact_length _ _ _ ha
    have h2 : pr.2 = a.2 := by rw [← hpr]
    rw [h2]
    simp only [List.length_cons]
    omega
  by_cases hb19 : b = 19
  · subst hb19
    rw [parseFlat_eq_19] at h
    obtain ⟨a, ha, hpr⟩ := Option.map_eq_some'.mp h
    have hl := takeExact_length _ _ _ ha
    have h2 : pr.2 = a.2 := by rw [← hpr]
    rw [h2]
    simp only [List.length_cons]
    omega
  by_cases hb20 : b = 20
  · subst hb20
    rw [parseFlat_eq_20] at h
    injection h with h1
    have h2 : pr.2 = rest := by rw [← h1]
    rw [h2]
    simp
  by_cases hb21 : b = 21
  · subst hb21
    rw [parseFlat_eq_21] at h
    obtain ⟨a, ha, hpr⟩ := Option.map_eq_some'.mp h
    have hl := takeExact_length _ _ _ ha
    have h2 : pr.2 = a.2 := by rw [← hpr]
    rw [h2]
    simp only [List.length_cons]
    omega
  by_cases hb22 : b = 22
  · subst hb22
    rw [parseFlat_eq_22] at h
    obtain ⟨a, ha, hpr⟩ := Option.map_eq_some'.mp h
    have hl := takeExact_length _ _ _ ha
    have h2 : pr.2 = a.2 := by rw [← hpr]
    rw [h2]
    simp only [List.length_cons]
    omega
  by_cases hb23 : b = 23
  · subst hb23
    rw [parseFlat_eq_23] at h
    obtain ⟨a, ha, hpr⟩ := Option.map_eq_some'.mp h
    have hl := takeExact_length _ _ _ ha
    have h2 : pr.2 = a.2 := by rw [← hpr]
    rw [h2]
    simp only [List.length_cons]
    omega
  by_cases hb24 : b = 24
  · subst hb24
    rw [parseFlat_eq_24] at h
    obtain ⟨a, ha, hpr⟩ := Option.map_eq_some'.mp h
    have hl := takeExact_length _ _ _ ha
    have h2 : pr.2 = a.2 := by rw [← hpr]
    rw [h2]
    simp only [List.length_cons]
    omega
  by_cases hb25 : b = 25
  · subst hb25
    rw [parseFlat_eq_25] at h
    obtain ⟨a, ha, hpr⟩ := Option.map_eq_some'.mp h
    have hl := takeExact_length _ _ _ ha
    have h2 : pr.2 = a.2 := by rw [← hpr]
    rw [h2]
    simp only [List.length_cons]
    omega
  by_cases hb26 : b = 26
  · subst hb26
    rw [parseFlat_eq_26] at h
    obtain ⟨a, ha, hpr⟩ := Option.map_eq_some'.mp h
    have hl := takeExact_length _ _ _ ha
    have h2 : pr.2 = a.2 := by rw [← hpr]
    rw [h2]
    simp only [List.length_cons]
    omega
  by_cases hb27 : b = 27
  · subst hb27
    rw [parseFlat_eq_27] at h
    obtain ⟨a, ha, hpr⟩ := Option.map_eq_some'.mp h
    have hl := takeExact_length _ _ _ ha
    have h2 : pr.2 = a.2 := by rw [← hpr]
    rw [h2]
    simp only [List.length_cons]
    omega
  by_cases hb28 : b = 28
  · subst hb28
    rw [parseFlat_eq_28] at h
    obtain ⟨a, ha, hpr⟩ := Option.map_eq_some'.mp h
    have hl := takeExact_length _ _ _ ha
    have h2 : pr.2 = a.2 := by rw [← hpr]
    rw [h2]
    simp only [List.length_cons]
    omega
  by_cases hb29 : b = 29
  · subst hb29
    rcases rest with _ | ⟨lb, rest2⟩
    · simp [parseFlat] at h
    · rw [parseFlat_eq_29] at h
      obtain ⟨a, ha, hpr⟩ := Option.map_eq_some'.mp h
      have hl := takeExact_length _ _ _ ha
      have h2 : pr.2 = a.2 := by rw [← hpr]
      rw [h2]
      simp only [List.length_cons]
      omega
  by_cases hb32 : b = 32
  · subst hb32
    rw [parseFlat_eq_32] at h
    obtain ⟨a, ha, hf⟩ := Option.bind_eq_some.mp h
    have hl := takeExact_length _ _ _ ha
    split at hf
    · split_ifs at hf <;>
        (injection hf with h1
         have h2 : pr.2 = a.2 := by rw [← h1]
         rw [h2]
         simp only [List.length_cons]
         omega)
    · exact Option.noConfusion hf
  by_cases hb33 : b = 33
  · subst hb33
    rw [parseFlat_eq_33] at h
    obtain ⟨a, ha, hf⟩ := Option.bind_eq_some.mp h
    have hl := takeExact_length _ _ _ ha
    split at hf
    · split_ifs at hf <;>
        (injection hf with h1
         have h2 : pr.2 = a.2 := by rw [← h1]
         rw [h2]
         simp only [List.length_cons]
         omega)
    · exact Option.noConfusion hf
  by_cases hb38 : b = 38
  · subst hb38
    rw [parseFlat_eq_38] at h
    injection h with h1
    have h2 : pr.2 = rest := by rw [← h1]
    rw [h2]
    simp
  by_cases hb39 : b = 39
  · subst hb39
    rw [parseFlat_eq_39] at h
    injection h with h1
    have h2 : pr.2 = rest := by rw [← h1]
    rw [h2]
    simp
  by_cases hb48 : b = 48
  · subst hb48
    rw [parseFlat_eq_48] at h
    obtain ⟨a, ha, hpr⟩ := Option.map_eq_some'.mp h
    have hl := takeExact_length _ _ _ ha
    have h2 : pr.2 = a.2 := by rw [← hpr]
    rw [h2]
    simp only [List.length_cons]
    omega
  by_cases hb51 : b = 51
  · subst hb51
    rw [parseFlat_eq_51] at h
    obtain ⟨a, ha, hf⟩ := Option.bind_eq_some.mp h
    have hl := takeExact_length _ _ _ ha
    obtain ⟨v, hv, hpr⟩ := Option.map_eq_some'.mp hf
    have h2 : pr.2 = a.2 := by rw [← hpr]
    rw [h2]
    simp only [List.length_cons]
    omega
  rw [show parseFlat (b :: rest) = none from by
    simp [parseFlat, hb1, hb2, hb11, hb12, hb13, hb14, hb15, hb16, hb17, hb18, hb19, hb20, hb21, hb22, hb23, hb24, hb25, hb26, hb27, hb28, hb29, hb32, hb33, hb38, hb39, hb48, hb51]] at h
  exact Option.noConfusion h

theorem parseNestedLoop_length : ∀ (fuel : Nat) (i : List Nat)
    (pr : List TupleValue × List Nat),
    parseNestedLoop fuel i = some pr → pr.2.length < i.length := by
  intro fuel
  induction fuel with
  | zero =>
      intro i pr h
      simp [parseNestedLoop] at h
  | succ f ih =>
      intro i pr h
      match i with
      | [] => simp [parseNestedLoop] at h
      | b :: rest =>
        by_cases hb0 : b = 0
        · subst hb0
          rcases rest with _ | ⟨c, rest2⟩
          · simp only [parseNestedLoop, if_true] at h
            injection h with h1
            rw [← h1]
            simp
          · simp only [parseNestedLoop, if_true] at h
            split_ifs at h with hc
            · obtain ⟨a, ha, hpr⟩ := Option.map_eq_some'.mp h
              have hl := ih rest2 a ha
              have h2 : pr.2 = a.2 := by rw [← hpr]
              rw [h2]
              simp only [List.length_cons]
              omega
            · injection h with h1
              rw [← h1]
              simp
        · simp only [parseNestedLoop] at h
          rw [if_neg hb0] at h
          by_cases hb5 : b = 5
          · rw [if_pos hb5] at h
            obtain ⟨a, ha, hf⟩ := Option.bind_eq_some.mp h
            obtain ⟨a2, ha2, hpr⟩ := Option.map_eq_some'.mp hf
            have hl := ih rest a ha
            have hl2 := ih a.2 a2 ha2
            have h2 : pr.2 = a2.2 := by rw [← hpr]
            rw [h2]
            simp only [List.length_cons]
            omega
          · rw [if_neg hb5] at h
            obtain ⟨a, ha, hf⟩ := Option.bind_eq_some.mp h
            obtain ⟨a2, ha2, hpr⟩ := Option.map_eq_some'.mp hf
            have hl := parseFlat_length _ _ ha
            have hl2 := ih a.2 a2 ha2
            have h2 : pr.2 = a2.2 := by rw [← hpr]
            rw [h2]
            simp only [List.length_cons] at hl ⊢
            omega

theorem parseNestedLoop_fuel_irrel : ∀ (n : Nat) (i : List Nat),
    i.length ≤ n → ∀ (fuel fuel' : Nat), i.length ≤ fuel → i.length ≤ fuel' →
    parseNestedLoop fuel i = parseNestedLoop fuel' i := by
  intro n
  induction n with
  | zero =>
      intro i hi fuel fuel' h1 h2
      have hnil : i = [] := by
        cases i with
        | nil => rfl
        | cons x xs => simp at hi
      subst hnil
      cases fuel <;> cases fuel' <;> rfl
  | succ n ih =>
      intro i hi fuel fuel' h1 h2
      match i with
      | [] => cases fuel <;> cases fuel' <;> rfl
      | b :: rest =>
        obtain ⟨f, rfl⟩ : ∃ f, fuel = f + 1 :=
          ⟨fuel - 1, by simp only [List.length_cons] at h1; omega⟩
        obtain ⟨f', rfl⟩ : ∃ g, fuel' = g + 1 :=
          ⟨fuel' - 1, by simp only [List.length_cons] at h2; omega⟩
        simp only [List.length_cons] at hi h1 h2
        by_cases hb0 : b = 0
        · subst hb0
          rcases rest with _ | ⟨c, rest2⟩
          · rfl
          · simp only [List.length_cons] at hi h1 h2
            simp only [parseNestedLoop, if_true]
            by_cases hc : c = 255
            · rw [if_pos hc, if_pos hc]
              rw [ih rest2 (by omega) f f' (by omega) (by omega)]
            · rw [if_neg hc, if_neg hc]
        · simp only [parseNestedLoop]
          rw [if_neg hb0, if_neg hb0]
          by_cases hb5 : b = 5
          · rw [if_pos hb5, if_pos hb5]
            rw [ih rest (by omega) f f' (by omega) (by omega)]
            cases hp : parseNestedLoop f' rest with
            | none => rfl
            | some a =>
                simp only [Option.bind]
                have hl := parseNestedLoop_length f' rest a hp
                rw [ih a.2 (by omega) f f' (by omega) (by omega)]
          · rw [if_neg hb5, if_neg hb5]
            cases hp : parseFlat (b :: rest) with
            | none => rfl
            | some a =>
                simp only [Option.bind]
                have hl := parseFlat_length _ _ hp
                simp only [List.length_cons] at hl
                rw [ih a.2 (by omega) f f' (by omega) (by omega)]

theorem parseTupleLoop_fuel_irrel : ∀ (n : Nat) (i : List Nat),
    i.length ≤ n → ∀ (fuel fuel' : Nat), i.length < fuel → i.length < fuel' →
    parseTupleLoop fuel i = parseTupleLoop fuel' i := by
  intro n
  induction n with
  | zero =>
      intro i hi fuel fuel' h1 h2
      have hnil : i = [] := by
        cases i with
        | nil => rfl
        | cons x xs => simp at hi
      subst hnil
      obtain ⟨f, rfl⟩ : ∃ f, fuel = f + 1 := ⟨fuel - 1, by omega⟩
      obtain ⟨f', rfl⟩ : ∃ g, fuel' = g + 1 := ⟨fuel' - 1, by omega⟩
      rfl
  | succ n ih =>
      intro i hi fuel fuel' h1 h2
      obtain ⟨f, rfl⟩ : ∃ f, fuel = f + 1 := ⟨fuel - 1, by omega⟩
      obtain ⟨f', rfl⟩ : ∃ g, fuel' = g + 1 := ⟨fuel' - 1, by omega⟩
      match i with
      | [] => rfl
      | b :: rest =>
        simp only [List.length_cons] at hi h1 h2
        simp only [parseTupleLoop]
        by_cases hb0 : b = 0
        · rw [if_pos hb0, if_pos hb0]
          rw [ih rest (by omega) f f' (by omega) (by omega)]
        · rw [if_neg hb0, if_neg hb0]
          by_cases hb5 : b = 5
          · rw [if_pos hb5, if_pos hb5]
            rw [parseNestedLoop_fuel_irrel rest.length rest (le_refl _) f f'
              (by omega) (by omega)]
            cases hp : parseNestedLoop f' rest with
            | none => rfl
            | some a =>
                simp only [Option.bind]
                have hl := parseNestedLoop_length f' rest a hp
                rw [ih a.2 (by omega) f f' (by omega) (by omega)]
          · rw [if_neg hb5, if_neg hb5]
            cases hp : parseFlat (b :: rest) with
            | none => rfl
            | some a =>
                simp only [Option.bind]
                have hl := parseFlat_length _ _ hp
                simp only [List.length_cons] at hl
                rw [ih a.2 (by omega) f f' (by omega) (by omega)]

theorem parseTupleLoop_irrel (i : List Nat) (fuel fuel' : Nat)
    (h1 : i.length < fuel) (h2 : i.length < fuel') :
    parseTupleLoop fuel i = parseTupleLoop fuel' i :=
  parseTupleLoop_fuel_irrel i.length i (le_refl _) fuel fuel' h1 h2

theorem headLt255_toBytes_append (ts : List TupleValue) (X : List Nat)
    (hX : headLt255 X = true) : headLt255 (toBytes ts ++ X) = true := by
  cases ts with
  | nil => simpa [toBytes]
  | cons x ts' =>
      obtain ⟨b, bs, hshape, hb⟩ := encElem_head_all x
      simp only [toBytes, hshape, List.cons_append, List.append_assoc,
        headLt255, decide_eq_true_eq]
      exact hb

theorem toBytes_append (a b : List TupleValue) :
    toBytes (a ++ b) = toBytes a ++ toBytes b := by
  induction a with
  | nil => simp [toBytes]
  | cons x xs ih => simp [toBytes, ih]

theorem toBytes_ne_nil (x : TupleValue) (ts : List TupleValue) :
    toBytes (x :: ts) ≠ [] := by
  obtain ⟨b, bs, hshape, _⟩ := encElem_head_all x
  simp [toBytes, hshape]

theorem parseTupleLoop_ne_nil (fuel : Nat) (b : Nat) (rest : List Nat)
    (l : List TupleValue) (h : parseTupleLoop fuel (b :: rest) = some l) :
    l ≠ [] := by
  rcases fuel with _ | f
  · simp [parseTupleLoop] at h
  simp only [parseTupleLoop] at h
  split_ifs at h
  · obtain ⟨a, ha, hpr⟩ := Option.map_eq_some'.mp h
    rw [← hpr]
    simp
  · obtain ⟨a, ha, hf⟩ := Option.bind_eq_some.mp h
    obtain ⟨a2, ha2, hpr⟩ := Option.map_eq_some'.mp hf
    rw [← hpr]
    simp
  · obtain ⟨a, ha, hf⟩ := Option.bind_eq_some.mp h
    obtain ⟨a2, ha2, hpr⟩ := Option.map_eq_some'.mp hf
    rw [← hpr]
    simp

theorem parseTupleLoop_append (ts : List TupleValue) :
    ∀ (X : List Nat) (fuel : Nat), listWf ts = true → headLt255 X = true →
    (toBytes ts ++ X).length < fuel →
    parseTupleLoop fuel (toBytes ts ++ X)
      = (parseTupleLoop fuel X).map fun l => normalizeList ts ++ l := by
  induction ts with
  | nil =>
      intro X fuel _ hX hfl
      simp only [toBytes, List.nil_append, normalizeList]
      cases parseTupleLoop fuel X <;> simp
  | cons x ts' ih =>
      intro X fuel hwf hX hfl
      cases x
      case nullValue =>
        simp only [listWf, Bool.and_eq_true] at hwf
        obtain ⟨hwx, hwts⟩ := hwf
        simp only [toBytes, encElem, List.cons_append, List.nil_append,
          List.append_assoc] at hfl ⊢
        rcases fuel with _ | f
        · omega
        conv_lhs => simp only [parseTupleLoop, if_true]
        rw [ih X f hwts hX (by
          simp only [List.length_cons, List.length_append] at hfl ⊢
          omega)]
        rw [parseTupleLoop_irrel X f (f + 1) (by
            simp only [List.length_cons, List.length_append] at hfl
            omega) (by
            simp only [List.length_cons, List.length_append] at hfl
            omega)]
        cases parseTupleLoop (f + 1) X <;>
          simp [normalizeList, normalizeElem]
      case nestedTuple ts2 =>
        simp only [listWf, Bool.and_eq_true] at hwf
        obtain ⟨hwx, hwts⟩ := hwf
        simp only [tvWf] at hwx
        simp only [toBytes, encElem, encElemN, List.cons_append, List.append_assoc,
          List.singleton_append, List.nil_append] at hfl ⊢
        rcases fuel with _ | f
        · omega
        conv_lhs => simp only [parseTupleLoop, if_true]
        rw [if_neg (by norm_num : ¬ (5 : Nat) = 0)]
        rw [parseNestedLoop_encNList ts2 (toBytes ts' ++ X) f hwx
          (headLt255_toBytes_append ts' X hX) (by
            simp only [List.length_cons, List.length_append] at hfl ⊢
            omega)]
        simp only [Option.bind]
        rw [ih X f hwts hX (by
          simp only [List.length_cons, List.length_append] at hfl ⊢
          omega)]
        rw [parseTupleLoop_irrel X f (f + 1) (by
            simp only [List.length_cons, List.length_append] at hfl
            omega) (by
            simp only [List.length_cons, List.length_append] at hfl
            omega)]
        cases parseTupleLoop (f + 1) X <;>
          simp [normalizeList, normalizeElem]
      all_goals
        simp only [listWf, Bool.and_eq_true] at hwf
        obtain ⟨hwx, hwts⟩ := hwf
        simp only [toBytes, encElem, List.append_assoc] at hfl ⊢
        rw [parseTupleLoop_flatStep _ _ fuel (by omega) hwx
          (by intro h; exact TupleValue.noConfusion h)
          (by intro t h; exact TupleValue.noConfusion h)
          (headLt255_toBytes_append ts' X hX)]
        rw [ih X (fuel - 1) hwts hX (by
          simp only [encElemN, List.append_assoc, List.length_append,
            List.length_cons, List.length_singleton, List.length_map] at hfl ⊢
          omega)]
        rw [parseTupleLoop_irrel X (fuel - 1) fuel (by
            simp only [encElemN, List.append_assoc, List.length_append,
              List.length_cons, List.length_singleton, List.length_map] at hfl
            omega) (by
            simp only [List.length_append] at hfl
            omega)]
        cases parseTupleLoop fuel X <;>
          simp [normalizeList, normalizeElem]

theorem lexLt_cons_nil_zero (Y : List Nat) (hY : Y ≠ []) :
    lexLt Y [0] = false := by
  rcases Y with _ | ⟨y, Y2⟩
  · simp at hY
  · simp [lexLt_cons_cons]

theorem lexLt_cons_255 (y : Nat) (Y2 : List Nat) :
    lexLt (y :: Y2) [255] = decide (y < 255) := by
  simp [lexLt_cons_cons]

theorem lex_between_prefix : ∀ (A K : List Nat),
    lexLe (A ++ [0]) K = true → lexLt K (A ++ [255]) = true →
    ∃ X, X ≠ [] ∧ K = A ++ X ∧ headLt255 X = true := by
  intro A
  induction A with
  | nil =>
      intro K h1 h2
      rcases K with _ | ⟨k, K2⟩
      · simp [lexLe] at h1
      · refine ⟨k :: K2, by simp, by simp, ?_⟩
        simp only [List.nil_append, lexLt_cons_255, decide_eq_true_eq] at h2
        simp only [headLt255, decide_eq_true_eq]
        exact h2
  | cons a A2 ih =>
      intro K h1 h2
      rcases K with _ | ⟨k, K2⟩
      · simp [lexLe] at h1
      · simp only [List.cons_append, lexLe, lexLt_cons_cons, Bool.not_eq_true',
          Bool.or_eq_false_iff, Bool.and_eq_false_iff, decide_eq_false_iff_not] at h1
        simp only [List.cons_append, lexLt_cons_cons, Bool.or_eq_true,
          Bool.and_eq_true, decide_eq_true_eq, beq_iff_eq] at h2
        have hka : k = a := by
          rcases h2 with h2a | ⟨h2a, _⟩
          · omega
          · exact h2a
        subst hka
        have h1t : lexLt K2 (A2 ++ [0]) = false := by
          rcases h1 with ⟨_, h1b | h1b⟩
          · simp at h1b
          · exact h1b
        have h2t : lexLt K2 (A2 ++ [255]) = true := by
          rcases h2 with h2a | ⟨_, h2b⟩
          · omega
          · exact h2b
        obtain ⟨X, hne, hK2, hh⟩ := ih K2 (by simp [lexLe, h1t]) h2t
        exact ⟨X, hne, by rw [hK2, List.cons_append], hh⟩

/-- `Tuple::range`: panics (modelled `none`) when the tuple holds an
incomplete versionstamp; otherwise the half-open range from
`prefix ++ pack ++ 0x00` to `prefix ++ pack ++ 0xFF`. -/
def range (t : List TupleValue) (prefixBytes : List Nat) :
    Option (List Nat × List Nat) :=
  if hasIncompleteVersionstamp t then none
  else some (prefixBytes ++ toBytes t ++ [0], prefixBytes ++ toBytes t ++ [255])

/-- **C5.** `Tuple::range` panics (modelled `none`) exactly when the tuple
holds an incomplete versionstamp; otherwise it is the half-open byte range
from `prefix ++ pack ++ 0x00` to `prefix ++ pack ++ 0xFF`, and a packed key
lies in that range (inclusive begin, exclusive end, under unsigned
lexicographic order) exactly when it encodes a tuple extending `t` by at
least one element (element lists compared after the parser's re-inference
of versionstamp resolved-ness flags, which the key bytes cannot record). -/
theorem c5_range (t : List TupleValue) (p : List Nat) (hwf : listWf t = true) :
    (hasIncompleteVersionstamp t = true → range t p = none)
    ∧ (hasIncompleteVersionstamp t = false →
        range t p = some (p ++ toBytes t ++ [0], p ++ toBytes t ++ [255]))
    ∧ (∀ t' : List TupleValue, listWf t' = true →
        ((lexLe (p ++ toBytes t ++ [0]) (p ++ toBytes t')
            && lexLt (p ++ toBytes t') (p ++ toBytes t ++ [255])) = true
          ↔ ∃ rest, rest ≠ [] ∧ normalizeList t' = normalizeList t ++ rest)) := by
  refine ⟨?_, ?_, ?_⟩
  · intro h
    simp [range, h]
  · intro h
    simp [range, h]
  · intro t' hwf'
    constructor
    · intro hin
      simp only [Bool.and_eq_true] at hin
      obtain ⟨h1, h2⟩ := hin
      rw [List.append_assoc] at h1 h2
      simp only [lexLe, lexLt_append_left, Bool.not_eq_true'] at h1
      rw [lexLt_append_left] at h2
      have h1' : lexLe (toBytes t ++ [0]) (toBytes t') = true := by
        simp [lexLe, h1]
      obtain ⟨X, hXne, hK, hXh⟩ := lex_between_prefix (toBytes t) (toBytes t') h1' h2
      have henc := parseTupleLoop_enc t' ((toBytes t').length + 1) hwf' (by omega)
      have happ := parseTupleLoop_append t X ((toBytes t ++ X).length + 1) hwf hXh
        (by omega)
      rw [hK] at henc
      rw [happ] at henc
      obtain ⟨l, hl, hl2⟩ := Option.map_eq_some'.mp henc
      refine ⟨l, ?_, hl2.symm⟩
      rcases X with _ | ⟨x0, X2⟩
      · exact absurd rfl hXne
      · exact parseTupleLoop_ne_nil _ _ _ _ hl
    · rintro ⟨rest, hne, hext⟩
      have hbytes : toBytes t' = toBytes t ++ toBytes rest := by
        calc toBytes t' = toBytes (normalizeList t') := (toBytes_normalizeList t').symm
          _ = toBytes (normalizeList t ++ rest) := by rw [hext]
          _ = toBytes (normalizeList t) ++ toBytes rest := toBytes_append _ _
          _ = toBytes t ++ toBytes rest := by rw [toBytes_normalizeList]
      obtain ⟨x, rest2, rfl⟩ : ∃ x r2, rest = x :: r2 := by
        cases rest with
        | nil => exact absurd rfl hne
        | cons a b => exact ⟨a, b, rfl⟩
      simp only [Bool.and_eq_true]
      constructor
      · rw [hbytes, List.append_assoc]
        simp only [lexLe, lexLt_append_left]
        rw [lexLt_cons_nil_zero (toBytes (x :: rest2)) (toBytes_ne_nil x rest2)]
        rfl
      · rw [hbytes, List.append_assoc]
        rw [lexLt_append_left, lexLt_append_left]
        obtain ⟨b, bs, hsh, hb⟩ := encElem_head_all x
        rw [show toBytes (x :: rest2) = b :: (bs ++ toBytes rest2) from by
          simp [toBytes, hsh]]
        rw [lexLt_cons_255]
        simpa using hb

/-- Witness for C5 at a concrete tuple and prefix. -/
theorem c5_range_witness :
    listWf [TupleValue.posInt1 3] = true
    ∧ range [TupleValue.posInt1 3] [7] = some ([7, 21, 3, 0], [7, 21, 3, 255]) := by
  refine ⟨by decide, ?_⟩
  have h := (c5_range [TupleValue.posInt1 3] [7] (by decide)).2.1 (by decide)
  simpa using h

/-- Kind tag for the spec-side semantic comparison: the spec's "comparable
element sequences" compare elements only within one kind (all integer
buckets form one kind). -/
def tvKind : TupleValue → Nat
  | .nullValue => 0
  | .byteString _ => 1
  | .unicodeString _ => 2
  | .nestedTuple _ => 3
  | .ieeeBinaryFloatingPointFloat _ => 5
  | .ieeeBinaryFloatingPointDouble _ => 6
  | .falseValue => 7
  | .trueValue => 7
  | .rfc4122Uuid _ => 8
  | .versionstamp96Bit _ => 9
  | _ => 4

def bytesOf : TupleValue → List Nat
  | .byteString b => b
  | _ => []

def stringOf : TupleValue → List Nat
  | .unicodeString s => s
  | _ => []

def floatBitsOf : TupleValue → Nat
  | .ieeeBinaryFloatingPointFloat bits => bits
  | _ => 0

def doubleBitsOf : TupleValue → Nat
  | .ieeeBinaryFloatingPointDouble bits => bits
  | _ => 0

def boolOf : TupleValue → Bool
  | .trueValue => true
  | _ => false

def uuidOf : TupleValue → List Nat
  | .rfc4122Uuid u => u
  | _ => []

def vsOf : TupleValue → Versionstamp
  | .versionstamp96Bit v => v
  | _ => Versionstamp.incomplete 0

/-- Spec-side: unsigned lexicographic comparison as an `Ordering`. -/
def lexOrd (a b : List Nat) : Ordering :=
  if lexLt a b then .lt else if lexLt b a then .gt else .eq

/-- Spec-side: integer elements compare by their stored signed value. -/
def intOrdOf (x y : TupleValue) : Ordering :=
  if (intValue x).getD 0 < (intValue y).getD 0 then .lt
  else if (intValue y).getD 0 < (intValue x).getD 0 then .gt
  else .eq

/-- IEEE-754 binary32 NaN: exponent all ones, non-zero mantissa. -/
def isNaN32 (bits : Nat) : Bool :=
  decide (bits / 8388608 % 256 = 255) && decide (bits % 8388608 ≠ 0)

/-- IEEE-754 binary64 NaN: exponent all ones, non-zero mantissa. -/
def isNaN64 (bits : Nat) : Bool :=
  decide (bits / 4503599627370496 % 2048 = 2047) && decide (bits % 4503599627370496 ≠ 0)

/-- Spec-side IEEE order on non-NaN bit patterns (`half` is the sign bit,
`2^(8w-1)`): any negative sorts below any non-negative; two non-negatives
sort by bit pattern (IEEE order-preservation for a fixed sign); two
negatives sort reversed (greater magnitude is more negative). -/
def floatOrd (half a b : Nat) : Ordering :=
  if a < half then
    if b < half then
      if a < b then .lt else if b < a then .gt else .eq
    else .gt
  else
    if b < half then .lt
    else if b < a then .lt else if a < b then .gt else .eq

/-- Spec-side: `false < true`. -/
def boolOrd (a b : Bool) : Ordering :=
  if a = b then .eq else if a = false then .lt else .gt

mutual

/-- Spec-side semantic comparison of two elements, `none` when the elements
are not comparable (different kinds, or a NaN float).  Byte and unicode
strings, UUIDs and versionstamps compare lexicographically by their bytes;
integers by value; floats by the IEEE order excluding NaN; nested tuples
element-wise. -/
def specCmpElem : TupleValue → TupleValue → Option Ordering
  | .nestedTuple a, .nestedTuple b => specCmpSeq a b
  | x, y =>
      if tvKind x = tvKind y then
        if tvKind x = 0 then some .eq
        else if tvKind x = 1 then some (lexOrd (bytesOf x) (bytesOf y))
        else if tvKind x = 2 then some (lexOrd (stringOf x) (stringOf y))
        else if tvKind x = 4 then some (intOrdOf x y)
        else if tvKind x = 5 then
          if isNaN32 (floatBitsOf x) || isNaN32 (floatBitsOf y) then none
          else some (floatOrd 2147483648 (floatBitsOf x) (floatBitsOf y))
        else if tvKind x = 6 then
          if isNaN64 (doubleBitsOf x) || isNaN64 (doubleBitsOf y) then none
          else some (floatOrd 9223372036854775808 (doubleBitsOf x) (doubleBitsOf y))
        else if tvKind x = 7 then some (boolOrd (boolOf x) (boolOf y))
        else if tvKind x = 8 then some (lexOrd (uuidOf x) (uuidOf y))
        else if tvKind x = 9 then
          some (lexOrd (vsOf x).getBytes (vsOf y).getBytes)
        else none
      else none

/-- Spec-side element-wise comparison of element sequences: first
difference decides; a strict prefix sorts first. -/
def specCmpSeq : List TupleValue → List TupleValue → Option Ordering
  | [], [] => some .eq
  | [], _ :: _ => some .lt
  | _ :: _, [] => some .gt
  | x :: xs, y :: ys =>
      match specCmpElem x y with
      | some .eq => specCmpSeq xs ys
      | some .lt => some .lt
      | some .gt => some .gt
      | none => none

end

theorem tvKind0_shape (y : TupleValue) (h : tvKind y = 0) : y = .nullValue := by
  cases y <;> first | rfl | simp [tvKind] at h

theorem tvKind1_shape (y : TupleValue) (h : tvKind y = 1) :
    ∃ b, y = .byteString b := by
  cases y <;> first | exact ⟨_, rfl⟩ | simp [tvKind] at h

theorem tvKind2_shape (y : TupleValue) (h : tvKind y = 2) :
    ∃ s, y = .unicodeString s := by
  cases y <;> first | exact ⟨_, rfl⟩ | simp [tvKind] at h

theorem tvKind3_shape (y : TupleValue) (h : tvKind y = 3) :
    ∃ t, y = .nestedTuple t := by
  cases y <;> first | exact ⟨_, rfl⟩ | simp [tvKind] at h

theorem tvKind4_shape (y : TupleValue) (h : tvKind y = 4) :
    ∃ v, intValue y = some v := by
  cases y <;> first | exact ⟨_, rfl⟩ | simp [tvKind] at h

theorem tvKind5_shape (y : TupleValue) (h : tvKind y = 5) :
    ∃ bits, y = .ieeeBinaryFloatingPointFloat bits := by
  cases y <;> first | exact ⟨_, rfl⟩ | simp [tvKind] at h

theorem tvKind6_shape (y : TupleValue) (h : tvKind y = 6) :
    ∃ bits, y = .ieeeBinaryFloatingPointDouble bits := by
  cases y <;> first | exact ⟨_, rfl⟩ | simp [tvKind] at h

theorem tvKind7_shape (y : TupleValue) (h : tvKind y = 7) :
    y = .falseValue ∨ y = .trueValue := by
  cases y <;> first | exact Or.inl rfl | exact Or.inr rfl | simp [tvKind] at h

theorem tvKind8_shape (y : TupleValue) (h : tvKind y = 8) :
    ∃ u, y = .rfc4122Uuid u := by
  cases y <;> first | exact ⟨_, rfl⟩ | simp [tvKind] at h

theorem tvKind9_shape (y : TupleValue) (h : tvKind y = 9) :
    ∃ v, y = .versionstamp96Bit v := by
  cases y <;> first | exact ⟨_, rfl⟩ | simp [tvKind] at h

theorem tvKind_of_intValue (y : TupleValue) (v : Int) (h : intValue y = some v) :
    tvKind y = 4 := by
  cases y <;> first | rfl | exact Option.noConfusion h

theorem lexOrd_eq (a b : List Nat) (h : lexOrd a b = .eq) : a = b := by
  simp only [lexOrd] at h
  split_ifs at h
  rcases lexLt_trichotomy a b with hc | hc | hc
  · simp_all
  · exact hc
  · simp_all

theorem lexOrd_lt (a b : List Nat) (h : lexOrd a b = .lt) : lexLt a b = true := by
  simp only [lexOrd] at h
  split_ifs at h with h1 h2
  exact h1

theorem lexOrd_gt (a b : List Nat) (h : lexOrd a b = .gt) : lexLt b a = true := by
  simp only [lexOrd] at h
  split_ifs at h with h1 h2
  exact h2

theorem lexLt_escape : ∀ (a b r s : List Nat), headLt255 r = true →
    headLt255 s = true → lexLt a b = true →
    lexLt (escapeNul a ++ 0 :: r) (escapeNul b ++ 0 :: s) = true := by
  intro a
  induction a with
  | nil =>
      intro b r s hr hs h
      rcases b with _ | ⟨y, b2⟩
      · simp at h
      · rcases y with _ | y2
        · simp only [escapeNul, List.nil_append, List.cons_append]
          rw [lexLt_cons_cons]
          have ht : lexLt r (255 :: (escapeNul b2 ++ 0 :: s)) = true := by
            rcases r with _ | ⟨r0, r2⟩
            · simp
            · simp only [headLt255, decide_eq_true_eq] at hr
              rw [lexLt_cons_cons]
              simp [hr]
          simp [ht]
        · simp only [escapeNul, List.nil_append, List.cons_append]
          rw [lexLt_cons_cons]
          simp
  | cons x a2 ih =>
      intro b r s hr hs h
      rcases b with _ | ⟨y, b2⟩
      · simp at h
      · rw [lexLt_cons_cons] at h
        simp only [Bool.or_eq_true, Bool.and_eq_true, decide_eq_true_eq,
          beq_iff_eq] at h
        rcases h with h | ⟨rfl, h⟩
        · rcases x with _ | x2
          · rcases y with _ | y2
            · omega
            · simp only [escapeNul, List.cons_append]
              rw [lexLt_cons_cons]
              simp
          · rcases y with _ | y2
            · omega
            · simp only [escapeNul, List.cons_append]
              rw [lexLt_cons_cons]
              simp only [Bool.or_eq_true, decide_eq_true_eq]
              left
              omega
        · rcases x with _ | x2
          · simp only [escapeNul, List.cons_append]
            simp [lexLt_cons_cons, ih b2 r s hr hs h]
          · simp only [escapeNul, List.cons_append]
            simp [lexLt_cons_cons, ih b2 r s hr hs h]

theorem posFix_lt (k ua ub : Nat) (r s : List Nat) (ha : ua < 256 ^ k)
    (hb : ub < 256 ^ k) (h : ua < ub) :
    lexLt (beBytesFixed k ua ++ r) (beBytesFixed k ub ++ s) = true := by
  have hne : beBytesFixed k ua ≠ beBytesFixed k ub := by
    intro he
    have h2 := congrArg fromBeBytes he
    rw [fromBeBytes_beBytesFixed, fromBeBytes_beBytesFixed,
      Nat.mod_eq_of_lt ha, Nat.mod_eq_of_lt hb] at h2
    omega
  rw [lexLt_eqlen_append _ _ r s (by simp [beBytesFixed_length]) hne,
    lexLt_beBytesFixed, Nat.mod_eq_of_lt ha, Nat.mod_eq_of_lt hb]
  simp [h]

theorem negFix_lt (k ua ub : Nat) (r s : List Nat) (ha : ua < 256 ^ k)
    (hb : ub < 256 ^ k) (h : ub < ua) :
    lexLt ((beBytesFixed k ua).map byteNot ++ r)
      ((beBytesFixed k ub).map byteNot ++ s) = true := by
  have hne : (beBytesFixed k ua).map byteNot ≠ (beBytesFixed k ub).map byteNot := by
    intro he
    have h2 := congrArg (List.map byteNot) he
    rw [map_byteNot_map_byteNot _ (beBytesFixed_byteOk _ _),
      map_byteNot_map_byteNot _ (beBytesFixed_byteOk _ _)] at h2
    have h3 := congrArg fromBeBytes h2
    rw [fromBeBytes_beBytesFixed, fromBeBytes_beBytesFixed,
      Nat.mod_eq_of_lt ha, Nat.mod_eq_of_lt hb] at h3
    omega
  rw [lexLt_eqlen_append _ _ r s (by simp [beBytesFixed_length]) hne,
    lexLt_map_byteNot _ _ (beBytesFixed_byteOk _ _) (beBytesFixed_byteOk _ _)
      (by simp [beBytesFixed_length]),
    lexLt_beBytesFixed, Nat.mod_eq_of_lt hb, Nat.mod_eq_of_lt ha]
  simp [h]

theorem beBytesNat_inj (ma mb : Nat) (h : beBytesNat ma = beBytesNat mb) :
    ma = mb := by
  have h2 := congrArg fromBeBytes h
  rwa [fromBeBytes_beBytesNat, fromBeBytes_beBytesNat] at h2

theorem posArb_lt (ma mb : Nat) (r s : List Nat) (h : ma < mb) :
    lexLt ((beBytesNat ma).length :: (beBytesNat ma ++ r))
      ((beBytesNat mb).length :: (beBytesNat mb ++ s)) = true := by
  have hmono := beBytesNat_length_mono (le_of_lt h)
  rw [lexLt_cons_cons]
  by_cases hl : (beBytesNat ma).length = (beBytesNat mb).length
  · have hne : beBytesNat ma ≠ beBytesNat mb := by
      intro he
      have := beBytesNat_inj _ _ he
      omega
    rw [lexLt_eqlen_append _ _ r s hl hne, lexLt_beBytesNat_eqlen hl]
    simp [h, hl]
  · have hlt : (beBytesNat ma).length < (beBytesNat mb).length := by omega
    simp [hlt]

theorem negArb_lt (ma mb : Nat) (r s : List Nat) (hla : (beBytesNat ma).length ≤ 255)
    (hlb : (beBytesNat mb).length ≤ 255) (h : mb < ma) :
    lexLt (byteNot (beBytesNat ma).length :: ((beBytesNat ma).map byteNot ++ r))
      (byteNot (beBytesNat mb).length :: ((beBytesNat mb).map byteNot ++ s))
      = true := by
  have hmono := beBytesNat_length_mono (le_of_lt h)
  rw [lexLt_cons_cons]
  by_cases hl : (beBytesNat ma).length = (beBytesNat mb).length
  · have hne : (beBytesNat ma).map byteNot ≠ (beBytesNat mb).map byteNot := by
      intro he
      have h2 := congrArg (List.map byteNot) he
      rw [map_byteNot_map_byteNot _ (beBytesNat_byteOk _),
        map_byteNot_map_byteNot _ (beBytesNat_byteOk _)] at h2
      have := beBytesNat_inj _ _ h2
      omega
    rw [lexLt_eqlen_append _ _ r s (by simp [hl]) hne,
      lexLt_map_byteNot _ _ (beBytesNat_byteOk _) (beBytesNat_byteOk _)
        (by simp [hl]),
      lexLt_beBytesNat_eqlen hl.symm]
    simp [h, hl]
  · have hlt : (beBytesNat mb).length < (beBytesNat ma).length := by omega
    have hbn : byteNot (beBytesNat ma).length < byteNot (beBytesNat mb).length := by
      simp only [byteNot]
      omega
    simp [hbn]

theorem pow256_eq (k : Nat) : (256 : Nat) ^ k = 2 ^ (8 * k) := by
  rw [show (256 : Nat) = 2 ^ 8 from rfl, ← pow_mul]

theorem floatOrd_eq (half a b : Nat) (h : floatOrd half a b = .eq) : a = b := by
  simp only [floatOrd] at h
  split_ifs at h <;> omega

theorem floatOrd_gt (half a b : Nat) (h : floatOrd half a b = .gt) :
    floatOrd half b a = .lt := by
  simp only [floatOrd] at h ⊢
  split_ifs at h <;> split_ifs <;> first | rfl | omega | (exfalso; omega)

theorem floatPayload_lt (w half a b : Nat) (hw : 0 < w)
    (hhalf : half = 2 ^ (8 * w - 1)) (ha : a < 2 ^ (8 * w)) (hb : b < 2 ^ (8 * w))
    (r s : List Nat) (h : floatOrd half a b = .lt) :
    lexLt (floatPayload w a ++ r) (floatPayload w b ++ s) = true := by
  obtain ⟨w2, rfl⟩ : ∃ w2, w = w2 + 1 := ⟨w - 1, by omega⟩
  subst hhalf
  have hpow : (256 : Nat) ^ (w2 + 1) = 2 ^ (8 * (w2 + 1)) := pow256_eq (w2 + 1)
  have hhalfval : (2 : Nat) ^ (8 * (w2 + 1) - 1) = 128 * 256 ^ w2 := by
    rw [show 8 * (w2 + 1) - 1 = 7 + 8 * w2 from by omega, pow_add]
    norm_num [pow256_eq]
  have hfull : (2 : Nat) ^ (8 * (w2 + 1)) = 256 * 256 ^ w2 := by
    rw [← hpow, pow_succ, Nat.mul_comm]
  have hppos : 0 < (256 : Nat) ^ w2 := Nat.pos_pow_of_pos _ (by omega)
  by_cases h1 : a < 2 ^ (8 * (w2 + 1) - 1)
  · by_cases h2 : b < 2 ^ (8 * (w2 + 1) - 1)
    · simp only [floatOrd, if_pos h1, if_pos h2] at h
      have h3 : a < b := by
        by_contra hc
        rw [if_neg hc] at h
        split_ifs at h <;> exact Ordering.noConfusion h
      have hca : floatPayload (w2 + 1) a
          = (a / 256 ^ w2 % 256 + 128) :: beBytesFixed w2 a := by
        simp only [floatPayload, if_neg (by omega : ¬ 2 ^ (8 * (w2 + 1) - 1) ≤ a),
          beBytesFixed_cons]
      have hcb : floatPayload (w2 + 1) b
          = (b / 256 ^ w2 % 256 + 128) :: beBytesFixed w2 b := by
        simp only [floatPayload, if_neg (by omega : ¬ 2 ^ (8 * (w2 + 1) - 1) ≤ b),
          beBytesFixed_cons]
      rw [hca, hcb, List.cons_append, List.cons_append, lexLt_cons_cons]
      have hlex : lexLt (beBytesFixed (w2 + 1) a) (beBytesFixed (w2 + 1) b)
          = true := by
        rw [lexLt_beBytesFixed, Nat.mod_eq_of_lt (by omega),
          Nat.mod_eq_of_lt (by omega)]
        simp [h3]
      rw [beBytesFixed_cons, beBytesFixed_cons, lexLt_cons_cons] at hlex
      simp only [Bool.or_eq_true, Bool.and_eq_true, decide_eq_true_eq,
        beq_iff_eq] at hlex
      rcases hlex with h0 | ⟨h0, ht⟩
      · simp only [Bool.or_eq_true, decide_eq_true_eq]
        left
        omega
      · have hne : beBytesFixed w2 a ≠ beBytesFixed w2 b := by
          intro he
          rw [he, lexLt_irrefl] at ht
          exact Bool.noConfusion ht
        rw [lexLt_eqlen_append _ _ r s (by simp [beBytesFixed_length]) hne]
        simp [h0, ht]
    · simp only [floatOrd, if_pos h1, if_neg h2] at h
      exact Ordering.noConfusion h
  · by_cases h2 : b < 2 ^ (8 * (w2 + 1) - 1)
    · have hda : 128 ≤ a / 256 ^ w2 ∧ a / 256 ^ w2 < 256 := by
        constructor
        · exact (Nat.le_div_iff_mul_le hppos).mpr (by omega)
        · exact (Nat.div_lt_iff_lt_mul hppos).mpr (by omega)
      have hdb : b / 256 ^ w2 < 128 :=
        (Nat.div_lt_iff_lt_mul hppos).mpr (by omega)
      have hca : floatPayload (w2 + 1) a
          = byteNot (a / 256 ^ w2 % 256) :: (beBytesFixed w2 a).map byteNot := by
        simp only [floatPayload, if_pos (by omega : 2 ^ (8 * (w2 + 1) - 1) ≤ a),
          beBytesFixed_cons, List.map_cons]
      have hcb : floatPayload (w2 + 1) b
          = (b / 256 ^ w2 % 256 + 128) :: beBytesFixed w2 b := by
        simp only [floatPayload, if_neg (by omega : ¬ 2 ^ (8 * (w2 + 1) - 1) ≤ b),
          beBytesFixed_cons]
      obtain ⟨hda1, hda2⟩ := hda
      rw [hca, hcb, List.cons_append, List.cons_append, lexLt_cons_cons]
      simp only [Bool.or_eq_true, decide_eq_true_eq]
      left
      rw [Nat.mod_eq_of_lt hda2, Nat.mod_eq_of_lt (by omega)]
      simp only [byteNot]
      have hsub : 255 - a / 256 ^ w2 ≤ 127 := by
        have := hda1
        omega
      exact Nat.lt_of_le_of_lt hsub
        (Nat.lt_of_lt_of_le (by norm_num) (Nat.le_add_left 128 _))
    · simp only [floatOrd, if_neg h1, if_neg h2] at h
      have h3 : b < a := by
        by_contra hc
        rw [if_neg hc] at h
        split_ifs at h <;> exact Ordering.noConfusion h
      have hca : floatPayload (w2 + 1) a = (beBytesFixed (w2 + 1) a).map byteNot := by
        simp only [floatPayload, if_pos (by omega : 2 ^ (8 * (w2 + 1) - 1) ≤ a)]
      have hcb : floatPayload (w2 + 1) b = (beBytesFixed (w2 + 1) b).map byteNot := by
        simp only [floatPayload, if_pos (by omega : 2 ^ (8 * (w2 + 1) - 1) ≤ b)]
      rw [hca, hcb]
      exact negFix_lt (w2 + 1) a b r s (by omega) (by omega) (by omega)

set_option maxHeartbeats 3200000 in
theorem intElem_eq (x y : TupleValue) (v : Int)
    (hwx : tvWf x = true) (hwy : tvWf y = true)
    (hvx : intValue x = some v) (hvy : intValue y = some v) :
    encElemN x = encElemN y := by
  cases x <;> cases y <;>
    first
    | exact Option.noConfusion hvx
    | exact Option.noConfusion hvy
    | (simp only [intValue, Option.some.injEq] at hvx hvy
       simp only [tvWf, decide_eq_true_eq, Bool.and_eq_true] at hwx hwy
       first
       | rfl
       | (congr 1
          congr 1
          omega)
       | (exfalso
          omega))

set_option maxHeartbeats 3200000 in
theorem intElem_lt (x y : TupleValue) (vx vy : Int)
    (hwx : tvWf x = true) (hwy : tvWf y = true)
    (hvx : intValue x = some vx) (hvy : intValue y = some vy)
    (hlt : vx < vy) (r s : List Nat) :
    lexLt (encElemN x ++ r) (encElemN y ++ s) = true := by
  cases x <;> cases y <;>
    first
    | exact Option.noConfusion hvx
    | exact Option.noConfusion hvy
    | (simp only [intValue, Option.some.injEq] at hvx hvy
       subst hvx
       subst hvy
       simp only [tvWf, decide_eq_true_eq, Bool.and_eq_true] at hwx hwy
       simp only [encElemN, List.cons_append]
       first
       | (rw [lexLt_cons_cons]
          simp only [Bool.or_eq_true]
          exact Or.inl (by decide))
       | (exfalso
          omega)
       | (rw [lexLt_cons_cons]
          rw [negFix_lt _ _ _ _ _ (by norm_num; omega) (by norm_num; omega) (by omega)]
          simp)
       | (rw [lexLt_cons_cons]
          rw [posFix_lt _ _ _ _ _ (by norm_num; omega) (by norm_num; omega) (by omega)]
          simp)
       | (rw [lexLt_cons_cons]
          rw [negArb_lt _ _ _ _ (by omega) (by omega) (by omega)]
          simp)
       | (rw [lexLt_cons_cons]
          rw [posArb_lt _ _ _ _ (by omega)]
          simp))

theorem tv_sizeOf_pos (x : TupleValue) : 0 < sizeOf x := by
  cases x <;> simp_arith

theorem list_sizeOf_pos (xs : List TupleValue) : 0 < sizeOf xs := by
  cases xs <;> simp_arith

theorem nestedNil_lt (y : TupleValue) (ys : List TupleValue) (r s : List Nat)
    (hr : headLt255 r = true) :
    lexLt (0 :: r) (encNList (y :: ys) ++ 0 :: s) = true := by
  cases y
  case nullValue =>
    simp only [encNList, encElemN, List.cons_append, List.append_assoc,
      List.nil_append]
    rw [lexLt_cons_cons]
    have ht : lexLt r (255 :: (encNList ys ++ 0 :: s)) = true := by
      rcases r with _ | ⟨r0, r2⟩
      · simp
      · simp only [headLt255, decide_eq_true_eq] at hr
        rw [lexLt_cons_cons]
        simp [hr]
    simp [ht]
  all_goals
    simp only [encNList, encElemN, List.cons_append, List.append_assoc,
      List.nil_append, List.singleton_append]
    rw [lexLt_cons_cons]
    simp

theorem intOrd_lt (x y : TupleValue) (h : intOrdOf x y = .lt) :
    (intValue x).getD 0 < (intValue y).getD 0 := by
  simp only [intOrdOf] at h
  split_ifs at h with h1 h2
  exact h1

theorem intOrd_gt (x y : TupleValue) (h : intOrdOf x y = .gt) :
    (intValue y).getD 0 < (intValue x).getD 0 := by
  simp only [intOrdOf] at h
  split_ifs at h with h1 h2
  exact h2

theorem intOrd_eq (x y : TupleValue) (h : intOrdOf x y = .eq) :
    (intValue x).getD 0 = (intValue y).getD 0 := by
  simp only [intOrdOf] at h
  split_ifs at h with h1 h2
  omega

theorem intElem_eq2 (x y : TupleValue) (hwx : tvWf x = true) (hwy : tvWf y = true)
    (hkx : tvKind x = 4) (hky : tvKind y = 4)
    (he : (intValue x).getD 0 = (intValue y).getD 0) :
    encElemN x = encElemN y := by
  obtain ⟨vx, hvx⟩ := tvKind4_shape x hkx
  obtain ⟨vy, hvy⟩ := tvKind4_shape y hky
  rw [hvx, hvy] at he
  simp only [Option.getD_some] at he
  exact intElem_eq x y vx hwx hwy hvx (by rw [hvy, he])

theorem intElem_lt2 (x y : TupleValue) (hwx : tvWf x = true) (hwy : tvWf y = true)
    (hkx : tvKind x = 4) (hky : tvKind y = 4)
    (hlt : (intValue x).getD 0 < (intValue y).getD 0) (r s : List Nat) :
    lexLt (encElemN x ++ r) (encElemN y ++ s) = true := by
  obtain ⟨vx, hvx⟩ := tvKind4_shape x hkx
  obtain ⟨vy, hvy⟩ := tvKind4_shape y hky
  rw [hvx, hvy] at hlt
  simp only [Option.getD_some] at hlt
  exact intElem_lt x y vx vy hwx hwy hvx hvy hlt r s

theorem specCmpElem_eq0 (y : TupleValue) :
    specCmpElem .nullValue y = if tvKind y = 0 then some .eq else none := by
  cases y <;> rfl

theorem specCmpElem_eq1 (b : List Nat) (y : TupleValue) :
    specCmpElem (.byteString b) y =
      if tvKind y = 1 then some (lexOrd b (bytesOf y)) else none := by
  cases y <;> rfl

theorem specCmpElem_eq2 (t : List Nat) (y : TupleValue) :
    specCmpElem (.unicodeString t) y =
      if tvKind y = 2 then some (lexOrd t (stringOf y)) else none := by
  cases y <;> rfl

theorem specCmpElem_eq3none (a : List TupleValue) (y : TupleValue)
    (hy : tvKind y ≠ 3) : specCmpElem (.nestedTuple a) y = none := by
  cases y <;> first | exact absurd rfl hy | rfl

theorem specCmpElem_eq3 (a b : List TupleValue) :
    specCmpElem (.nestedTuple a) (.nestedTuple b) = specCmpSeq a b := rfl

theorem specCmpElem_eq4 (x y : TupleValue) (hx : tvKind x = 4) :
    specCmpElem x y = if tvKind y = 4 then some (intOrdOf x y) else none := by
  cases x <;> first
    | (cases y <;> rfl)
    | exact absurd hx (by simp [tvKind])

theorem specCmpElem_eq5 (a : Nat) (y : TupleValue) :
    specCmpElem (.ieeeBinaryFloatingPointFloat a) y =
      if tvKind y = 5 then
        if isNaN32 a || isNaN32 (floatBitsOf y) then none
        else some (floatOrd 2147483648 a (floatBitsOf y))
      else none := by
  cases y <;> rfl

theorem specCmpElem_eq6 (a : Nat) (y : TupleValue) :
    specCmpElem (.ieeeBinaryFloatingPointDouble a) y =
      if tvKind y = 6 then
        if isNaN64 a || isNaN64 (doubleBitsOf y) then none
        else some (floatOrd 9223372036854775808 a (doubleBitsOf y))
      else none := by
  cases y <;> rfl

theorem specCmpElem_eq7 (x y : TupleValue) (hx : tvKind x = 7) :
    specCmpElem x y =
      if tvKind y = 7 then some (boolOrd (boolOf x) (boolOf y)) else none := by
  cases x <;> first
    | (cases y <;> rfl)
    | exact absurd hx (by simp [tvKind])

theorem specCmpElem_eq8 (u : List Nat) (y : TupleValue) :
    specCmpElem (.rfc4122Uuid u) y =
      if tvKind y = 8 then some (lexOrd u (uuidOf y)) else none := by
  cases y <;> rfl

theorem specCmpElem_eq9 (v : Versionstamp) (y : TupleValue) :
    specCmpElem (.versionstamp96Bit v) y =
      if tvKind y = 9 then some (lexOrd v.getBytes (vsOf y).getBytes)
      else none := by
  cases y <;> rfl

set_option maxHeartbeats 1600000 in
theorem specCmp_enc_aux : ∀ n : Nat,
    (∀ x y : TupleValue, sizeOf x + sizeOf y ≤ n →
      tvWf x = true → tvWf y = true → ∀ o : Ordering, specCmpElem x y = some o →
      (o = .eq → encElemN x = encElemN y) ∧
      (o = .lt → ∀ r s : List Nat, headLt255 r = true → headLt255 s = true →
        lexLt (encElemN x ++ r) (encElemN y ++ s) = true) ∧
      (o = .gt → ∀ r s : List Nat, headLt255 r = true → headLt255 s = true →
        lexLt (encElemN y ++ s) (encElemN x ++ r) = true)) ∧
    (∀ as bs : List TupleValue, sizeOf as + sizeOf bs ≤ n →
      listWf as = true → listWf bs = true → ∀ o : Ordering, specCmpSeq as bs = some o →
      (o = .eq → encNList as = encNList bs) ∧
      (o = .lt → ∀ r s : List Nat, headLt255 r = true → headLt255 s = true →
        lexLt (encNList as ++ 0 :: r) (encNList bs ++ 0 :: s) = true) ∧
      (o = .gt → ∀ r s : List Nat, headLt255 r = true → headLt255 s = true →
        lexLt (encNList bs ++ 0 :: s) (encNList as ++ 0 :: r) = true)) := by
  intro n
  induction n with
  | zero =>
      constructor
      · intro x y hsz
        have hx := tv_sizeOf_pos x
        have hy := tv_sizeOf_pos y
        exact absurd hsz (by omega)
      · intro as bs hsz
        have ha := list_sizeOf_pos as
        have hb := list_sizeOf_pos bs
        exact absurd hsz (by omega)
  | succ n ih =>
      obtain ⟨ihE, ihS⟩ := ih
      constructor
      · intro x y hsz hwx hwy o h
        cases x
        case nullValue =>
          rw [specCmpElem_eq0] at h
          by_cases hk : tvKind y = 0
          · rw [if_pos hk] at h
            obtain rfl := tvKind0_shape y hk
            injection h with h
            subst h
            exact ⟨fun _ => rfl, fun hc => Ordering.noConfusion hc,
              fun hc => Ordering.noConfusion hc⟩
          · rw [if_neg hk] at h
            exact Option.noConfusion h
        case byteString b =>
          rw [specCmpElem_eq1] at h
          by_cases hk : tvKind y = 1
          · rw [if_pos hk] at h
            obtain ⟨b2, rfl⟩ := tvKind1_shape y hk
            simp only [bytesOf] at h
            injection h with h
            refine ⟨?_, ?_, ?_⟩
            · intro ho
              rw [ho] at h
              rw [lexOrd_eq _ _ h]
            · intro ho r s hr hs
              rw [ho] at h
              have hl2 := lexLt_escape b b2 r s hr hs (lexOrd_lt _ _ h)
              simp only [encElemN, List.cons_append, List.append_assoc,
                List.singleton_append, List.nil_append]
              rw [lexLt_cons_cons, hl2]
              rfl
            · intro ho r s hr hs
              rw [ho] at h
              have hl2 := lexLt_escape b2 b s r hs hr (lexOrd_gt _ _ h)
              simp only [encElemN, List.cons_append, List.append_assoc,
                List.singleton_append, List.nil_append]
              rw [lexLt_cons_cons, hl2]
              rfl
          · rw [if_neg hk] at h
            exact Option.noConfusion h
        case unicodeString sb =>
          rw [specCmpElem_eq2] at h
          by_cases hk : tvKind y = 2
          · rw [if_pos hk] at h
            obtain ⟨sb2, rfl⟩ := tvKind2_shape y hk
            simp only [stringOf] at h
            injection h with h
            refine ⟨?_, ?_, ?_⟩
            · intro ho
              rw [ho] at h
              rw [lexOrd_eq _ _ h]
            · intro ho r s hr hs
              rw [ho] at h
              have hl2 := lexLt_escape sb sb2 r s hr hs (lexOrd_lt _ _ h)
              simp only [encElemN, List.cons_append, List.append_assoc,
                List.singleton_append, List.nil_append]
              rw [lexLt_cons_cons, hl2]
              rfl
            · intro ho r s hr hs
              rw [ho] at h
              have hl2 := lexLt_escape sb2 sb s r hs hr (lexOrd_gt _ _ h)
              simp only [encElemN, List.cons_append, List.append_assoc,
                List.singleton_append, List.nil_append]
              rw [lexLt_cons_cons, hl2]
              rfl
          · rw [if_neg hk] at h
            exact Option.noConfusion h
        case nestedTuple a =>
          by_cases hk3 : tvKind y = 3
          · obtain ⟨b2, rfl⟩ := tvKind3_shape y hk3
            rw [specCmpElem_eq3] at h
            simp only [tvWf] at hwx hwy
            have hsz2 : sizeOf a + sizeOf b2 ≤ n := by
              simp only [TupleValue.nestedTuple.sizeOf_spec] at hsz
              omega
            obtain ⟨heE, hlE, hgE⟩ := ihS a b2 hsz2 hwx hwy o h
            refine ⟨?_, ?_, ?_⟩
            · intro ho
              simp only [encElemN, heE ho]
            · intro ho r s hr hs
              simp only [encElemN, List.cons_append, List.append_assoc,
                List.singleton_append, List.nil_append]
              rw [lexLt_cons_cons, hlE ho r s hr hs]
              rfl
            · intro ho r s hr hs
              simp only [encElemN, List.cons_append, List.append_assoc,
                List.singleton_append, List.nil_append]
              rw [lexLt_cons_cons, hgE ho r s hr hs]
              rfl
          · rw [specCmpElem_eq3none a y hk3] at h
            exact Option.noConfusion h
        case ieeeBinaryFloatingPointFloat fb =>
          rw [specCmpElem_eq5] at h
          by_cases hk : tvKind y = 5
          · rw [if_pos hk] at h
            obtain ⟨fb2, rfl⟩ := tvKind5_shape y hk
            simp only [floatBitsOf] at h
            simp only [tvWf, decide_eq_true_eq] at hwx hwy
            by_cases hnan : (isNaN32 fb || isNaN32 fb2) = true
            · rw [if_pos hnan] at h
              exact Option.noConfusion h
            · rw [if_neg hnan] at h
              injection h with h
              refine ⟨?_, ?_, ?_⟩
              · intro ho
                rw [ho] at h
                rw [floatOrd_eq _ _ _ h]
              · intro ho r s hr hs
                rw [ho] at h
                have hp := floatPayload_lt 4 2147483648 fb fb2 (by norm_num)
                  (by norm_num) (by norm_num; omega) (by norm_num; omega) r s h
                simp only [encElemN, List.cons_append]
                rw [lexLt_cons_cons, hp]
                rfl
              · intro ho r s hr hs
                rw [ho] at h
                have hp := floatPayload_lt 4 2147483648 fb2 fb (by norm_num)
                  (by norm_num) (by norm_num; omega) (by norm_num; omega) s r
                  (floatOrd_gt _ _ _ h)
                simp only [encElemN, List.cons_append]
                rw [lexLt_cons_cons, hp]
                rfl
          · rw [if_neg hk] at h
            exact Option.noConfusion h
        case ieeeBinaryFloatingPointDouble fb =>
          rw [specCmpElem_eq6] at h
          by_cases hk : tvKind y = 6
          · rw [if_pos hk] at h
            obtain ⟨fb2, rfl⟩ := tvKind6_shape y hk
            simp only [doubleBitsOf] at h
            simp only [tvWf, decide_eq_true_eq] at hwx hwy
            by_cases hnan : (isNaN64 fb || isNaN64 fb2) = true
            · rw [if_pos hnan] at h
              exact Option.noConfusion h
            · rw [if_neg hnan] at h
              injection h with h
              refine ⟨?_, ?_, ?_⟩
              · intro ho
                rw [ho] at h
                rw [floatOrd_eq _ _ _ h]
              · intro ho r s hr hs
                rw [ho] at h
                have hp := floatPayload_lt 8 9223372036854775808 fb fb2 (by norm_num)
                  (by norm_num) (by norm_num; omega) (by norm_num; omega) r s h
                simp only [encElemN, List.cons_append]
                rw [lexLt_cons_cons, hp]
                rfl
              · intro ho r s hr hs
                rw [ho] at h
                have hp := floatPayload_lt 8 9223372036854775808 fb2 fb (by norm_num)
                  (by norm_num) (by norm_num; omega) (by norm_num; omega) s r
                  (floatOrd_gt _ _ _ h)
                simp only [encElemN, List.cons_append]
                rw [lexLt_cons_cons, hp]
                rfl
          · rw [if_neg hk] at h
            exact Option.noConfusion h
        case falseValue =>
          rw [specCmpElem_eq7 .falseValue y rfl] at h
          by_cases hk : tvKind y = 7
          · rw [if_pos hk] at h
            rcases tvKind7_shape y hk with rfl | rfl
            · simp [boolOf, boolOrd] at h
              subst h
              exact ⟨fun _ => rfl, fun hc => Ordering.noConfusion hc,
                fun hc => Ordering.noConfusion hc⟩
            · simp [boolOf, boolOrd] at h
              subst h
              refine ⟨fun hc => Ordering.noConfusion hc, ?_,
                fun hc => Ordering.noConfusion hc⟩
              intro _ r s hr hs
              simp only [encElemN, List.singleton_append, List.nil_append]
              rw [lexLt_cons_cons]
              rfl
          · rw [if_neg hk] at h
            exact Option.noConfusion h
        case trueValue =>
          rw [specCmpElem_eq7 .trueValue y rfl] at h
          by_cases hk : tvKind y = 7
          · rw [if_pos hk] at h
            rcases tvKind7_shape y hk with rfl | rfl
            · simp [boolOf, boolOrd] at h
              subst h
              refine ⟨fun hc => Ordering.noConfusion hc,
                fun hc => Ordering.noConfusion hc, ?_⟩
              intro _ r s hr hs
              simp only [encElemN, List.singleton_append, List.nil_append]
              rw [lexLt_cons_cons]
              rfl
            · simp [boolOf, boolOrd] at h
              subst h
              exact ⟨fun _ => rfl, fun hc => Ordering.noConfusion hc,
                fun hc => Ordering.noConfusion hc⟩
          · rw [if_neg hk] at h
            exact Option.noConfusion h
        case rfc4122Uuid u =>
          rw [specCmpElem_eq8] at h
          by_cases hk : tvKind y = 8
          · rw [if_pos hk] at h
            obtain ⟨u2, rfl⟩ := tvKind8_shape y hk
            simp only [uuidOf] at h
            simp only [tvWf, Bool.and_eq_true, decide_eq_true_eq] at hwx hwy
            injection h with h
            refine ⟨?_, ?_, ?_⟩
            · intro ho
              rw [ho] at h
              rw [lexOrd_eq _ _ h]
            · intro ho r s hr hs
              rw [ho] at h
              have hne : u ≠ u2 := by
                intro he
                rw [he, lexOrd] at h
                simp at h
              simp only [encElemN, List.cons_append]
              rw [lexLt_cons_cons, lexLt_eqlen_append u u2 r s (by omega) hne,
                lexOrd_lt _ _ h]
              rfl
            · intro ho r s hr hs
              rw [ho] at h
              have hne : u2 ≠ u := by
                intro he
                rw [← he, lexOrd] at h
                simp at h
              simp only [encElemN, List.cons_append]
              rw [lexLt_cons_cons, lexLt_eqlen_append u2 u s r (by omega) hne,
                lexOrd_gt _ _ h]
              rfl
          · rw [if_neg hk] at h
            exact Option.noConfusion h
        case versionstamp96Bit v =>
          rw [specCmpElem_eq9] at h
          by_cases hk : tvKind y = 9
          · rw [if_pos hk] at h
            obtain ⟨v2, rfl⟩ := tvKind9_shape y hk
            simp only [vsOf] at h
            simp only [tvWf, Bool.and_eq_true, decide_eq_true_eq] at hwx hwy
            have hL : v.getBytes.length = 12 := by
              simp [Versionstamp.getBytes, beBytesFixed_length, hwx.1.1]
            have hL2 : v2.getBytes.length = 12 := by
              simp [Versionstamp.getBytes, beBytesFixed_length, hwy.1.1]
            injection h with h
            refine ⟨?_, ?_, ?_⟩
            · intro ho
              rw [ho] at h
              simp only [encElemN, lexOrd_eq _ _ h]
            · intro ho r s hr hs
              rw [ho] at h
              have hne : v.getBytes ≠ v2.getBytes := by
                intro he
                rw [he, lexOrd] at h
                simp at h
              simp only [encElemN, List.cons_append]
              rw [lexLt_cons_cons, lexLt_eqlen_append _ _ r s (by omega) hne,
                lexOrd_lt _ _ h]
              rfl
            · intro ho r s hr hs
              rw [ho] at h
              have hne : v2.getBytes ≠ v.getBytes := by
                intro he
                rw [← he, lexOrd] at h
                simp at h
              simp only [encElemN, List.cons_append]
              rw [lexLt_cons_cons, lexLt_eqlen_append _ _ s r (by omega) hne,
                lexOrd_gt _ _ h]
              rfl
          · rw [if_neg hk] at h
            exact Option.noConfusion h
        case negativeArbitraryPrecisionInteger m =>
          rw [specCmpElem_eq4 (.negativeArbitraryPrecisionInteger m) y rfl] at h
          by_cases hk : tvKind y = 4
          · rw [if_pos hk] at h
            injection h with h
            refine ⟨?_, ?_, ?_⟩
            · intro ho
              rw [ho] at h
              exact intElem_eq2 _ _ hwx hwy rfl hk (intOrd_eq _ _ h)
            · intro ho r s hr hs
              rw [ho] at h
              exact intElem_lt2 _ _ hwx hwy rfl hk (intOrd_lt _ _ h) r s
            · intro ho r s hr hs
              rw [ho] at h
              exact intElem_lt2 _ _ hwy hwx hk rfl (intOrd_gt _ _ h) s r
          · rw [if_neg hk] at h
            exact Option.noConfusion h
        case negInt8 u =>
          rw [specCmpElem_eq4 (.negInt8 u) y rfl] at h
          by_cases hk : tvKind y = 4
          · rw [if_pos hk] at h
            injection h with h
            refine ⟨?_, ?_, ?_⟩
            · intro ho
              rw [ho] at h
              exact intElem_eq2 _ _ hwx hwy rfl hk (intOrd_eq _ _ h)
            · intro ho r s hr hs
              rw [ho] at h
              exact intElem_lt2 _ _ hwx hwy rfl hk (intOrd_lt _ _ h) r s
            · intro ho r s hr hs
              rw [ho] at h
              exact intElem_lt2 _ _ hwy hwx hk rfl (intOrd_gt _ _ h) s r
          · rw [if_neg hk] at h
            exact Option.noConfusion h
        case negInt7 u =>
          rw [specCmpElem_eq4 (.negInt7 u) y rfl] at h
          by_cases hk : tvKind y = 4
          · rw [if_pos hk] at h
            injection h with h
            refine ⟨?_, ?_, ?_⟩
            · intro ho
              rw [ho] at h
              exact intElem_eq2 _ _ hwx hwy rfl hk (intOrd_eq _ _ h)
            · intro ho r s hr hs
              rw [ho] at h
              exact intElem_lt2 _ _ hwx hwy rfl hk (intOrd_lt _ _ h) r s
            · intro ho r s hr hs
              rw [ho] at h
              exact intElem_lt2 _ _ hwy hwx hk rfl (intOrd_gt _ _ h) s r
          · rw [if_neg hk] at h
            exact Option.noConfusion h
        case negInt6 u =>
          rw [specCmpElem_eq4 (.negInt6 u) y rfl] at h
          by_cases hk : tvKind y = 4
          · rw [if_pos hk] at h
            injection h with h
            refine ⟨?_, ?_, ?_⟩
            · intro ho
              rw [ho] at h
              exact intElem_eq2 _ _ hwx hwy rfl hk (intOrd_eq _ _ h)
            · intro ho r s hr hs
              rw [ho] at h
              exact intElem_lt2 _ _ hwx hwy rfl hk (intOrd_lt _ _ h) r s
            · intro ho r s hr hs
              rw [ho] at h
              exact intElem_lt2 _ _ hwy hwx hk rfl (intOrd_gt _ _ h) s r
          · rw [if_neg hk] at h
            exact Option.noConfusion h
        case negInt5 u =>
          rw [specCmpElem_eq4 (.negInt5 u) y rfl] at h
          by_cases hk : tvKind y = 4
          · rw [if_pos hk] at h
            injection h with h
            refine ⟨?_, ?_, ?_⟩
            · intro ho
              rw [ho] at h
              exact intElem_eq2 _ _ hwx hwy rfl hk (intOrd_eq _ _ h)
            · intro ho r s hr hs
              rw [ho] at h
              exact intElem_lt2 _ _ hwx hwy rfl hk (intOrd_lt _ _ h) r s
            · intro ho r s hr hs
              rw [ho] at h
              exact intElem_lt2 _ _ hwy hwx hk rfl (intOrd_gt _ _ h) s r
          · rw [if_neg hk] at h
            exact Option.noConfusion h
        case negInt4 u =>
          rw [specCmpElem_eq4 (.negInt4 u) y rfl] at h
          by_cases hk : tvKind y = 4
          · rw [if_pos hk] at h
            injection h with h
            refine ⟨?_, ?_, ?_⟩
            · intro ho
              rw [ho] at h
              exact intElem_eq2 _ _ hwx hwy rfl hk (intOrd_eq _ _ h)
            · intro ho r s hr hs
              rw [ho] at h
              exact intElem_lt2 _ _ hwx hwy rfl hk (intOrd_lt _ _ h) r s
            · intro ho r s hr hs
              rw [ho] at h
              exact intElem_lt2 _ _ hwy hwx hk rfl (intOrd_gt _ _ h) s r
          · rw [if_neg hk] at h
            exact Option.noConfusion h
        case negInt3 u =>
          rw [specCmpElem_eq4 (.negInt3 u) y rfl] at h
          by_cases hk : tvKind y = 4
          · rw [if_pos hk] at h
            injection h with h
            refine ⟨?_, ?_, ?_⟩
            · intro ho
              rw [ho] at h
              exact intElem_eq2 _ _ hwx hwy rfl hk (intOrd_eq _ _ h)
            · intro ho r s hr hs
              rw [ho] at h
              exact intElem_lt2 _ _ hwx hwy rfl hk (intOrd_lt _ _ h) r s
            · intro ho r s hr hs
              rw [ho] at h
              exact intElem_lt2 _ _ hwy hwx hk rfl (intOrd_gt _ _ h) s r
          · rw [if_neg hk] at h
            exact Option.noConfusion h
        case negInt2 u =>
          rw [specCmpElem_eq4 (.negInt2 u) y rfl] at h
          by_cases hk : tvKind y = 4
          · rw [if_pos hk] at h
            injection h with h
            refine ⟨?_, ?_, ?_⟩
            · intro ho
              rw [ho] at h
              exact intElem_eq2 _ _ hwx hwy rfl hk (intOrd_eq _ _ h)
            · intro ho r s hr hs
              rw [ho] at h
              exact intElem_lt2 _ _ hwx hwy rfl hk (intOrd_lt _ _ h) r s
            · intro ho r s hr hs
              rw [ho] at h
              exact intElem_lt2 _ _ hwy hwx hk rfl (intOrd_gt _ _ h) s r
          · rw [if_neg hk] at h
            exact Option.noConfusion h
        case negInt1 u =>
          rw [specCmpElem_eq4 (.negInt1 u) y rfl] at h
          by_cases hk : tvKind y = 4
          · rw [if_pos hk] at h
            injection h with h
            refine ⟨?_, ?_, ?_⟩
            · intro ho
              rw [ho] at h
              exact intElem_eq2 _ _ hwx hwy rfl hk (intOrd_eq _ _ h)
            · intro ho r s hr hs
              rw [ho] at h
              exact intElem_lt2 _ _ hwx hwy rfl hk (intOrd_lt _ _ h) r s
            · intro ho r s hr hs
              rw [ho] at h
              exact intElem_lt2 _ _ hwy hwx hk rfl (intOrd_gt _ _ h) s r
          · rw [if_neg hk] at h
            exact Option.noConfusion h
        case intZero =>
          rw [specCmpElem_eq4 (.intZero) y rfl] at h
          by_cases hk : tvKind y = 4
          · rw [if_pos hk] at h
            injection h with h
            refine ⟨?_, ?_, ?_⟩
            · intro ho
              rw [ho] at h
              exact intElem_eq2 _ _ hwx hwy rfl hk (intOrd_eq _ _ h)
            · intro ho r s hr hs
              rw [ho] at h
              exact intElem_lt2 _ _ hwx hwy rfl hk (intOrd_lt _ _ h) r s
            · intro ho r s hr hs
              rw [ho] at h
              exact intElem_lt2 _ _ hwy hwx hk rfl (intOrd_gt _ _ h) s r
          · rw [if_neg hk] at h
            exact Option.noConfusion h
        case posInt1 u =>
          rw [specCmpElem_eq4 (.posInt1 u) y rfl] at h
          by_cases hk : tvKind y = 4
          · rw [if_pos hk] at h
            injection h with h
            refine ⟨?_, ?_, ?_⟩
            · intro ho
              rw [ho] at h
              exact intElem_eq2 _ _ hwx hwy rfl hk (intOrd_eq _ _ h)
            · intro ho r s hr hs
              rw [ho] at h
              exact intElem_lt2 _ _ hwx hwy rfl hk (intOrd_lt _ _ h) r s
            · intro ho r s hr hs
              rw [ho] at h
              exact intElem_lt2 _ _ hwy hwx hk rfl (intOrd_gt _ _ h) s r
          · rw [if_neg hk] at h
            exact Option.noConfusion h
        case posInt2 u =>
          rw [specCmpElem_eq4 (.posInt2 u) y rfl] at h
          by_cases hk : tvKind y = 4
          · rw [if_pos hk] at h
            injection h with h
            refine ⟨?_, ?_, ?_⟩
            · intro ho
              rw [ho] at h
              exact intElem_eq2 _ _ hwx hwy rfl hk (intOrd_eq _ _ h)
            · intro ho r s hr hs
              rw [ho] at h
              exact intElem_lt2 _ _ hwx hwy rfl hk (intOrd_lt _ _ h) r s
            · intro ho r s hr hs
              rw [ho] at h
              exact intElem_lt2 _ _ hwy hwx hk rfl (intOrd_gt _ _ h) s r
          · rw [if_neg hk] at h
            exact Option.noConfusion h
        case posInt3 u =>
          rw [specCmpElem_eq4 (.posInt3 u) y rfl] at h
          by_cases hk : tvKind y = 4
          · rw [if_pos hk] at h
            injection h with h
            refine ⟨?_, ?_, ?_⟩
            · intro ho
              rw [ho] at h
              exact intElem_eq2 _ _ hwx hwy rfl hk (intOrd_eq _ _ h)
            · intro ho r s hr hs
              rw [ho] at h
              exact intElem_lt2 _ _ hwx hwy rfl hk (intOrd_lt _ _ h) r s
            · intro ho r s hr hs
              rw [ho] at h
              exact intElem_lt2 _ _ hwy hwx hk rfl (intOrd_gt _ _ h) s r
          · rw [if_neg hk] at h
            exact Option.noConfusion h
        case posInt4 u =>
          rw [specCmpElem_eq4 (.posInt4 u) y rfl] at h
          by_cases hk : tvKind y = 4
          · rw [if_pos hk] at h
            injection h with h
            refine ⟨?_, ?_, ?_⟩
            · intro ho
              rw [ho] at h
              exact intElem_eq2 _ _ hwx hwy rfl hk (intOrd_eq _ _ h)
            · intro ho r s hr hs
              rw [ho] at h
              exact intElem_lt2 _ _ hwx hwy rfl hk (intOrd_lt _ _ h) r s
            · intro ho r s hr hs
              rw [ho] at h
              exact intElem_lt2 _ _ hwy hwx hk rfl (intOrd_gt _ _ h) s r
          · rw [if_neg hk] at h
            exact Option.noConfusion h
        case posInt5 u =>
          rw [specCmpElem_eq4 (.posInt5 u) y rfl] at h
          by_cases hk : tvKind y = 4
          · rw [if_pos hk] at h
            injection h with h
            refine ⟨?_, ?_, ?_⟩
            · intro ho
              rw [ho] at h
              exact intElem_eq2 _ _ hwx hwy rfl hk (intOrd_eq _ _ h)
            · intro ho r s hr hs
              rw [ho] at h
              exact intElem_lt2 _ _ hwx hwy rfl hk (intOrd_lt _ _ h) r s
            · intro ho r s hr hs
              rw [ho] at h
              exact intElem_lt2 _ _ hwy hwx hk rfl (intOrd_gt _ _ h) s r
          · rw [if_neg hk] at h
            exact Option.noConfusion h
        case posInt6 u =>
          rw [specCmpElem_eq4 (.posInt6 u) y rfl] at h
          by_cases hk : tvKind y = 4
          · rw [if_pos hk] at h
            injection h with h
            refine ⟨?_, ?_, ?_⟩
            · intro ho
              rw [ho] at h
              exact intElem_eq2 _ _ hwx hwy rfl hk (intOrd_eq _ _ h)
            · intro ho r s hr hs
              rw [ho] at h
              exact intElem_lt2 _ _ hwx hwy rfl hk (intOrd_lt _ _ h) r s
            · intro ho r s hr hs
              rw [ho] at h
              exact intElem_lt2 _ _ hwy hwx hk rfl (intOrd_gt _ _ h) s r
          · rw [if_neg hk] at h
            exact Option.noConfusion h
        case posInt7 u =>
          rw [specCmpElem_eq4 (.posInt7 u) y rfl] at h
          by_cases hk : tvKind y = 4
          · rw [if_pos hk] at h
            injection h with h
            refine ⟨?_, ?_, ?_⟩
            · intro ho
              rw [ho] at h
              exact intElem_eq2 _ _ hwx hwy rfl hk (intOrd_eq _ _ h)
            · intro ho r s hr hs
              rw [ho] at h
              exact intElem_lt2 _ _ hwx hwy rfl hk (intOrd_lt _ _ h) r s
            · intro ho r s hr hs
              rw [ho] at h
              exact intElem_lt2 _ _ hwy hwx hk rfl (intOrd_gt _ _ h) s r
          · rw [if_neg hk] at h
            exact Option.noConfusion h
        case posInt8 u =>
          rw [specCmpElem_eq4 (.posInt8 u) y rfl] at h
          by_cases hk : tvKind y = 4
          · rw [if_pos hk] at h
            injection h with h
            refine ⟨?_, ?_, ?_⟩
            · intro ho
              rw [ho] at h
              exact intElem_eq2 _ _ hwx hwy rfl hk (intOrd_eq _ _ h)
            · intro ho r s hr hs
              rw [ho] at h
              exact intElem_lt2 _ _ hwx hwy rfl hk (intOrd_lt _ _ h) r s
            · intro ho r s hr hs
              rw [ho] at h
              exact intElem_lt2 _ _ hwy hwx hk rfl (intOrd_gt _ _ h) s r
          · rw [if_neg hk] at h
            exact Option.noConfusion h
        case positiveArbitraryPrecisionInteger m =>
          rw [specCmpElem_eq4 (.positiveArbitraryPrecisionInteger m) y rfl] at h
          by_cases hk : tvKind y = 4
          · rw [if_pos hk] at h
            injection h with h
            refine ⟨?_, ?_, ?_⟩
            · intro ho
              rw [ho] at h
              exact intElem_eq2 _ _ hwx hwy rfl hk (intOrd_eq _ _ h)
            · intro ho r s hr hs
              rw [ho] at h
              exact intElem_lt2 _ _ hwx hwy rfl hk (intOrd_lt _ _ h) r s
            · intro ho r s hr hs
              rw [ho] at h
              exact intElem_lt2 _ _ hwy hwx hk rfl (intOrd_gt _ _ h) s r
          · rw [if_neg hk] at h
            exact Option.noConfusion h
      · intro as bs hsz hwa hwb o h
        cases as with
        | nil =>
            cases bs with
            | nil =>
                simp only [specCmpSeq, Option.some.injEq] at h
                subst h
                exact ⟨fun _ => rfl, fun hc => Ordering.noConfusion hc,
                  fun hc => Ordering.noConfusion hc⟩
            | cons y ys =>
                simp only [specCmpSeq, Option.some.injEq] at h
                subst h
                refine ⟨fun hc => Ordering.noConfusion hc, ?_,
                  fun hc => Ordering.noConfusion hc⟩
                intro _ r s hr hs
                simp only [encNList, List.nil_append]
                exact nestedNil_lt y ys r s hr
        | cons x xs =>
            cases bs with
            | nil =>
                simp only [specCmpSeq, Option.some.injEq] at h
                subst h
                refine ⟨fun hc => Ordering.noConfusion hc,
                  fun hc => Ordering.noConfusion hc, ?_⟩
                intro _ r s hr hs
                simp only [encNList, List.nil_append]
                exact nestedNil_lt x xs s r hs
            | cons y ys =>
                simp only [specCmpSeq] at h
                simp only [listWf, Bool.and_eq_true] at hwa hwb
                obtain ⟨hwx, hwxs⟩ := hwa
                obtain ⟨hwy, hwys⟩ := hwb
                simp only [List.cons.sizeOf_spec] at hsz
                have hszE : sizeOf x + sizeOf y ≤ n := by
                  have h1 := list_sizeOf_pos xs
                  have h2 := list_sizeOf_pos ys
                  omega
                have hszS : sizeOf xs + sizeOf ys ≤ n := by
                  have h1 := tv_sizeOf_pos x
                  have h2 := tv_sizeOf_pos y
                  omega
                cases he : specCmpElem x y with
                | none =>
                    rw [he] at h
                    exact Option.noConfusion h
                | some oe =>
                    rw [he] at h
                    obtain ⟨heE, hlE, hgE⟩ := ihE x y hszE hwx hwy oe he
                    cases oe with
                    | eq =>
                        have h2 : specCmpSeq xs ys = some o := h
                        obtain ⟨heS, hlS, hgS⟩ := ihS xs ys hszS hwxs hwys o h2
                        have hencx := heE rfl
                        refine ⟨?_, ?_, ?_⟩
                        · intro ho
                          simp only [encNList, hencx, heS ho]
                        · intro ho r s hr hs
                          simp only [encNList, List.append_assoc, hencx]
                          rw [lexLt_append_left]
                          exact hlS ho r s hr hs
                        · intro ho r s hr hs
                          simp only [encNList, List.append_assoc, hencx]
                          rw [lexLt_append_left]
                          exact hgS ho r s hr hs
                    | lt =>
                        have h2 : some Ordering.lt = some o := h
                        injection h2 with h2
                        subst h2
                        refine ⟨fun hc => Ordering.noConfusion hc, ?_,
                          fun hc => Ordering.noConfusion hc⟩
                        intro _ r s hr hs
                        simp only [encNList, List.append_assoc]
                        exact hlE rfl (encNList xs ++ 0 :: r)
                          (encNList ys ++ 0 :: s)
                          (headLt255_encNList_term xs r)
                          (headLt255_encNList_term ys s)
                    | gt =>
                        have h2 : some Ordering.gt = some o := h
                        injection h2 with h2
                        subst h2
                        refine ⟨fun hc => Ordering.noConfusion hc,
                          fun hc => Ordering.noConfusion hc, ?_⟩
                        intro _ r s hr hs
                        simp only [encNList, List.append_assoc]
                        exact hgE rfl (encNList xs ++ 0 :: r)
                          (encNList ys ++ 0 :: s)
                          (headLt255_encNList_term xs r)
                          (headLt255_encNList_term ys s)

theorem encElem_eq_of_encElemN (x y : TupleValue) (h : encElemN x = encElemN y) :
    encElem x = encElem y := by
  cases x <;> cases y <;> first
    | rfl
    | exact h
    | (injection h with h1 h2
       exact absurd h1 (by decide))

theorem encElem_eq_encElemN (x : TupleValue) (hx : x ≠ .nullValue) :
    encElem x = encElemN x := by
  cases x <;> first | exact absurd rfl hx | rfl

theorem specCmpElem_null_eq (y : TupleValue) (o : Ordering)
    (h : specCmpElem .nullValue y = some o) : y = .nullValue ∧ o = .eq := by
  rw [specCmpElem_eq0] at h
  by_cases hk : tvKind y = 0
  · rw [if_pos hk] at h
    injection h with h
    exact ⟨tvKind0_shape y hk, h.symm⟩
  · rw [if_neg hk] at h
    exact Option.noConfusion h

theorem specCmpElem_null_right (x : TupleValue) (o : Ordering)
    (h : specCmpElem x .nullValue = some o) : x = .nullValue ∧ o = .eq := by
  cases x
  case nullValue =>
    rw [specCmpElem_eq0] at h
    simp only [tvKind, if_pos] at h
    injection h with h
    exact ⟨rfl, h.symm⟩
  all_goals exact Option.noConfusion h

/-- The source order on packed tuples agrees with the spec-side semantic
comparison at the top level (where a null encodes as the single byte `0x00`
rather than the nested pair `0x00 0xFF`). -/
theorem specCmpSeq_toBytes : ∀ (as bs : List TupleValue), listWf as = true →
    listWf bs = true → ∀ o : Ordering, specCmpSeq as bs = some o →
    (o = .eq → toBytes as = toBytes bs) ∧
    (o = .lt → lexLt (toBytes as) (toBytes bs) = true) ∧
    (o = .gt → lexLt (toBytes bs) (toBytes as) = true) := by
  intro as
  induction as with
  | nil =>
      intro bs hwa hwb o h
      cases bs with
      | nil =>
          simp only [specCmpSeq, Option.some.injEq] at h
          subst h
          exact ⟨fun _ => rfl, fun hc => Ordering.noConfusion hc,
            fun hc => Ordering.noConfusion hc⟩
      | cons y ys =>
          simp only [specCmpSeq, Option.some.injEq] at h
          subst h
          refine ⟨fun hc => Ordering.noConfusion hc, ?_,
            fun hc => Ordering.noConfusion hc⟩
          intro _
          have hne := toBytes_ne_nil y ys
          rw [show toBytes ([] : List TupleValue) = [] from rfl, lexLt_nil_left]
          simpa using hne
  | cons x xs ih =>
      intro bs hwa hwb o h
      cases bs with
      | nil =>
          simp only [specCmpSeq, Option.some.injEq] at h
          subst h
          refine ⟨fun hc => Ordering.noConfusion hc,
            fun hc => Ordering.noConfusion hc, ?_⟩
          intro _
          have hne := toBytes_ne_nil x xs
          rw [show toBytes ([] : List TupleValue) = [] from rfl, lexLt_nil_left]
          simpa using hne
      | cons y ys =>
          simp only [specCmpSeq] at h
          simp only [listWf, Bool.and_eq_true] at hwa hwb
          obtain ⟨hwx, hwxs⟩ := hwa
          obtain ⟨hwy, hwys⟩ := hwb
          cases he : specCmpElem x y with
          | none =>
              rw [he] at h
              exact Option.noConfusion h
          | some oe =>
              rw [he] at h
              obtain ⟨heE, hlE, hgE⟩ :=
                (specCmp_enc_aux (sizeOf x + sizeOf y)).1 x y (le_refl _)
                  hwx hwy oe he
              cases oe with
              | eq =>
                  have h2 : specCmpSeq xs ys = some o := h
                  obtain ⟨heS, hlS, hgS⟩ := ih ys hwxs hwys o h2
                  have hene : encElem x = encElem y :=
                    encElem_eq_of_encElemN x y (heE rfl)
                  refine ⟨?_, ?_, ?_⟩
                  · intro ho
                    simp only [toBytes, hene, heS ho]
                  · intro ho
                    simp only [toBytes, hene]
                    rw [lexLt_append_left]
                    exact hlS ho
                  · intro ho
                    simp only [toBytes, hene]
                    rw [lexLt_append_left]
                    exact hgS ho
              | lt =>
                  have h2 : some Ordering.lt = some o := h
                  injection h2 with h2
                  subst h2
                  refine ⟨fun hc => Ordering.noConfusion hc, ?_,
                    fun hc => Ordering.noConfusion hc⟩
                  intro _
                  have hxn : x ≠ .nullValue := by
                    intro hxe
                    subst hxe
                    obtain ⟨hy0, hoe⟩ := specCmpElem_null_eq y .lt he
                    exact Ordering.noConfusion hoe
                  have hyn : y ≠ .nullValue := by
                    intro hye
                    subst hye
                    obtain ⟨hx0, hoe⟩ := specCmpElem_null_right x .lt he
                    exact Ordering.noConfusion hoe
                  simp only [toBytes, encElem_eq_encElemN x hxn,
                    encElem_eq_encElemN y hyn]
                  exact hlE rfl (toBytes xs) (toBytes ys)
                    (headLt255_toBytes xs) (headLt255_toBytes ys)
              | gt =>
                  have h2 : some Ordering.gt = some o := h
                  injection h2 with h2
                  subst h2
                  refine ⟨fun hc => Ordering.noConfusion hc,
                    fun hc => Ordering.noConfusion hc, ?_⟩
                  intro _
                  have hxn : x ≠ .nullValue := by
                    intro hxe
                    subst hxe
                    obtain ⟨hy0, hoe⟩ := specCmpElem_null_eq y .gt he
                    exact Ordering.noConfusion hoe
                  have hyn : y ≠ .nullValue := by
                    intro hye
                    subst hye
                    obtain ⟨hx0, hoe⟩ := specCmpElem_null_right x .gt he
                    exact Ordering.noConfusion hoe
                  simp only [toBytes, encElem_eq_encElemN x hxn,
                    encElem_eq_encElemN y hyn]
                  exact hgE rfl (toBytes xs) (toBytes ys)
                    (headLt255_toBytes xs) (headLt255_toBytes ys)

theorem intValue_addI8 (i : Int) : intValue (addI8 i) = some i := by
  simp only [addI8]
  split_ifs with h1 h2
  · simp only [intValue, Option.some.injEq]
    omega
  · simp [intValue, h2]
  · simp only [intValue, Option.some.injEq]
    omega

theorem intValue_addI16 (i : Int) : intValue (addI16 i) = some i := by
  simp only [addI16]
  split_ifs <;> first
    | exact intValue_addI8 i
    | (simp only [intValue, Option.some.injEq]; omega)

theorem intValue_addI32 (i : Int) : intValue (addI32 i) = some i := by
  simp only [addI32]
  split_ifs <;> first
    | exact intValue_addI16 i
    | (simp only [intValue, Option.some.injEq]; omega)

theorem intValue_addI64 (i : Int) : intValue (addI64 i) = some i := by
  simp only [addI64]
  split_ifs <;> first
    | exact intValue_addI32 i
    | (simp only [intValue, Option.some.injEq]; omega)

theorem addI8_wf (i : Int) (h1 : -128 ≤ i) (h2 : i ≤ 127) :
    tvWf (addI8 i) = true := by
  simp only [addI8]
  split_ifs with ha hb <;> simp [tvWf] <;> omega

theorem addI16_wf (i : Int) (h1 : -32768 ≤ i) (h2 : i ≤ 32767) :
    tvWf (addI16 i) = true := by
  simp only [addI16]
  split_ifs with ha
  · exact addI8_wf i ha.1 ha.2
  all_goals simp only [tvWf, decide_eq_true_eq] <;> omega

theorem addI32_wf (i : Int) (h1 : -2147483648 ≤ i) (h2 : i ≤ 2147483647) :
    tvWf (addI32 i) = true := by
  simp only [addI32]
  split_ifs with ha
  · exact addI16_wf i ha.1 ha.2
  all_goals simp only [tvWf, decide_eq_true_eq] <;> omega

theorem addI64_wf (i : Int) (h1 : -9223372036854775808 ≤ i)
    (h2 : i ≤ 9223372036854775807) : tvWf (addI64 i) = true := by
  simp only [addI64]
  split_ifs with ha
  · exact addI32_wf i ha.1 ha.2
  all_goals simp only [tvWf, decide_eq_true_eq] <;> omega

theorem addI16_delegate (i : Int) (h1 : -128 ≤ i) (h2 : i ≤ 127) :
    addI16 i = addI8 i := by
  simp only [addI16]
  rw [if_pos ⟨h1, h2⟩]

theorem addI32_delegate (i : Int) (h1 : -32768 ≤ i) (h2 : i ≤ 32767) :
    addI32 i = addI16 i := by
  simp only [addI32]
  rw [if_pos ⟨h1, h2⟩]

theorem addI64_delegate (i : Int) (h1 : -2147483648 ≤ i) (h2 : i ≤ 2147483647) :
    addI64 i = addI32 i := by
  simp only [addI64]
  rw [if_pos ⟨h1, h2⟩]

theorem addBigint_delegate (i : Int) (h1 : -9223372036854775808 ≤ i)
    (h2 : i ≤ 9223372036854775807) : addBigint i = some (addI64 i) := by
  simp only [addBigint]
  rw [if_pos ⟨h1, h2⟩]

/-- C3: packing is order-preserving.  (1) For all well-formed tuples `a`, `b`
built from comparable element sequences (the spec-side `specCmpSeq` returns
an `Ordering`; it covers every mixed-sign integer pair and every non-NaN
Float32/Float64 sign/magnitude combination), `pack(a) < pack(b)` under
unsigned lexicographic byte comparison holds iff the semantic element-wise
comparison says `a < b`.  (2) An integer added through any of
`add_i8`/`add_i16`/`add_i32`/`add_i64`/`add_bigint` encodes to identical
bytes whenever its value fits the narrower width.  (3) More-negative
integers encode lexicographically smaller. -/
theorem c3_encoding_order :
    (∀ a b : List TupleValue, listWf a = true → listWf b = true →
      ∀ o : Ordering, specCmpSeq a b = some o →
      (lexLt (toBytes a) (toBytes b) = true ↔ o = .lt)) ∧
    (∀ i : Int,
      ((-128 ≤ i ∧ i ≤ 127) →
        toBytes [addI16 i] = toBytes [addI8 i] ∧
        toBytes [addI32 i] = toBytes [addI8 i] ∧
        toBytes [addI64 i] = toBytes [addI8 i]) ∧
      ((-32768 ≤ i ∧ i ≤ 32767) →
        toBytes [addI32 i] = toBytes [addI16 i] ∧
        toBytes [addI64 i] = toBytes [addI16 i]) ∧
      ((-2147483648 ≤ i ∧ i ≤ 2147483647) →
        toBytes [addI64 i] = toBytes [addI32 i]) ∧
      ((-9223372036854775808 ≤ i ∧ i ≤ 9223372036854775807) →
        addBigint i = some (addI64 i))) ∧
    (∀ i j : Int, -9223372036854775808 ≤ i → i < j →
      j ≤ 9223372036854775807 →
      lexLt (toBytes [addI64 i]) (toBytes [addI64 j]) = true) := by
  refine ⟨?_, ?_, ?_⟩
  · intro a b hwa hwb o h
    obtain ⟨he, hl, hg⟩ := specCmpSeq_toBytes a b hwa hwb o h
    constructor
    · intro hlex
      cases o with
      | eq =>
          rw [he rfl, lexLt_irrefl] at hlex
          exact Bool.noConfusion hlex
      | lt => rfl
      | gt =>
          rw [lexLt_asymm (hg rfl)] at hlex
          exact Bool.noConfusion hlex
    · intro ho
      exact hl ho
  · intro i
    refine ⟨?_, ?_, ?_, ?_⟩
    · intro hr
      have e16 : addI16 i = addI8 i := addI16_delegate i hr.1 hr.2
      have e32 : addI32 i = addI16 i := addI32_delegate i (by omega) (by omega)
      have e64 : addI64 i = addI32 i := addI64_delegate i (by omega) (by omega)
      rw [e64, e32, e16]
      exact ⟨rfl, rfl, rfl⟩
    · intro hr
      have e32 : addI32 i = addI16 i := addI32_delegate i hr.1 hr.2
      have e64 : addI64 i = addI32 i := addI64_delegate i (by omega) (by omega)
      rw [e64, e32]
      exact ⟨rfl, rfl⟩
    · intro hr
      rw [addI64_delegate i hr.1 hr.2]
    · intro hr
      exact addBigint_delegate i hr.1 hr.2
  · intro i j h1 hij h2
    have hwi := addI64_wf i (by omega) (by omega)
    have hwj := addI64_wf j (by omega) (by omega)
    have hvi := intValue_addI64 i
    have hvj := intValue_addI64 j
    have hni : addI64 i ≠ .nullValue := by
      intro he
      rw [he] at hvi
      exact Option.noConfusion hvi
    have hnj : addI64 j ≠ .nullValue := by
      intro he
      rw [he] at hvj
      exact Option.noConfusion hvj
    have hmain := intElem_lt (addI64 i) (addI64 j) i j hwi hwj hvi hvj hij [] []
    simp only [toBytes, encElem_eq_encElemN _ hni, encElem_eq_encElemN _ hnj]
    exact hmain

/-- Concrete instances of C3: `-5 < 3` is reflected by the packed bytes; the
value 300 packs identically through the 64- and 16-bit add paths; `-70000`
packs lexicographically below `-3`. -/
theorem c3_encoding_order_witness :
    lexLt (toBytes [.negInt1 5]) (toBytes [.posInt1 3]) = true ∧
    toBytes [addI64 300] = toBytes [addI16 300] ∧
    lexLt (toBytes [addI64 (-70000)]) (toBytes [addI64 (-3)]) = true := by
  refine ⟨?_, ?_, ?_⟩
  · exact (c3_encoding_order.1 [.negInt1 5] [.posInt1 3] (by decide) (by decide)
      .lt (by decide)).mpr rfl
  · exact ((c3_encoding_order.2.1 300).2.1 (by norm_num)).2
  · exact c3_encoding_order.2.2 (-70000) (-3) (by norm_num) (by norm_num)
      (by norm_num)

end Fdb
